import Mathlib

/-!
# Terrain height-field synthesis and texture blending (`terrain.cpp`)

A shallow embedding of `CTERRAIN` from `Code/Chapter 3/demo3_2/terrain.cpp`.

Modelling conventions
* `float` values are exact rationals (`ℚ`); the C `int`/`unsigned char` values are
  `Int`/`Nat`, with an explicit `% 2^32` where `unsigned int` arithmetic can wrap.
* `NormalizeTerrain` and `InterpolateHeight` have a second embedding in binary32
  (`NormalizeTerrainF32`, `InterpolateHeightF32`): the result of every `float` operation
  is rounded with `roundF32` (round to nearest, ties to even, each operation evaluated in
  `float` precision).
* A `float*` working buffer is a map from element offsets to values (`FloatBuf`);
  a write `p[k] = v` is `Function.update`.
* `for` loops are left folds over `List.range`; loops whose trip count is not bounded
  by their arguments (`do … while`, `while`) take a fuel argument and return `none`
  when it runs out.
* `rand()` is an explicit stream `rand : Nat → Nat` read through a cursor.
-/

namespace Terrain

/-! ## Working buffers -/

/-- A `float*` elevation buffer, indexed by element offset from its first cell. -/
abbrev FloatBuf := Int → ℚ

/-- The set of values held by the first `n` cells of a buffer. -/
def samples (n : Nat) (buf : FloatBuf) : Set ℚ := {v | ∃ i : Nat, i < n ∧ buf (i : Int) = v}

/-! ## `CTERRAIN::NormalizeTerrain` (terrain.cpp 152-180) -/

/-- Body of the min/max loop (lines 164-168); the accumulator is `(fMin, fMax)`. -/
def minMaxStep (fpHeightData : FloatBuf) (acc : ℚ × ℚ) (i : Nat) : ℚ × ℚ :=
  if fpHeightData (i : Int) > acc.2 then (acc.1, fpHeightData (i : Int))
  else if fpHeightData (i : Int) < acc.1 then (fpHeightData (i : Int), acc.2)
  else acc

/-- The loop `for( i=1; i<m_iSize*m_iSize; i++ )` of lines 158-169, started from
`fMin = fMax = fpHeightData[0]`; returns `(fMin, fMax)`. -/
def minMaxScan (m_iSize : Nat) (fpHeightData : FloatBuf) : ℚ × ℚ :=
  (List.range (m_iSize * m_iSize - 1)).foldl
    (fun acc k => minMaxStep fpHeightData acc (k + 1)) (fpHeightData 0, fpHeightData 0)

/-- Body of the rescaling loop (line 179). -/
def scaleStep (fMin fHeight : ℚ) (fpHeightData : FloatBuf) (i : Nat) : FloatBuf :=
  Function.update fpHeightData (i : Int) (((fpHeightData (i : Int) - fMin) / fHeight) * 255)

/-- `NormalizeTerrain`: scan for min/max, return early when `fMax <= fMin`, otherwise
rescale the `m_iSize*m_iSize` cells in place. -/
def NormalizeTerrain (m_iSize : Nat) (fpHeightData : FloatBuf) : FloatBuf :=
  let mm := minMaxScan m_iSize fpHeightData
  if mm.2 ≤ mm.1 then fpHeightData
  else (List.range (m_iSize * m_iSize)).foldl (scaleStep mm.1 (mm.2 - mm.1)) fpHeightData

/-- Reference normaliser, following the specification's wording: given the minimum `mn`
and maximum `mx` of the first `n` samples, a flat field (`mx ≤ mn`) is returned unchanged,
otherwise every one of the `n` samples `v` becomes `(v - mn)/(mx - mn)*255`. -/
def normalizeReference (n : Nat) (mn mx : ℚ) (buf : FloatBuf) : FloatBuf :=
  fun i => if mx ≤ mn then buf i
    else if 0 ≤ i ∧ i < (n : Int) then (buf i - mn) / (mx - mn) * 255 else buf i

/-! ## `float` to integer conversions -/

/-- The C conversion `( int )f`: truncation toward zero. -/
def truncToInt (f : ℚ) : Int := Int.tdiv f.num (f.den : Int)

/-- The C conversion `( unsigned char )f`: the truncated value when it fits in 8 bits;
`none` when it does not (the conversion is then undefined in C). -/
def floatToUChar (f : ℚ) : Option Nat :=
  if 0 ≤ truncToInt f ∧ truncToInt f < 256 then some (truncToInt f).toNat else none

/-! ## `CTERRAIN::FilterHeightBand` and `CTERRAIN::FilterHeightField` (terrain.cpp 192-235) -/

/-- Body of the loop of `FilterHeightBand` (lines 201-204); the state is the buffer, the
previous filtered value `v` and the running offset `j`; `fpBand` is the offset of the
band's first cell inside the buffer. -/
def filterBandStep (fpBand iStride : Int) (fFilter : ℚ) (st : FloatBuf × ℚ × Int) (_i : Nat) :
    FloatBuf × ℚ × Int :=
  let buf := Function.update st.1 (fpBand + st.2.2)
    (fFilter * st.2.1 + (1 - fFilter) * st.1 (fpBand + st.2.2))
  (buf, buf (fpBand + st.2.2), st.2.2 + iStride)

/-- `FilterHeightBand( &fpHeightData[fpBand], iStride, iCount, fFilter )`. -/
def FilterHeightBand (fpHeightData : FloatBuf) (fpBand iStride : Int) (iCount : Nat)
    (fFilter : ℚ) : FloatBuf :=
  ((List.range (iCount - 1)).foldl (filterBandStep fpBand iStride fFilter)
    (fpHeightData, fpHeightData fpBand, iStride)).1

/-- `FilterHeightField`: the four directional passes, in source order. -/
def FilterHeightField (m_iSize : Nat) (fpHeightData : FloatBuf) (fFilter : ℚ) : FloatBuf :=
  let s : Int := (m_iSize : Int)
  -- erode left to right
  let b1 := (List.range m_iSize).foldl
    (fun buf (i : Nat) => FilterHeightBand buf (s * i) 1 m_iSize fFilter) fpHeightData
  -- erode right to left
  let b2 := (List.range m_iSize).foldl
    (fun buf (i : Nat) => FilterHeightBand buf (s * i + s - 1) (-1) m_iSize fFilter) b1
  -- erode top to bottom
  let b3 := (List.range m_iSize).foldl
    (fun buf (i : Nat) => FilterHeightBand buf i s m_iSize fFilter) b2
  -- erode from bottom to top
  (List.range m_iSize).foldl
    (fun buf (i : Nat) => FilterHeightBand buf (s * (s - 1) + i) (-s) m_iSize fFilter) b3

/-! ## `CTERRAIN::MakeTerrainFault` (terrain.cpp 249-349) -/

/-- The loop `for( i=0; i<m_iSize*m_iSize; i++ ) fTempBuffer[i]= 0;` (lines 287-288). -/
def clearBuffer (m_iSize : Nat) (fTempBuffer : FloatBuf) : FloatBuf :=
  (List.range (m_iSize * m_iSize)).foldl (fun buf (i : Nat) => Function.update buf (i : Int) 0)
    fTempBuffer

/-- The per-pass displacement of line 294 (C integer division truncates). -/
def faultHeight (iIterations iMinDelta iMaxDelta : Int) (iCurrentIteration : Nat) : Int :=
  iMaxDelta - Int.tdiv ((iMaxDelta - iMinDelta) * (iCurrentIteration : Int)) iIterations

/-- The `do … while` of lines 301-305: draw `(iRandX2, iRandZ2)` until it differs from
`(iRandX1, iRandZ1)`.  Returns the point and the advanced stream cursor; `none` when the
fuel runs out. -/
def pickSecondPoint (rand : Nat → Nat) (m_iSize : Nat) (iRandX1 iRandZ1 : Int) :
    Nat → Nat → Option (Int × Int × Nat)
  | 0, _ => none
  | fuel + 1, pos =>
    let iRandX2 : Int := ((rand pos % m_iSize : Nat) : Int)
    let iRandZ2 : Int := ((rand (pos + 1) % m_iSize : Nat) : Int)
    if iRandX2 = iRandX1 ∧ iRandZ2 = iRandZ1 then
      pickSecondPoint rand m_iSize iRandX1 iRandZ1 fuel (pos + 2)
    else some (iRandX2, iRandZ2, pos + 2)

/-- The double loop of lines 312-325: raise every cell strictly on the positive side of
the line through `(iRandX1, iRandZ1)` with direction `(iDirX1, iDirZ1)`. -/
def raiseFault (m_iSize : Nat) (iRandX1 iRandZ1 iDirX1 iDirZ1 iHeight : Int)
    (fTempBuffer : FloatBuf) : FloatBuf :=
  (List.range m_iSize).foldl (fun bufz (z : Nat) =>
    (List.range m_iSize).foldl (fun buf (x : Nat) =>
      let iDirX2 : Int := (x : Int) - iRandX1
      let iDirZ2 : Int := (z : Int) - iRandZ1
      if iDirX2 * iDirZ1 - iDirX1 * iDirZ2 > 0 then
        Function.update buf ((z : Int) * m_iSize + x)
          (buf ((z : Int) * m_iSize + x) + (iHeight : ℚ))
      else buf) bufz) fTempBuffer

/-- One pass of the loop of lines 290-329; the state is the buffer and the cursor into
the random stream. -/
def faultIteration (rand : Nat → Nat) (fuel m_iSize : Nat)
    (iIterations iMinDelta iMaxDelta : Int) (fFilter : ℚ)
    (st : FloatBuf × Nat) (iCurrentIteration : Nat) : Option (FloatBuf × Nat) :=
  let iHeight := faultHeight iIterations iMinDelta iMaxDelta iCurrentIteration
  let iRandX1 : Int := ((rand st.2 % m_iSize : Nat) : Int)
  let iRandZ1 : Int := ((rand (st.2 + 1) % m_iSize : Nat) : Int)
  match pickSecondPoint rand m_iSize iRandX1 iRandZ1 fuel (st.2 + 2) with
  | none => none
  | some (iRandX2, iRandZ2, pos) =>
    let iDirX1 := iRandX2 - iRandX1
    let iDirZ1 := iRandZ2 - iRandZ1
    some (FilterHeightField m_iSize
      (raiseFault m_iSize iRandX1 iRandZ1 iDirX1 iDirZ1 iHeight st.1) fFilter, pos)

/-- The working buffer of `MakeTerrainFault` just before `NormalizeTerrain` is called
(line 332).  `fTempBuffer` is the freshly allocated, not yet initialised buffer. -/
def MakeTerrainFaultRaw (rand : Nat → Nat) (fuel : Nat) (fTempBuffer : FloatBuf)
    (iSize : Nat) (iIterations iMinDelta iMaxDelta : Int) (fFilter : ℚ) : Option FloatBuf :=
  ((List.range iIterations.toNat).foldlM
    (faultIteration rand fuel iSize iIterations iMinDelta iMaxDelta fFilter)
    (clearBuffer iSize fTempBuffer, 0)).map Prod.fst

/-- The working buffer of `MakeTerrainFault` after `NormalizeTerrain` (line 332). -/
def MakeTerrainFaultBuffer (rand : Nat → Nat) (fuel : Nat) (fTempBuffer : FloatBuf)
    (iSize : Nat) (iIterations iMinDelta iMaxDelta : Int) (fFilter : ℚ) : Option FloatBuf :=
  (MakeTerrainFaultRaw rand fuel fTempBuffer iSize iIterations iMinDelta iMaxDelta
    fFilter).map (NormalizeTerrain iSize)

/-- The transfer loop of lines 335-339: cell `(x, z)` of the 8-bit grid receives
`( unsigned char )fTempBuffer[( z*m_iSize )+x]`; `SetHeightAtPoint` (declared in
`terrain.h`) stores at row-major offset `z*m_iSize + x`.  A cell is `none` when it was not
written or when the conversion is undefined. -/
def transferHeights (m_iSize : Nat) (fTempBuffer : FloatBuf) : Int → Option Nat :=
  (List.range m_iSize).foldl (fun dz (z : Nat) =>
    (List.range m_iSize).foldl (fun d (x : Nat) =>
      Function.update d ((z : Int) * m_iSize + x)
        (floatToUChar (fTempBuffer ((z : Int) * m_iSize + x)))) dz) (fun _ => none)

/-- `MakeTerrainFault`: the 8-bit height grid it leaves in `m_heightData`. -/
def MakeTerrainFault (rand : Nat → Nat) (fuel : Nat) (fTempBuffer : FloatBuf)
    (iSize : Nat) (iIterations iMinDelta iMaxDelta : Int) (fFilter : ℚ) :
    Option (Int → Option Nat) :=
  (MakeTerrainFaultBuffer rand fuel fTempBuffer iSize iIterations iMinDelta iMaxDelta
    fFilter).map (transferHeights iSize)

/-! ## Texture tiles and height regions -/

/-- Modelled from the spec: `CIMAGE` (declared in `image.h`, not part of this file) is
the texture tile source, a read-only collaborator exposing `IsLoaded`, `GetWidth`,
`GetHeight` and `GetColor(x,y) -> (r,g,b)`. -/
structure CIMAGE where
  m_bIsLoaded : Bool
  m_uiWidth : Nat
  m_uiHeight : Nat
  GetColor : Nat → Nat → Nat × Nat × Nat

/-- The colour channels a tile returns are `unsigned char` values. -/
def CIMAGE.colorsInRange (t : CIMAGE) : Prop :=
  ∀ x y, (t.GetColor x y).1 ≤ 255 ∧ (t.GetColor x y).2.1 ≤ 255 ∧ (t.GetColor x y).2.2 ≤ 255

/-- Modelled from the spec: one entry of `m_tiles.m_regions`; the structure is declared in
`terrain.h` (not part of this file) and holds the `TileRegion` attributes `lowHeight`,
`optimalHeight`, `highHeight` as integers. -/
structure STRN_TEXTURE_REGIONS where
  m_iLowHeight : Int
  m_iOptimalHeight : Int
  m_iHighHeight : Int
deriving DecidableEq, Repr

/-- Modelled from the spec: the tile slot constants of `terrain.h` (not part of this file)
are the indices 0..3, ordered lowest to highest. -/
def LOWEST_TILE : Nat := 0
/-- Modelled from the spec: second tile slot of `terrain.h`. -/
def LOW_TILE : Nat := 1
/-- Modelled from the spec: third tile slot of `terrain.h`. -/
def HIGH_TILE : Nat := 2
/-- Modelled from the spec: fourth tile slot of `terrain.h`. -/
def HIGHEST_TILE : Nat := 3
/-- Modelled from the spec: `TRN_NUM_TILES` of `terrain.h`, the number of tile slots (up to
four source tiles are blended). -/
def TRN_NUM_TILES : Nat := 4

/-- The counting loop of `GenerateTextureMap` (lines 739-745). -/
def countTiles (textureTiles : Nat → CIMAGE) : Int :=
  (List.range TRN_NUM_TILES).foldl
    (fun n i => if (textureTiles i).m_bIsLoaded then n + 1 else n) 0

/-- Body of the region loop (lines 764-773); the state is `iLastHeight` and `m_regions`. -/
def regionStep (textureTiles : Nat → CIMAGE) (iNumTiles : Int)
    (st : Int × (Nat → STRN_TEXTURE_REGIONS)) (i : Nat) : Int × (Nat → STRN_TEXTURE_REGIONS) :=
  if (textureTiles i).m_bIsLoaded then
    let m_iLowHeight := st.1 + 1
    let iLastHeight := st.1 + Int.tdiv 255 iNumTiles
    (iLastHeight, Function.update st.2 i
      { m_iLowHeight := m_iLowHeight
        m_iOptimalHeight := iLastHeight
        m_iHighHeight := (iLastHeight - m_iLowHeight) + iLastHeight })
  else st

/-- The region computation of `GenerateTextureMap` (lines 739-774): `m_regions` after the
call, given `m_regions` before it (entries of tiles that are not loaded are kept). -/
def computeRegions (textureTiles : Nat → CIMAGE) (m_regions : Nat → STRN_TEXTURE_REGIONS) :
    Nat → STRN_TEXTURE_REGIONS :=
  ((List.range TRN_NUM_TILES).foldl (regionStep textureTiles (countTiles textureTiles))
    (-1, m_regions)).2

/-! ## `CTERRAIN::RegionPercent` (terrain.cpp 552-614) -/

/-- The `if / else if` cascade of lines 558-577: `true` when it executes `return 1.0f`. -/
def lowestTileSpecialCase (textureTiles : Nat → CIMAGE) (m_regions : Nat → STRN_TEXTURE_REGIONS)
    (tileType : Nat) (ucHeight : Nat) : Bool :=
  if (textureTiles LOWEST_TILE).m_bIsLoaded then
    decide (tileType = LOWEST_TILE ∧ (ucHeight : Int) < (m_regions LOWEST_TILE).m_iOptimalHeight)
  else if (textureTiles LOW_TILE).m_bIsLoaded then
    decide (tileType = LOW_TILE ∧ (ucHeight : Int) < (m_regions LOW_TILE).m_iOptimalHeight)
  else if (textureTiles HIGH_TILE).m_bIsLoaded then
    decide (tileType = HIGH_TILE ∧ (ucHeight : Int) < (m_regions HIGH_TILE).m_iOptimalHeight)
  else if (textureTiles HIGHEST_TILE).m_bIsLoaded then
    decide (tileType = HIGHEST_TILE
      ∧ (ucHeight : Int) < (m_regions HIGHEST_TILE).m_iOptimalHeight)
  else false

/-- Lines 579-613 of `RegionPercent`: the band test and the two linear ramps. -/
def regionRamp (r : STRN_TEXTURE_REGIONS) (ucHeight : Nat) : ℚ :=
  if (ucHeight : Int) < r.m_iLowHeight then 0
  else if (ucHeight : Int) > r.m_iHighHeight then 0
  else if (ucHeight : Int) < r.m_iOptimalHeight then
    let fTemp1 : ℚ := (ucHeight : ℚ) - (r.m_iLowHeight : ℚ)
    let fTemp2 : ℚ := (r.m_iOptimalHeight : ℚ) - (r.m_iLowHeight : ℚ)
    fTemp1 / fTemp2
  else if (ucHeight : Int) = r.m_iOptimalHeight then 1
  else if (ucHeight : Int) > r.m_iOptimalHeight then
    let fTemp1 : ℚ := (r.m_iHighHeight : ℚ) - (r.m_iOptimalHeight : ℚ)
    (fTemp1 - (((ucHeight : Int) - r.m_iOptimalHeight : Int) : ℚ)) / fTemp1
  else 0

/-- `RegionPercent( tileType, ucHeight )`. -/
def RegionPercent (textureTiles : Nat → CIMAGE) (m_regions : Nat → STRN_TEXTURE_REGIONS)
    (tileType : Nat) (ucHeight : Nat) : ℚ :=
  if lowestTileSpecialCase textureTiles m_regions tileType ucHeight then 1
  else regionRamp (m_regions tileType) ucHeight

/-- The piecewise weight of the specification for a band `(low, optimal, high)`. -/
def rampReference (low optimal high : Int) (h : Nat) : ℚ :=
  if (h : Int) < low ∨ (h : Int) > high then 0
  else if (h : Int) < optimal then ((h : ℚ) - low) / ((optimal : ℚ) - low)
  else if (h : Int) = optimal then 1
  else ((high : ℚ) - h) / ((high : ℚ) - optimal)

/-! ## `CTERRAIN::GetTexCoords` (terrain.cpp 625-661) -/

/-- The `while( iRepeat==-1 )` loops of lines 635-655 for one axis: `i` is the counter
before `i++`; the product `uiDim*i` is `unsigned int` arithmetic.  Returns `iRepeat`,
or `none` when the fuel runs out. -/
def findRepeat (uiDim coord : Nat) : Nat → Nat → Option Nat
  | 0, _ => none
  | fuel + 1, i =>
    if coord < (uiDim * (i + 1)) % 2 ^ 32 then some i
    else findRepeat uiDim coord fuel (i + 1)

/-- `GetTexCoords( texture, &x, &y )`: the updated `(x, y)`. -/
def GetTexCoords (fuel : Nat) (texture : CIMAGE) (x y : Nat) : Option (Nat × Nat) :=
  match findRepeat texture.m_uiWidth x fuel 0, findRepeat texture.m_uiHeight y fuel 0 with
  | some iRepeatX, some iRepeatY =>
    some ((x + 2 ^ 32 - (texture.m_uiWidth * iRepeatX) % 2 ^ 32) % 2 ^ 32,
          (y + 2 ^ 32 - (texture.m_uiHeight * iRepeatY) % 2 ^ 32) % 2 ^ 32)
  | _, _ => none

/-! ## `CTERRAIN::InterpolateHeight` (terrain.cpp 673-712) -/

/-- Modelled from the spec: `GetTrueHeightAtPoint` is declared in `terrain.h`; it reads the
row-major cell `(x, z)` of the 8-bit grid.  An access outside the grid is undefined in the
source and is reported as `none` (the explicit bounds check of the specification). -/
def GetTrueHeightAtPoint (m_iSize : Nat) (m_ucpData : List Nat) (x z : Int) : Option Nat :=
  if 0 ≤ x ∧ x < (m_iSize : Int) ∧ 0 ≤ z ∧ z < (m_iSize : Int) then
    m_ucpData.get? (z * (m_iSize : Int) + x).toNat
  else none

/-- `InterpolateHeight( x, z, fHeightToTexRatio )`. -/
def InterpolateHeight (m_iSize : Nat) (m_ucpData : List Nat) (x z : Int)
    (fHeightToTexRatio : ℚ) : Option Nat :=
  let fScaledX : ℚ := (x : ℚ) * fHeightToTexRatio
  let fScaledZ : ℚ := (z : ℚ) * fHeightToTexRatio
  match GetTrueHeightAtPoint m_iSize m_ucpData (truncToInt fScaledX) (truncToInt fScaledZ) with
  | none => none
  | some ucLow =>
    if fScaledX + 1 > (m_iSize : ℚ) then some ucLow
    else
      match GetTrueHeightAtPoint m_iSize m_ucpData (truncToInt fScaledX + 1)
          (truncToInt fScaledZ) with
      | none => none
      | some ucHighX =>
        let fInterpolationX : ℚ := fScaledX - (truncToInt fScaledX : ℚ)
        let ucX : ℚ := (((ucHighX : Int) - (ucLow : Int) : Int) : ℚ) * fInterpolationX + ucLow
        if fScaledZ + 1 > (m_iSize : ℚ) then some ucLow
        else
          match GetTrueHeightAtPoint m_iSize m_ucpData (truncToInt fScaledX)
              (truncToInt fScaledZ + 1) with
          | none => none
          | some ucHighZ =>
            let fInterpolationZ : ℚ := fScaledZ - (truncToInt fScaledZ : ℚ)
            let ucZ : ℚ :=
              (((ucHighZ : Int) - (ucLow : Int) : Int) : ℚ) * fInterpolationZ + ucLow
            floatToUChar ((ucX + ucZ) / 2)

/-! ## `CTERRAIN::GenerateTextureMap` (terrain.cpp 724-843) -/

/-- Body of the tile loop (lines 796-821) for the output pixel `(x, z)`; the state is
`(fTotalRed, fTotalGreen, fTotalBlue)`. -/
def blendStep (fuel : Nat) (textureTiles : Nat → CIMAGE)
    (m_regions : Nat → STRN_TEXTURE_REGIONS) (x z tInterpHeight : Nat)
    (acc : ℚ × ℚ × ℚ) (i : Nat) : Option (ℚ × ℚ × ℚ) :=
  if (textureTiles i).m_bIsLoaded then
    match GetTexCoords fuel (textureTiles i) x z with
    | none => none
    | some (uiTexX, uiTexZ) =>
      let c := (textureTiles i).GetColor uiTexX uiTexZ
      let fBlend : ℚ := RegionPercent textureTiles m_regions i tInterpHeight
      some (acc.1 + (c.1 : ℚ) * fBlend, acc.2.1 + (c.2.1 : ℚ) * fBlend,
        acc.2.2 + (c.2.2 : ℚ) * fBlend)
  else some acc

/-- The accumulated `(fTotalRed, fTotalGreen, fTotalBlue)` of pixel `(x, z)` after the
tile loop, for the interpolated height `tInterpHeight`. -/
def blendTotals (fuel : Nat) (textureTiles : Nat → CIMAGE)
    (m_regions : Nat → STRN_TEXTURE_REGIONS) (x z tInterpHeight : Nat) : Option (ℚ × ℚ × ℚ) :=
  (List.range TRN_NUM_TILES).foldlM (blendStep fuel textureTiles m_regions x z tInterpHeight)
    (0, 0, 0)

/-- The three `( unsigned char )` conversions of lines 824-826. -/
def totalsToColor (t : ℚ × ℚ × ℚ) : Option (Nat × Nat × Nat) :=
  match floatToUChar t.1, floatToUChar t.2.1, floatToUChar t.2.2 with
  | some r, some g, some b => some (r, g, b)
  | _, _, _ => none

/-- The colour `GenerateTextureMap( uiSize )` stores at pixel `(x, z)` of `m_texture`:
regions are recomputed, the height is interpolated with `fMapRatio = m_iSize/uiSize`, the
loaded tiles are blended and the totals converted to bytes.  `none` when a step is
undefined (out-of-grid read, overflowing conversion) or the fuel runs out. -/
def GenerateTextureMap (fuel : Nat) (m_iSize : Nat) (m_ucpData : List Nat)
    (textureTiles : Nat → CIMAGE) (m_regions : Nat → STRN_TEXTURE_REGIONS)
    (uiSize : Nat) (x z : Nat) : Option (Nat × Nat × Nat) :=
  let regions := computeRegions textureTiles m_regions
  let fMapRatio : ℚ := (m_iSize : ℚ) / (uiSize : ℚ)
  match InterpolateHeight m_iSize m_ucpData (x : Int) (z : Int) fMapRatio with
  | none => none
  | some tInterpHeight =>
    match blendTotals fuel textureTiles regions x z tInterpHeight with
    | none => none
    | some totals => totalsToColor totals

/-! ## Closed forms used in the proofs about the region computation -/

/-- Number of loaded tiles in the slots below `i`. -/
def tileRank (textureTiles : Nat → CIMAGE) (i : Nat) : Int :=
  (List.range i).foldl (fun n j => if (textureTiles j).m_bIsLoaded then n + 1 else n) 0

/-- Closed form of the band the region loop assigns to the `k`-th loaded tile (counting
from 0) when `iNumTiles` tiles are loaded. -/
def bandOf (iNumTiles k : Int) : STRN_TEXTURE_REGIONS :=
  { m_iLowHeight := k * Int.tdiv 255 iNumTiles
    m_iOptimalHeight := (k + 1) * Int.tdiv 255 iNumTiles - 1
    m_iHighHeight := (k + 2) * Int.tdiv 255 iNumTiles - 2 }

/-- The sum of `RegionPercent( i, ucHeight )` over the loaded tiles, accumulated in the
order of the tile loop of `GenerateTextureMap`. -/
def blendWeightSum (textureTiles : Nat → CIMAGE) (m_regions : Nat → STRN_TEXTURE_REGIONS)
    (ucHeight : Nat) : ℚ :=
  (List.range TRN_NUM_TILES).foldl
    (fun s i => if (textureTiles i).m_bIsLoaded then
      s + RegionPercent textureTiles m_regions i ucHeight else s) 0

/-- Numerator of `regionRamp` over the divisor `optimal - low` (which equals
`high - optimal` on the bands of the region loop). -/
def rampNum (r : STRN_TEXTURE_REGIONS) (h : Nat) : Int :=
  if (h : Int) < r.m_iLowHeight then 0
  else if (h : Int) > r.m_iHighHeight then 0
  else if (h : Int) < r.m_iOptimalHeight then (h : Int) - r.m_iLowHeight
  else if (h : Int) = r.m_iOptimalHeight then r.m_iOptimalHeight - r.m_iLowHeight
  else r.m_iHighHeight - (h : Int)

/-- Numerator of the weight of the `k`-th loaded tile out of `n`, over `255/n - 1`. -/
def weightNum (n k : Int) (h : Nat) : Int :=
  if k = 0 ∧ (h : Int) < (bandOf n k).m_iOptimalHeight then Int.tdiv 255 n - 1
  else rampNum (bandOf n k) h

/-- Sum of the weight numerators of the `n` loaded tiles. -/
def weightNumSum (n : Nat) (h : Nat) : Int :=
  (List.range n).foldl (fun s k => s + weightNum (n : Int) (k : Int) h) 0

/-- The scaled coordinate `x*fMapRatio` with `fMapRatio = m_iSize/uiSize`. -/
def scaledCoord (m_iSize uiSize x : Nat) : ℚ := (x : ℚ) * ((m_iSize : ℚ) / (uiSize : ℚ))

/-- The byte of row-major cell `(a, b)` of a grid (0 outside the stored cells). -/
def sampleAt (m_iSize : Nat) (m_ucpData : List Nat) (a b : Nat) : Nat :=
  m_ucpData.getD (b * m_iSize + a) 0

/-- Reference interpolation, following the specification's wording: with
`(sx, sz) = (x, z)*size/outputSize` and `low` the sample at `(floor sx, floor sz)`, the X
estimate is `low + (sample(floor sx + 1, floor sz) - low)*frac(sx)` if that next sample is
inside the grid and `low` otherwise, the Z estimate likewise along Z, and the result is the
truncation of the average of the two estimates. -/
def interpolateReference (size : Nat) (data : List Nat) (outputSize x z : Nat) : Nat :=
  let sx : ℚ := (x : ℚ) * (size : ℚ) / (outputSize : ℚ)
  let sz : ℚ := (z : ℚ) * (size : ℚ) / (outputSize : ℚ)
  let fx : Nat := ⌊sx⌋.toNat
  let fz : Nat := ⌊sz⌋.toNat
  let low : ℚ := (sampleAt size data fx fz : ℚ)
  let xEst : ℚ :=
    if fx + 1 < size then low + ((sampleAt size data (fx + 1) fz : ℚ) - low) * (sx - (fx : ℚ))
    else low
  let zEst : ℚ :=
    if fz + 1 < size then low + ((sampleAt size data fx (fz + 1) : ℚ) - low) * (sz - (fz : ℚ))
    else low
  ⌊(xEst + zEst) / 2⌋.toNat

/-! ## Height-map storage (terrain.cpp 40-143) -/

/-- State of the pointer `m_heightData.m_ucpData`. -/
inductive HeightPtr where
  /-- `NULL`. -/
  | null : HeightPtr
  /-- Points at allocated storage holding these bytes. -/
  | live (cells : List Nat) : HeightPtr
  /-- Not `NULL`, but the storage it points at was released by `delete[]`. -/
  | freed : HeightPtr
deriving DecidableEq, Repr

/-- The fields of `CTERRAIN` used by the load/save/unload operations. -/
structure CTERRAIN where
  m_ucpData : HeightPtr
  m_iSize : Nat
deriving DecidableEq, Repr

/-- Modelled from the spec: the raw elevation files reached through `fopen`, `fread` and
`fwrite`.  `contents name` is the byte sequence of a file that can be opened for reading
(`none` if it cannot); `writable name` tells whether `fopen( name, "wb" )` succeeds. -/
structure FileSystem where
  contents : String → Option (List Nat)
  writable : String → Bool

/-- The file system after `name` has been given the contents `bytes`. -/
def FileSystem.write (fs : FileSystem) (name : String) (bytes : List Nat) : FileSystem :=
  { contents := fun n => if n = name then some bytes else fs.contents n
    writable := fs.writable }

/-- `UnloadHeightMap`: returns the result flag and the new state; `none` when the call
is undefined (`delete[]` on storage that was already released). -/
def UnloadHeightMap (t : CTERRAIN) : Option (Bool × CTERRAIN) :=
  match t.m_ucpData with
  | HeightPtr.null => some (true, t)
  | HeightPtr.live _ => some (true, { m_ucpData := HeightPtr.freed, m_iSize := 0 })
  | HeightPtr.freed => none

/-- `SaveHeightMap( szFilename )`: returns the result flag and the file system after the
call; opening with `"wb"` empties the file; `fwrite` then writes `m_iSize*m_iSize` bytes
from the buffer.  `none` when `fwrite` reads outside live storage. -/
def SaveHeightMap (fs : FileSystem) (szFilename : String) (t : CTERRAIN) :
    Option (Bool × FileSystem) :=
  if fs.writable szFilename = false then some (false, fs)
  else
    match t.m_ucpData with
    | HeightPtr.null => some (false, fs.write szFilename [])
    | HeightPtr.live cells =>
      if t.m_iSize * t.m_iSize ≤ cells.length then
        some (true, fs.write szFilename (cells.take (t.m_iSize * t.m_iSize)))
      else none
    | HeightPtr.freed =>
      if t.m_iSize * t.m_iSize = 0 then some (true, fs.write szFilename []) else none

/-- `LoadHeightMap( szFilename, iSize )`: returns the result flag and the new state.
`fresh i` is the indeterminate content of byte `i` of the newly allocated buffer;
`fread` overwrites the leading bytes with the bytes the file holds (at most
`iSize*iSize`), and its return value is not inspected. -/
def LoadHeightMap (fs : FileSystem) (fresh : Nat → Nat) (szFilename : String) (iSize : Nat)
    (t : CTERRAIN) : Option (Bool × CTERRAIN) :=
  match (if t.m_ucpData = HeightPtr.null then some (true, t) else UnloadHeightMap t) with
  | none => none
  | some (_, t1) =>
    match fs.contents szFilename with
    | none => some (false, t1)
    | some bytes =>
      some (true,
        { m_ucpData := HeightPtr.live
            ((List.range (iSize * iSize)).map (fun i => bytes.getD i (fresh i)))
          m_iSize := iSize })

/-- A file system with no readable file, in which every file can be created. -/
def emptyFiles : FileSystem :=
  { contents := fun _ => none
    writable := fun _ => true }

/-! ## `CTERRAIN::MakeTerrainPlasma` (terrain.cpp 365-540) -/

/-- A freshly allocated `float` buffer: a cell holds no value (`none`) until it has been
written. -/
abbrev RawBuf := Int → Option ℚ

/-- A checked read of `fTempBuffer[idx]`: `none` when `idx` is outside
`[0, m_iSize*m_iSize)` or the cell has not been written. -/
def readCell (m_iSize : Nat) (buf : RawBuf) (idx : Int) : Option ℚ :=
  if 0 ≤ idx ∧ idx < ((m_iSize * m_iSize : Nat) : Int) then buf idx else none

/-- A checked write `fTempBuffer[idx] = v`: `none` when `idx` is outside
`[0, m_iSize*m_iSize)`. -/
def writeCell (m_iSize : Nat) (buf : RawBuf) (idx : Int) (v : ℚ) : Option RawBuf :=
  if 0 ≤ idx ∧ idx < ((m_iSize * m_iSize : Nat) : Int) then
    some (Function.update buf idx (some v))
  else none

/-- Buffer offset `a + b*m_iSize` of the cell with coordinates `c = (a, b)`. -/
def cellIndex (m_iSize : Nat) (c : Int × Int) : Int := c.1 + c.2 * (m_iSize : Int)

/-- The values `i = 0, iRectSize, 2*iRectSize, ...` below `m_iSize` visited by the loops
`for( i=0; i<m_iSize; i+=iRectSize )` (with `iRectSize > 0`). -/
def loopSteps (m_iSize iRectSize : Nat) : List Nat :=
  (List.range m_iSize).filter (fun i => i % iRectSize = 0)

/-- The four wrapped corner cells `(i,j), (ni,j), (i,nj), (ni,nj)` averaged by the
diamond step (lines 437-443). -/
def diamondCorners (m_iSize iRectSize i j : Nat) : List (Int × Int) :=
  let ni : Int := Int.tmod ((i : Int) + (iRectSize : Int)) (m_iSize : Int)
  let nj : Int := Int.tmod ((j : Int) + (iRectSize : Int)) (m_iSize : Int)
  [((i : Int), (j : Int)), (ni, (j : Int)), ((i : Int), nj), (ni, nj)]

/-- The midpoint `(mi, mj)` of the rectangle at `(i, j)`. -/
def rectCenter (iRectSize i j : Nat) : Int × Int :=
  ((i : Int) + Int.tdiv (iRectSize : Int) 2, (j : Int) + Int.tdiv (iRectSize : Int) 2)

/-- The cells `a, b, d, f` averaged into the top-edge midpoint `g = (mi, j)` (lines
499-503). -/
def squareTopCells (m_iSize iRectSize i j : Nat) : List (Int × Int) :=
  let ni : Int := Int.tmod ((i : Int) + (iRectSize : Int)) (m_iSize : Int)
  let mi : Int := (i : Int) + Int.tdiv (iRectSize : Int) 2
  let mj : Int := (j : Int) + Int.tdiv (iRectSize : Int) 2
  let pmj : Int :=
    Int.tmod ((j : Int) - Int.tdiv (iRectSize : Int) 2 + (m_iSize : Int)) (m_iSize : Int)
  [((i : Int), (j : Int)), (ni, (j : Int)), (mi, pmj), (mi, mj)]

/-- The cells `a, c, e, f` averaged into the left-edge midpoint `h = (i, mj)` (lines
506-510). -/
def squareLeftCells (m_iSize iRectSize i j : Nat) : List (Int × Int) :=
  let nj : Int := Int.tmod ((j : Int) + (iRectSize : Int)) (m_iSize : Int)
  let mi : Int := (i : Int) + Int.tdiv (iRectSize : Int) 2
  let mj : Int := (j : Int) + Int.tdiv (iRectSize : Int) 2
  let pmi : Int :=
    Int.tmod ((i : Int) - Int.tdiv (iRectSize : Int) 2 + (m_iSize : Int)) (m_iSize : Int)
  [((i : Int), (j : Int)), ((i : Int), nj), (pmi, mj), (mi, mj)]

/-- One displaced assignment `fTempBuffer[target] = (sum of four cells)/4 +
RangedRandom( -fHeight/2, fHeight/2 )`; the state is the buffer and the number of random
draws made so far. -/
def displaceCell (RangedRandom : Nat → ℚ → ℚ → ℚ) (m_iSize : Nat) (fHeight : ℚ)
    (cells : List (Int × Int)) (target : Int × Int) (st : RawBuf × Nat) :
    Option (RawBuf × Nat) :=
  match cells.map (fun c => readCell m_iSize st.1 (cellIndex m_iSize c)) with
  | [some a, some b, some c, some d] =>
    match writeCell m_iSize st.1 (cellIndex m_iSize target)
        ((a + b + c + d) / 4 + RangedRandom st.2 (-fHeight / 2) (fHeight / 2)) with
    | some buf => some (buf, st.2 + 1)
    | none => none
  | _ => none

/-- The diamond step (lines 433-445) for rectangle size `iRectSize`. -/
def diamondStep (RangedRandom : Nat → ℚ → ℚ → ℚ) (m_iSize iRectSize : Nat) (fHeight : ℚ)
    (st : RawBuf × Nat) : Option (RawBuf × Nat) :=
  (loopSteps m_iSize iRectSize).foldlM (fun sti i =>
    (loopSteps m_iSize iRectSize).foldlM (fun stj j =>
      displaceCell RangedRandom m_iSize fHeight (diamondCorners m_iSize iRectSize i j)
        (rectCenter iRectSize i j) stj) sti) st

/-- Body of the square step (lines 489-510) for the rectangle at `(i, j)`: the top-edge
midpoint, then the left-edge midpoint. -/
def squareCell (RangedRandom : Nat → ℚ → ℚ → ℚ) (m_iSize iRectSize : Nat) (fHeight : ℚ)
    (i j : Nat) (st : RawBuf × Nat) : Option (RawBuf × Nat) :=
  match displaceCell RangedRandom m_iSize fHeight (squareTopCells m_iSize iRectSize i j)
      ((rectCenter iRectSize i j).1, (j : Int)) st with
  | some st1 =>
    displaceCell RangedRandom m_iSize fHeight (squareLeftCells m_iSize iRectSize i j)
      ((i : Int), (rectCenter iRectSize i j).2) st1
  | none => none

/-- The square step (lines 484-512) for rectangle size `iRectSize`. -/
def squareStep (RangedRandom : Nat → ℚ → ℚ → ℚ) (m_iSize iRectSize : Nat) (fHeight : ℚ)
    (st : RawBuf × Nat) : Option (RawBuf × Nat) :=
  (loopSteps m_iSize iRectSize).foldlM (fun sti i =>
    (loopSteps m_iSize iRectSize).foldlM (fun stj j =>
      squareCell RangedRandom m_iSize iRectSize fHeight i j stj) sti) st

/-- The loop `while( iRectSize>0 )` of lines 411-520; `none` when a read or write is
invalid or the fuel runs out. -/
def plasmaLoop (RangedRandom : Nat → ℚ → ℚ → ℚ) (m_iSize : Nat) (fHeightReducer : ℚ) :
    Nat → Nat → ℚ → RawBuf × Nat → Option (RawBuf × Nat)
  | 0, _, _, _ => none
  | fuel + 1, iRectSize, fHeight, st =>
    if iRectSize > 0 then
      match diamondStep RangedRandom m_iSize iRectSize fHeight st with
      | none => none
      | some st1 =>
        match squareStep RangedRandom m_iSize iRectSize fHeight st1 with
        | none => none
        | some st2 =>
          plasmaLoop RangedRandom m_iSize fHeightReducer fuel (iRectSize / 2)
            (fHeight * fHeightReducer) st2
    else some st

/-- The working buffer of `MakeTerrainPlasma` when the displacement loop ends (line 520):
the seed `fTempBuffer[0] = 0` (line 408) followed by the loop.  `pow2 y` stands for
`pow( 2, y )` and `RangedRandom k lo hi` for the `k`-th call of `RangedRandom( lo, hi )`
(both declared outside this file). -/
def plasmaDisplacement (pow2 : ℚ → ℚ) (RangedRandom : Nat → ℚ → ℚ → ℚ) (fuel iSize : Nat)
    (fRoughness : ℚ) : Option RawBuf :=
  let fRoughness1 : ℚ := if fRoughness < 0 then fRoughness * -1 else fRoughness
  let fHeight : ℚ := (iSize : ℚ) / 2
  let fHeightReducer : ℚ := pow2 (-1 * fRoughness1)
  match writeCell iSize (fun _ => none) 0 0 with
  | none => none
  | some buf0 =>
    (plasmaLoop RangedRandom iSize fHeightReducer fuel iSize fHeight (buf0, 0)).map Prod.fst

/-- The values of a fully written buffer; `none` if one of the `m_iSize*m_iSize` cells was
never written. -/
def initializedBuffer (m_iSize : Nat) (buf : RawBuf) : Option FloatBuf :=
  if (List.range (m_iSize * m_iSize)).all (fun (i : Nat) => (buf (i : Int)).isSome) then
    some (fun i => (buf i).getD 0)
  else none

/-- `MakeTerrainPlasma( iSize, fRoughness )`: the 8-bit height grid it leaves in
`m_heightData` (displacement, `NormalizeTerrain`, conversion to bytes). -/
def MakeTerrainPlasma (pow2 : ℚ → ℚ) (RangedRandom : Nat → ℚ → ℚ → ℚ) (fuel iSize : Nat)
    (fRoughness : ℚ) : Option (Int → Option Nat) :=
  match plasmaDisplacement pow2 RangedRandom fuel iSize fRoughness with
  | none => none
  | some raw =>
    match initializedBuffer iSize raw with
    | none => none
    | some buf => some (transferHeights iSize (NormalizeTerrain iSize buf))

/-- Sample stand-in for `pow( 2, y )` in the worked examples. -/
def samplePow2 (y : ℚ) : ℚ := if y = -1 then 1 / 2 else 1

/-- Sample stand-in for `RangedRandom` in the worked examples: the `k`-th draw walks
through five equally spaced points of `[lo, hi]`. -/
def sampleRangedRandom (k : Nat) (lo hi : ℚ) : ℚ := lo + (hi - lo) * ((k % 5 : Nat) : ℚ) / 4

/-- Cell `(a, b)` of the buffer has been written. -/
def cellWritten (m_iSize : Nat) (buf : RawBuf) (a b : Nat) : Prop :=
  (buf (cellIndex m_iSize ((a : Int), (b : Int)))).isSome = true

/-- Every written cell of `b` is written in `b'`. -/
def WrittenMono (b b' : RawBuf) : Prop := ∀ k, (b k).isSome = true → (b' k).isSome = true

/-- A property of buffers that is kept when more cells get written. -/
def UpClosed (I : RawBuf → Prop) : Prop := ∀ b b', WrittenMono b b' → I b → I b'


/-- Cells with both coordinates multiples of `R` are written. -/
def gridWritten (n R : Nat) (buf : RawBuf) : Prop :=
  ∀ a b, a < n → b < n → a % R = 0 → b % R = 0 → cellWritten n buf a b

/-- The cells at offset `(da, db)` from the rectangle corners are written. -/
def offsetWritten (n R da db : Nat) (buf : RawBuf) : Prop :=
  ∀ a b, a < n → b < n → a % R = 0 → b % R = 0 → cellWritten n buf (a + da) (b + db)

/-- The first loaded tile in index order, the target of a priority scan over the tile
slots that stops at the first loaded tile. -/
def firstLoadedTile (textureTiles : Nat → CIMAGE) : Option Nat :=
  (List.range TRN_NUM_TILES).find? (fun i => (textureTiles i).m_bIsLoaded)

/-- Reference for the special case of `RegionPercent`, following the specification's
wording: a priority-ordered scan over the loaded tiles from lowest to highest index,
stopping at the first loaded tile; the result is "full weight" exactly when `t` is that
tile and `h` is below its optimal height. -/
def specialCaseReference (textureTiles : Nat → CIMAGE) (m_regions : Nat → STRN_TEXTURE_REGIONS)
    (t h : Nat) : Bool :=
  match firstLoadedTile textureTiles with
  | some f => decide (t = f ∧ (h : Int) < (m_regions f).m_iOptimalHeight)
  | none => false

/-- The buffer offsets `FilterHeightBand` touches, in order: `fpBand[0]` (line 194), then
`fpBand[j]` in every pass of the loop (line 201), with `j` the running offset of the
loop state. -/
def FilterHeightBandAccesses (fpHeightData : FloatBuf) (fpBand iStride : Int) (iCount : Nat)
    (fFilter : ℚ) : List Int :=
  fpBand :: ((List.range (iCount - 1)).foldl
    (fun (acc : (FloatBuf × ℚ × Int) × List Int) (i : Nat) =>
      (filterBandStep fpBand iStride fFilter acc.1 i, acc.2 ++ [fpBand + acc.1.2.2]))
    ((fpHeightData, fpHeightData fpBand, iStride), [])).2

/-- One directional pass of `FilterHeightField` over the bands `0 .. m-1`, together with
the offsets touched so far. -/
def bandPassTraced (m iCount : Nat) (fFilter : ℚ) (base : Nat → Int) (iStride : Int)
    (st : FloatBuf × List Int) : FloatBuf × List Int :=
  (List.range m).foldl (fun (acc : FloatBuf × List Int) (i : Nat) =>
    (FilterHeightBand acc.1 (base i) iStride iCount fFilter,
      acc.2 ++ FilterHeightBandAccesses acc.1 (base i) iStride iCount fFilter)) st

/-- `FilterHeightField` together with the list of buffer offsets it touches. -/
def FilterHeightFieldTraced (m_iSize : Nat) (fpHeightData : FloatBuf) (fFilter : ℚ) :
    FloatBuf × List Int :=
  let s : Int := (m_iSize : Int)
  bandPassTraced m_iSize m_iSize fFilter (fun (i : Nat) => s * (s - 1) + i) (-s)
    (bandPassTraced m_iSize m_iSize fFilter (fun (i : Nat) => (i : Int)) s
      (bandPassTraced m_iSize m_iSize fFilter (fun (i : Nat) => s * i + s - 1) (-1)
        (bandPassTraced m_iSize m_iSize fFilter (fun (i : Nat) => s * i) 1
          (fpHeightData, []))))

/-! ## Binary32 arithmetic -/

/-- Round a rational to the nearest integer, ties to the even neighbour. -/
def roundNearestEven (q : ℚ) : Int :=
  if q - (⌊q⌋ : ℚ) < 1 / 2 then ⌊q⌋
  else if 1 / 2 < q - (⌊q⌋ : ℚ) then ⌊q⌋ + 1
  else if ⌊q⌋ % 2 = 0 then ⌊q⌋ else ⌊q⌋ + 1

/-- Number of binary digits of `n`, by repeated halving (at most `fuel` halvings). -/
def bitLength : Nat → Nat → Nat
  | 0, _ => 0
  | fuel + 1, n => if n = 0 then 0 else bitLength fuel (n / 2) + 1

/-- The integer binary logarithm: `2^(ilog2 n) ≤ n < 2^(ilog2 n + 1)` for `n ≥ 1`. -/
def ilog2 (n : Nat) : Nat := bitLength n n - 1

/-- The binade of a non-zero rational: the `e` with `2^e ≤ |x| < 2^(e+1)`, found from the
bit lengths of numerator and denominator. -/
def binadeExp (x : ℚ) : Int :=
  if x.den * 2 ^ ilog2 x.num.natAbs ≤ x.num.natAbs * 2 ^ ilog2 x.den then
    (ilog2 x.num.natAbs : Int) - (ilog2 x.den : Int)
  else (ilog2 x.num.natAbs : Int) - (ilog2 x.den : Int) - 1

/-- Exponent of the unit in the last place of the binary32 numbers around `x`: 24
significant bits, and the fixed spacing `2^-149` of the subnormal range below `2^-126`. -/
def f32UlpExp (x : ℚ) : Int := max (binadeExp x) (-126) - 23

/-- The binary32 value nearest to `x` (IEEE 754 round to nearest, ties to even), which is
the result of one `float` operation whose exact result is `x`.  Overflow to infinity is
not represented: the value is meaningful for `|x| < 2^128`. -/
def roundF32 (x : ℚ) : ℚ := (roundNearestEven (x / 2 ^ f32UlpExp x) : ℚ) * 2 ^ f32UlpExp x

/-! ### `NormalizeTerrain` in binary32 -/

/-- Body of the rescaling loop (line 179) in binary32: the subtraction, the division and
the multiplication by `255.0f` each round to the nearest `float`. -/
def scaleStepF32 (fMin fHeight : ℚ) (fpHeightData : FloatBuf) (i : Nat) : FloatBuf :=
  Function.update fpHeightData (i : Int)
    (roundF32 (roundF32 (roundF32 (fpHeightData (i : Int) - fMin) / fHeight) * 255))

/-- `NormalizeTerrain` in binary32, for a buffer of `float` values: the comparisons of the
scan are exact, `fHeight = fMax - fMin` and the three operations of line 179 round. -/
def NormalizeTerrainF32 (m_iSize : Nat) (fpHeightData : FloatBuf) : FloatBuf :=
  let mm := minMaxScan m_iSize fpHeightData
  if mm.2 ≤ mm.1 then fpHeightData
  else (List.range (m_iSize * m_iSize)).foldl
    (scaleStepF32 mm.1 (roundF32 (mm.2 - mm.1))) fpHeightData

/-! ### `InterpolateHeight` in binary32 -/

/-- Conversion of a C integer to `float`. -/
def intToF32 (n : Int) : ℚ := roundF32 (n : ℚ)

/-- The ratio `fMapRatio= ( float )m_iSize/uiSize` of line 782, in binary32. -/
def mapRatioF32 (m_iSize uiSize : Nat) : ℚ :=
  roundF32 (intToF32 (m_iSize : Int) / intToF32 (uiSize : Int))

/-- `InterpolateHeight( x, z, fHeightToTexRatio )` in binary32: every `float` operation of
lines 681-711 rounds to the nearest `float`, every integer operand is converted to `float`
first, and the `( int )` conversions truncate. -/
def InterpolateHeightF32 (m_iSize : Nat) (m_ucpData : List Nat) (x z : Int)
    (fHeightToTexRatio : ℚ) : Option Nat :=
  let fScaledX : ℚ := roundF32 (intToF32 x * fHeightToTexRatio)
  let fScaledZ : ℚ := roundF32 (intToF32 z * fHeightToTexRatio)
  match GetTrueHeightAtPoint m_iSize m_ucpData (truncToInt fScaledX) (truncToInt fScaledZ) with
  | none => none
  | some ucLow =>
    if roundF32 (fScaledX + 1) > intToF32 (m_iSize : Int) then some ucLow
    else
      match GetTrueHeightAtPoint m_iSize m_ucpData (truncToInt fScaledX + 1)
          (truncToInt fScaledZ) with
      | none => none
      | some ucHighX =>
        let fInterpolationX : ℚ := roundF32 (fScaledX - intToF32 (truncToInt fScaledX))
        let ucX : ℚ := roundF32 (roundF32 (intToF32 ((ucHighX : Int) - (ucLow : Int))
          * fInterpolationX) + intToF32 (ucLow : Int))
        if roundF32 (fScaledZ + 1) > intToF32 (m_iSize : Int) then some ucLow
        else
          match GetTrueHeightAtPoint m_iSize m_ucpData (truncToInt fScaledX)
              (truncToInt fScaledZ + 1) with
          | none => none
          | some ucHighZ =>
            let fInterpolationZ : ℚ := roundF32 (fScaledZ - intToF32 (truncToInt fScaledZ))
            let ucZ : ℚ := roundF32 (roundF32 (intToF32 ((ucHighZ : Int) - (ucLow : Int))
              * fInterpolationZ) + intToF32 (ucLow : Int))
            floatToUChar (roundF32 (roundF32 (ucX + ucZ) / 2))

/-! ## Concrete inputs used by the worked examples -/

/-- A random stream whose first draws give the fault line `(0,1) → (1,1)`. -/
def faultRand : Nat → Nat := fun i => [0, 1, 1, 1].getD i 0

/-- A four-cell ramp buffer: cell `i` holds `i`. -/
def rampBuf : FloatBuf := fun i => (i : ℚ)

/-- A 2x2 tile whose colour at `(x, y)` is `(c, x, y)` reduced to bytes. -/
def sampleTile (loaded : Bool) (c : Nat) : CIMAGE :=
  { m_bIsLoaded := loaded
    m_uiWidth := 2
    m_uiHeight := 2
    GetColor := fun x y => (c % 256, x % 256, y % 256) }

/-- Only slot `HIGH_TILE` is loaded. -/
def oneTile : Nat → CIMAGE := fun i => sampleTile (decide (i = 2)) 255

/-- Slots `LOWEST_TILE` and `LOW_TILE` are loaded. -/
def twoTiles : Nat → CIMAGE := fun i => sampleTile (decide (i < 2)) (100 * i)

/-- All four slots are loaded. -/
def fourTiles : Nat → CIMAGE := fun i => sampleTile true (50 * i)

/-- Region table before `GenerateTextureMap` runs. -/
def zeroRegions : Nat → STRN_TEXTURE_REGIONS := fun _ => ⟨0, 0, 0⟩

/-- A constant buffer. -/
def flatBuf : FloatBuf := fun _ => 5

/-- The four `float` samples `-2^25, 1, 2, 0`. -/
def collapseBuf : FloatBuf :=
  fun i => if i = 0 then -33554432 else if i = 1 then 1 else if i = 2 then 2 else 0

/-! # Theorems -/

/-! ### Lemmas on the two loops of `NormalizeTerrain` -/

theorem scale_fold_apply (fMin fHeight : ℚ) (buf : FloatBuf) (m : Nat) (i : Int) :
    (List.range m).foldl (scaleStep fMin fHeight) buf i
      = if 0 ≤ i ∧ i < (m : Int) then ((buf i - fMin) / fHeight) * 255 else buf i := by
  induction m with
  | zero =>
    have h0 : ¬ (0 ≤ i ∧ i < ((0 : Nat) : Int)) := by omega
    rw [if_neg h0]
    rfl
  | succ m ih =>
    rw [List.range_succ, List.foldl_append]
    simp only [List.foldl_cons, List.foldl_nil, scaleStep]
    by_cases him : i = (m : Int)
    · subst him
      have h1 : ¬ (0 ≤ (m : Int) ∧ (m : Int) < (m : Int)) := by omega
      have h2 : (0 ≤ (m : Int) ∧ (m : Int) < ((m + 1 : Nat) : Int)) := by omega
      rw [Function.update_same, ih, if_neg h1, if_pos h2]
    · rw [Function.update_noteq him, ih]
      by_cases h : 0 ≤ i ∧ i < (m : Int)
      · have h2 : 0 ≤ i ∧ i < ((m + 1 : Nat) : Int) := by omega
        rw [if_pos h, if_pos h2]
      · have h2 : ¬ (0 ≤ i ∧ i < ((m + 1 : Nat) : Int)) := by omega
        rw [if_neg h, if_neg h2]

/-- Invariant of the single-pass scan after cells `1 .. m` have been visited. -/
theorem minMax_fold_spec (buf : FloatBuf) (m : Nat) :
    let r := (List.range m).foldl (fun acc k => minMaxStep buf acc (k + 1)) (buf 0, buf 0)
    (∀ i : Nat, i ≤ m → r.1 ≤ buf (i : Int) ∧ buf (i : Int) ≤ r.2)
      ∧ (∃ i : Nat, i ≤ m ∧ buf (i : Int) = r.1) ∧ (∃ i : Nat, i ≤ m ∧ buf (i : Int) = r.2) := by
  induction m with
  | zero =>
    refine ⟨?_, ⟨0, le_refl _, by simp⟩, ⟨0, le_refl _, by simp⟩⟩
    intro i hi
    have : i = 0 := by omega
    subst this
    simp
  | succ m ih =>
    simp only [List.range_succ, List.foldl_append, List.foldl_cons, List.foldl_nil] at ih ⊢
    set r := (List.range m).foldl (fun acc k => minMaxStep buf acc (k + 1)) (buf 0, buf 0)
      with hr
    obtain ⟨hb, ⟨a, ha, hamin⟩, ⟨b, hb', hbmax⟩⟩ := ih
    have hle : r.1 ≤ r.2 := le_trans (hb 0 (Nat.zero_le _)).1 (hb 0 (Nat.zero_le _)).2
    unfold minMaxStep
    by_cases h1 : buf ((m + 1 : Nat) : Int) > r.2
    · rw [if_pos h1]
      refine ⟨?_, ⟨a, by omega, hamin⟩, ⟨m + 1, le_refl _, rfl⟩⟩
      intro i hi
      rcases Nat.lt_or_ge i (m + 1) with hlt | hge
      · exact ⟨(hb i (by omega)).1, le_trans (hb i (by omega)).2 (le_of_lt h1)⟩
      · have : i = m + 1 := by omega
        subst this
        exact ⟨le_trans hle (le_of_lt h1), le_refl _⟩
    · rw [if_neg h1]
      by_cases h2 : buf ((m + 1 : Nat) : Int) < r.1
      · rw [if_pos h2]
        refine ⟨?_, ⟨m + 1, le_refl _, rfl⟩, ⟨b, by omega, hbmax⟩⟩
        intro i hi
        rcases Nat.lt_or_ge i (m + 1) with hlt | hge
        · exact ⟨le_trans (le_of_lt h2) (hb i (by omega)).1, (hb i (by omega)).2⟩
        · have : i = m + 1 := by omega
          subst this
          exact ⟨le_refl _, not_lt.mp h1⟩
      · rw [if_neg h2]
        refine ⟨?_, ⟨a, by omega, hamin⟩, ⟨b, by omega, hbmax⟩⟩
        intro i hi
        rcases Nat.lt_or_ge i (m + 1) with hlt | hge
        · exact hb i (by omega)
        · have : i = m + 1 := by omega
          subst this
          exact ⟨not_lt.mp h2, not_lt.mp h1⟩

/-- The scan returns the least and the greatest of the `m_iSize*m_iSize` samples. -/
theorem minMaxScan_isLeast_isGreatest (m_iSize : Nat) (buf : FloatBuf)
    (hn : 1 ≤ m_iSize * m_iSize) :
    IsLeast (samples (m_iSize * m_iSize) buf) (minMaxScan m_iSize buf).1
      ∧ IsGreatest (samples (m_iSize * m_iSize) buf) (minMaxScan m_iSize buf).2 := by
  obtain ⟨hb, ⟨a, ha, hamin⟩, ⟨b, hb', hbmax⟩⟩ := minMax_fold_spec buf (m_iSize * m_iSize - 1)
  refine ⟨⟨⟨a, by omega, hamin⟩, ?_⟩, ⟨⟨b, by omega, hbmax⟩, ?_⟩⟩
  · rintro v ⟨i, hi, rfl⟩
    exact (hb i (by omega)).1
  · rintro v ⟨i, hi, rfl⟩
    exact (hb i (by omega)).2

/-- Pointwise form of `NormalizeTerrain`. -/
theorem NormalizeTerrain_apply (m_iSize : Nat) (buf : FloatBuf) (i : Int) :
    NormalizeTerrain m_iSize buf i
      = normalizeReference (m_iSize * m_iSize) (minMaxScan m_iSize buf).1
          (minMaxScan m_iSize buf).2 buf i := by
  unfold NormalizeTerrain normalizeReference
  by_cases h : (minMaxScan m_iSize buf).2 ≤ (minMaxScan m_iSize buf).1
  · simp only [h, if_true]
  · simp only [h, if_false]
    rw [scale_fold_apply]

/-- Non-flat input: the scan's minimum is strictly below its maximum exactly when two
samples differ. -/
theorem minMaxScan_lt_of_ne (m_iSize : Nat) (buf : FloatBuf) (i j : Nat)
    (hi : i < m_iSize * m_iSize) (hj : j < m_iSize * m_iSize)
    (hne : buf (i : Int) ≠ buf (j : Int)) :
    (minMaxScan m_iSize buf).1 < (minMaxScan m_iSize buf).2 := by
  obtain ⟨hmin, hmax⟩ := minMaxScan_isLeast_isGreatest m_iSize buf (by omega)
  have hi1 := hmin.2 ⟨i, hi, rfl⟩
  have hi2 := hmax.2 ⟨i, hi, rfl⟩
  have hj1 := hmin.2 ⟨j, hj, rfl⟩
  have hj2 := hmax.2 ⟨j, hj, rfl⟩
  rcases lt_or_gt_of_ne hne with h | h
  · exact lt_of_le_of_lt hi1 (lt_of_lt_of_le h hj2)
  · exact lt_of_le_of_lt hj1 (lt_of_lt_of_le h hi2)

/-- A flat field is returned unchanged. -/
theorem NormalizeTerrain_of_flat (m_iSize : Nat) (buf : FloatBuf)
    (hflat : ∀ i j : Nat, i < m_iSize * m_iSize → j < m_iSize * m_iSize →
      buf (i : Int) = buf (j : Int)) :
    NormalizeTerrain m_iSize buf = buf := by
  obtain ⟨-, ⟨a, ha, hamin⟩, ⟨b, hb, hbmax⟩⟩ := minMax_fold_spec buf (m_iSize * m_iSize - 1)
  have hle : (minMaxScan m_iSize buf).2 ≤ (minMaxScan m_iSize buf).1 := by
    unfold minMaxScan
    rw [← hamin, ← hbmax]
    rcases Nat.eq_zero_or_pos (m_iSize * m_iSize) with h0 | hpos
    · have ha0 : a = 0 := by omega
      have hb0 : b = 0 := by omega
      rw [ha0, hb0]
    · exact le_of_eq (hflat b a (by omega) (by omega))
  unfold NormalizeTerrain
  simp only [hle, if_true]

/-- After normalisation of a non-flat field every sample lies in `[0,255]`. -/
theorem NormalizeTerrain_range (m_iSize : Nat) (buf : FloatBuf)
    (hlt : (minMaxScan m_iSize buf).1 < (minMaxScan m_iSize buf).2)
    (i : Nat) (hi : i < m_iSize * m_iSize) :
    0 ≤ NormalizeTerrain m_iSize buf (i : Int) ∧ NormalizeTerrain m_iSize buf (i : Int) ≤ 255 := by
  obtain ⟨hmin, hmax⟩ := minMaxScan_isLeast_isGreatest m_iSize buf (by omega)
  have h1 := hmin.2 ⟨i, hi, rfl⟩
  have h2 := hmax.2 ⟨i, hi, rfl⟩
  have hrange : 0 ≤ (i : Int) ∧ (i : Int) < ((m_iSize * m_iSize : Nat) : Int) := by omega
  rw [NormalizeTerrain_apply, normalizeReference, if_neg (not_le.mpr hlt), if_pos hrange]
  have hpos : 0 < (minMaxScan m_iSize buf).2 - (minMaxScan m_iSize buf).1 := by linarith
  constructor
  · apply mul_nonneg _ (by norm_num)
    exact div_nonneg (by linarith) (le_of_lt hpos)
  · have : (buf (i : Int) - (minMaxScan m_iSize buf).1)
        / ((minMaxScan m_iSize buf).2 - (minMaxScan m_iSize buf).1) ≤ 1 := by
      rw [div_le_one hpos]
      linarith
    linarith

/-- C2: for a buffer of `m_iSize*m_iSize ≥ 1` samples the single-pass scan of
`NormalizeTerrain` returns the true minimum and the true maximum of the samples, and
`NormalizeTerrain` equals the reference definition taken at the true minimum `mn` and
maximum `mx`: unchanged when `mx ≤ mn`, otherwise every sample `v` replaced by
`(v - mn)/(mx - mn)*255`. -/
theorem NormalizeTerrain_eq_reference (m_iSize : Nat) (buf : FloatBuf)
    (hn : 1 ≤ m_iSize * m_iSize) :
    IsLeast (samples (m_iSize * m_iSize) buf) (minMaxScan m_iSize buf).1
      ∧ IsGreatest (samples (m_iSize * m_iSize) buf) (minMaxScan m_iSize buf).2
      ∧ ∀ mn mx : ℚ, IsLeast (samples (m_iSize * m_iSize) buf) mn →
          IsGreatest (samples (m_iSize * m_iSize) buf) mx →
          NormalizeTerrain m_iSize buf = normalizeReference (m_iSize * m_iSize) mn mx buf := by
  obtain ⟨hmin, hmax⟩ := minMaxScan_isLeast_isGreatest m_iSize buf hn
  refine ⟨hmin, hmax, ?_⟩
  intro mn mx hmn hmx
  have e1 : mn = (minMaxScan m_iSize buf).1 := hmn.unique hmin
  have e2 : mx = (minMaxScan m_iSize buf).2 := hmx.unique hmax
  funext i
  rw [e1, e2]
  exact NormalizeTerrain_apply m_iSize buf i

/-- C3: when the maximum `mx` of the samples is strictly greater than their minimum `mn`,
every sample after `NormalizeTerrain` lies in `[0,255]`, a sample that held the minimum
becomes exactly `0` and a sample that held the maximum becomes exactly `255`. -/
theorem NormalizeTerrain_range_and_extremes (m_iSize : Nat) (buf : FloatBuf) (mn mx : ℚ)
    (hmn : IsLeast (samples (m_iSize * m_iSize) buf) mn)
    (hmx : IsGreatest (samples (m_iSize * m_iSize) buf) mx) (hlt : mn < mx) :
    (∀ i : Nat, i < m_iSize * m_iSize →
        0 ≤ NormalizeTerrain m_iSize buf (i : Int) ∧ NormalizeTerrain m_iSize buf (i : Int) ≤ 255)
      ∧ (∀ i : Nat, i < m_iSize * m_iSize → buf (i : Int) = mn →
          NormalizeTerrain m_iSize buf (i : Int) = 0)
      ∧ (∀ i : Nat, i < m_iSize * m_iSize → buf (i : Int) = mx →
          NormalizeTerrain m_iSize buf (i : Int) = 255) := by
  obtain ⟨k, hk, -⟩ := hmn.1
  obtain ⟨hmin, hmax⟩ := minMaxScan_isLeast_isGreatest m_iSize buf (by omega)
  have e1 : mn = (minMaxScan m_iSize buf).1 := hmn.unique hmin
  have e2 : mx = (minMaxScan m_iSize buf).2 := hmx.unique hmax
  have hlt' : (minMaxScan m_iSize buf).1 < (minMaxScan m_iSize buf).2 := by
    rw [← e1, ← e2]; exact hlt
  refine ⟨fun i hi => NormalizeTerrain_range m_iSize buf hlt' i hi, ?_, ?_⟩
  · intro i hi hv
    have hrange : 0 ≤ (i : Int) ∧ (i : Int) < ((m_iSize * m_iSize : Nat) : Int) := by omega
    rw [NormalizeTerrain_apply, normalizeReference, if_neg (not_le.mpr hlt'), if_pos hrange,
      hv, e1]
    simp
  · intro i hi hv
    have hrange : 0 ≤ (i : Int) ∧ (i : Int) < ((m_iSize * m_iSize : Nat) : Int) := by omega
    have hpos : (minMaxScan m_iSize buf).2 - (minMaxScan m_iSize buf).1 ≠ 0 := by
      have := sub_pos.mpr hlt'
      exact ne_of_gt this
    rw [NormalizeTerrain_apply, normalizeReference, if_neg (not_le.mpr hlt'), if_pos hrange,
      hv, e2, div_self hpos]
    norm_num

theorem rampBuf_isLeast : IsLeast (samples (2 * 2) rampBuf) 0 := by
  constructor
  · exact ⟨0, by decide, by simp [rampBuf]⟩
  · rintro v ⟨i, -, rfl⟩
    simp [rampBuf]

theorem rampBuf_isGreatest : IsGreatest (samples (2 * 2) rampBuf) 3 := by
  constructor
  · exact ⟨3, by decide, by simp [rampBuf]⟩
  · rintro v ⟨i, hi, rfl⟩
    have h3 : i ≤ 3 := by omega
    have : (i : ℚ) ≤ 3 := by exact_mod_cast h3
    simpa [rampBuf] using this

/-- Witness for C2 on the ramp buffer `0, 1, 2, 3`: the scan finds 0 and 3 and the
result is the reference rescaling with these bounds. -/
theorem NormalizeTerrain_eq_reference_witness :
    IsLeast (samples (2 * 2) rampBuf) (minMaxScan 2 rampBuf).1
      ∧ IsGreatest (samples (2 * 2) rampBuf) (minMaxScan 2 rampBuf).2
      ∧ NormalizeTerrain 2 rampBuf = normalizeReference (2 * 2) 0 3 rampBuf :=
  have h := NormalizeTerrain_eq_reference 2 rampBuf (by decide)
  ⟨h.1, h.2.1, h.2.2 0 3 rampBuf_isLeast rampBuf_isGreatest⟩

/-- Witness for C3 on the ramp buffer `0, 1, 2, 3`. -/
theorem NormalizeTerrain_range_and_extremes_witness :
    (∀ i : Nat, i < 2 * 2 →
        0 ≤ NormalizeTerrain 2 rampBuf (i : Int) ∧ NormalizeTerrain 2 rampBuf (i : Int) ≤ 255)
      ∧ (∀ i : Nat, i < 2 * 2 → rampBuf (i : Int) = 0 → NormalizeTerrain 2 rampBuf (i : Int) = 0)
      ∧ (∀ i : Nat, i < 2 * 2 → rampBuf (i : Int) = 3 →
          NormalizeTerrain 2 rampBuf (i : Int) = 255) :=
  NormalizeTerrain_range_and_extremes 2 rampBuf 0 3 rampBuf_isLeast rampBuf_isGreatest
    (by norm_num)

/-! ## Binary32 rounding -/

theorem roundNearestEven_bounds (q : ℚ) :
    ⌊q⌋ ≤ roundNearestEven q ∧ roundNearestEven q ≤ ⌊q⌋ + 1 := by
  unfold roundNearestEven
  split_ifs <;> omega

theorem roundNearestEven_intCast (n : Int) : roundNearestEven (n : ℚ) = n := by
  unfold roundNearestEven
  simp

theorem roundNearestEven_mono (q r : ℚ) (h : q ≤ r) :
    roundNearestEven q ≤ roundNearestEven r := by
  have hfl : ⌊q⌋ ≤ ⌊r⌋ := Int.floor_mono h
  rcases lt_or_eq_of_le hfl with hlt | heq
  · have := (roundNearestEven_bounds q).2
    have := (roundNearestEven_bounds r).1
    omega
  · unfold roundNearestEven
    rw [heq]
    have hq : q - (⌊r⌋ : ℚ) ≤ r - (⌊r⌋ : ℚ) := by linarith
    split_ifs <;> first | omega | (exfalso; linarith)

theorem roundNearestEven_intCast_le (n : Int) (q : ℚ) (h : (n : ℚ) ≤ q) :
    n ≤ roundNearestEven q := by
  have := roundNearestEven_mono _ _ h
  rwa [roundNearestEven_intCast] at this

theorem roundNearestEven_le_intCast (n : Int) (q : ℚ) (h : q ≤ (n : ℚ)) :
    roundNearestEven q ≤ n := by
  have := roundNearestEven_mono _ _ h
  rwa [roundNearestEven_intCast] at this

theorem bitLength_zero (fuel : Nat) : bitLength fuel 0 = 0 := by
  cases fuel <;> simp [bitLength]

theorem bitLength_spec (fuel : Nat) : ∀ n : Nat, n ≤ fuel →
    n < 2 ^ bitLength fuel n ∧ (n ≠ 0 → 1 ≤ bitLength fuel n ∧ 2 ^ (bitLength fuel n - 1) ≤ n) := by
  induction fuel with
  | zero =>
    intro n hn
    have h0 : n = 0 := by omega
    subst h0
    simp [bitLength]
  | succ f ih =>
    intro n hn
    by_cases h0 : n = 0
    · subst h0
      simp [bitLength]
    · have hstep : bitLength (f + 1) n = bitLength f (n / 2) + 1 := by
        simp [bitLength, h0]
      rw [hstep]
      obtain ⟨i1, i2⟩ := ih (n / 2) (by omega)
      refine ⟨?_, fun _ => ⟨by omega, ?_⟩⟩
      · rw [pow_succ]
        omega
      · rw [Nat.add_sub_cancel]
        by_cases h2 : n / 2 = 0
        · rw [h2, bitLength_zero]
          simp
          omega
        · obtain ⟨j1, j2⟩ := i2 h2
          have e : 2 ^ bitLength f (n / 2) = 2 * 2 ^ (bitLength f (n / 2) - 1) := by
            rw [← pow_succ']
            congr 1
            omega
          rw [e]
          omega

theorem ilog2_spec (n : Nat) (hn : n ≠ 0) : 2 ^ ilog2 n ≤ n ∧ n < 2 ^ (ilog2 n + 1) := by
  obtain ⟨h1, h2⟩ := bitLength_spec n n (le_refl n)
  obtain ⟨h3, h4⟩ := h2 hn
  unfold ilog2
  refine ⟨h4, ?_⟩
  rw [Nat.sub_add_cancel h3]
  exact h1

/-- The binade exponent brackets the magnitude. -/
theorem binadeExp_spec (x : ℚ) (hx : x ≠ 0) :
    (2 : ℚ) ^ binadeExp x ≤ |x| ∧ |x| < (2 : ℚ) ^ (binadeExp x + 1) := by
  have hn0 : x.num.natAbs ≠ 0 := by
    simpa using (Rat.num_ne_zero.mpr hx)
  have hd0 : x.den ≠ 0 := x.den_nz
  obtain ⟨ha1, ha2⟩ := ilog2_spec x.num.natAbs hn0
  obtain ⟨hb1, hb2⟩ := ilog2_spec x.den hd0
  have hdpos : (0 : ℚ) < x.den := by exact_mod_cast Nat.pos_of_ne_zero hd0
  have habs : |x| = (x.num.natAbs : ℚ) / (x.den : ℚ) := by
    conv_lhs => rw [← Rat.num_div_den x]
    rw [abs_div, abs_of_pos hdpos, Nat.cast_natAbs, Int.cast_abs]
  unfold binadeExp
  rw [habs]
  generalize ilog2 x.num.natAbs = a at *
  generalize ilog2 x.den = b at *
  generalize x.num.natAbs = n at *
  generalize x.den = d at *
  have e1 : (2 : ℚ) ^ ((a : Int) - (b : Int)) = (2 : ℚ) ^ a / (2 : ℚ) ^ b := by
    rw [zpow_sub₀ (by norm_num), zpow_natCast, zpow_natCast]
  have e2 : (2 : ℚ) ^ ((a : Int) - (b : Int) + 1) = (2 : ℚ) ^ (a + 1) / (2 : ℚ) ^ b := by
    rw [show (a : Int) - (b : Int) + 1 = ((a + 1 : Nat) : Int) - (b : Int) by push_cast; ring,
      zpow_sub₀ (by norm_num), zpow_natCast, zpow_natCast]
  have e3 : (2 : ℚ) ^ ((a : Int) - (b : Int) - 1) = (2 : ℚ) ^ a / (2 : ℚ) ^ (b + 1) := by
    rw [show (a : Int) - (b : Int) - 1 = (a : Int) - ((b + 1 : Nat) : Int) by push_cast; ring,
      zpow_sub₀ (by norm_num), zpow_natCast, zpow_natCast]
  have e4 : (2 : ℚ) ^ ((a : Int) - (b : Int) - 1 + 1) = (2 : ℚ) ^ a / (2 : ℚ) ^ b := by
    rw [show (a : Int) - (b : Int) - 1 + 1 = (a : Int) - (b : Int) by ring]; exact e1
  have pa : (0 : ℚ) < 2 ^ a := by positivity
  have pb : (0 : ℚ) < 2 ^ b := by positivity
  have pb1 : (0 : ℚ) < 2 ^ (b + 1) := by positivity
  have qa1 : ((2 ^ a : Nat) : ℚ) ≤ n := by exact_mod_cast ha1
  have qa2 : (n : ℚ) < ((2 ^ (a + 1) : Nat) : ℚ) := by exact_mod_cast ha2
  have qb1 : ((2 ^ b : Nat) : ℚ) ≤ d := by exact_mod_cast hb1
  have qb2 : (d : ℚ) < ((2 ^ (b + 1) : Nat) : ℚ) := by exact_mod_cast hb2
  push_cast at qa1 qa2 qb1 qb2
  have hnpos : (0 : ℚ) < n := lt_of_lt_of_le pa qa1
  split_ifs with hc
  · have qc : (d : ℚ) * 2 ^ a ≤ (n : ℚ) * 2 ^ b := by exact_mod_cast hc
    rw [e1, e2]
    constructor
    · rw [div_le_div_iff₀ pb hdpos]
      linarith
    · rw [div_lt_div_iff₀ hdpos pb]
      calc (n : ℚ) * 2 ^ b < 2 ^ (a + 1) * 2 ^ b := by
            exact mul_lt_mul_of_pos_right qa2 pb
        _ ≤ 2 ^ (a + 1) * d := by
            exact mul_le_mul_of_nonneg_left qb1 (by positivity)
  · have qc : (n : ℚ) * 2 ^ b < (d : ℚ) * 2 ^ a := by
      have := not_le.mp hc
      exact_mod_cast this
    rw [e3, e4]
    constructor
    · rw [div_le_div_iff₀ pb1 hdpos]
      calc (2 : ℚ) ^ a * d ≤ n * d := by
            exact mul_le_mul_of_nonneg_right qa1 (le_of_lt hdpos)
        _ ≤ n * 2 ^ (b + 1) := by
            exact mul_le_mul_of_nonneg_left (le_of_lt qb2) (le_of_lt hnpos)
    · rw [div_lt_div_iff₀ hdpos pb]
      linarith

theorem binadeExp_mono (x y : ℚ) (hx : 0 < x) (hxy : x ≤ y) : binadeExp x ≤ binadeExp y := by
  obtain ⟨s1, -⟩ := binadeExp_spec x (ne_of_gt hx)
  obtain ⟨-, t2⟩ := binadeExp_spec y (ne_of_gt (lt_of_lt_of_le hx hxy))
  rw [abs_of_pos hx] at s1
  rw [abs_of_pos (lt_of_lt_of_le hx hxy)] at t2
  have a : (2 : ℚ) ^ binadeExp x < (2 : ℚ) ^ (binadeExp y + 1) := by linarith
  have b := (zpow_lt_zpow_iff_right₀ (by norm_num : (1 : ℚ) < 2)).mp a
  omega

theorem binadeExp_neg (x : ℚ) : binadeExp (-x) = binadeExp x := by
  unfold binadeExp
  simp

theorem roundNearestEven_neg (q : ℚ) : roundNearestEven (-q) = -roundNearestEven q := by
  by_cases hint : (⌊q⌋ : ℚ) = q
  · rw [← hint, ← Int.cast_neg, roundNearestEven_intCast, roundNearestEven_intCast]
  · have h1 : (⌊q⌋ : ℚ) < q := lt_of_le_of_ne (Int.floor_le q) hint
    have h2 : q < (⌊q⌋ : ℚ) + 1 := Int.lt_floor_add_one q
    have hf : ⌊-q⌋ = -⌊q⌋ - 1 := by
      rw [Int.floor_eq_iff]
      push_cast
      constructor <;> linarith
    unfold roundNearestEven
    rw [hf]
    push_cast
    split_ifs <;> first | omega | (exfalso; linarith)

theorem roundF32_neg (x : ℚ) : roundF32 (-x) = -roundF32 x := by
  unfold roundF32 f32UlpExp
  rw [binadeExp_neg, neg_div, roundNearestEven_neg]
  push_cast
  ring

theorem roundF32_zero : roundF32 0 = 0 := by
  unfold roundF32
  rw [zero_div]
  have := roundNearestEven_intCast 0
  simp only [Int.cast_zero] at this
  rw [this]
  simp

theorem roundF32_nonneg (x : ℚ) (hx : 0 ≤ x) : 0 ≤ roundF32 x := by
  unfold roundF32
  have hp : (0 : ℚ) < 2 ^ f32UlpExp x := by positivity
  have h0 : ((0 : Int) : ℚ) ≤ x / 2 ^ f32UlpExp x := by
    simp only [Int.cast_zero]
    exact div_nonneg hx (le_of_lt hp)
  have := roundNearestEven_intCast_le 0 _ h0
  have hq : (0 : ℚ) ≤ (roundNearestEven (x / 2 ^ f32UlpExp x) : ℚ) := by exact_mod_cast this
  exact mul_nonneg hq (le_of_lt hp)

/-- For `x > 0` in the binade `E = max (binadeExp x) (-126)`, the rounded value lies
between the bottom of the binade (or 0 in the subnormal range) and its top. -/
theorem roundF32_binade (x : ℚ) (hx : 0 < x) :
    roundF32 x ≤ (2 : ℚ) ^ (max (binadeExp x) (-126) + 1)
      ∧ (-126 ≤ binadeExp x → (2 : ℚ) ^ binadeExp x ≤ roundF32 x) := by
  obtain ⟨s1, s2⟩ := binadeExp_spec x (ne_of_gt hx)
  rw [abs_of_pos hx] at s1 s2
  have hu : f32UlpExp x = max (binadeExp x) (-126) - 23 := rfl
  have hp : (0 : ℚ) < 2 ^ f32UlpExp x := by positivity
  constructor
  · have hle : x ≤ (2 : ℚ) ^ (max (binadeExp x) (-126) + 1) := by
      have : (2 : ℚ) ^ (binadeExp x + 1) ≤ (2 : ℚ) ^ (max (binadeExp x) (-126) + 1) :=
        zpow_le_zpow_right₀ (by norm_num) (by omega)
      linarith
    have e : (2 : ℚ) ^ (max (binadeExp x) (-126) + 1)
        = ((16777216 : Int) : ℚ) * (2 : ℚ) ^ f32UlpExp x := by
      rw [hu, show max (binadeExp x) (-126) + 1 = 24 + (max (binadeExp x) (-126) - 23) by ring,
        zpow_add₀ (by norm_num)]
      norm_num
    rw [e]
    unfold roundF32
    apply mul_le_mul_of_nonneg_right _ (le_of_lt hp)
    have hq : x / 2 ^ f32UlpExp x ≤ ((16777216 : Int) : ℚ) := by
      rw [div_le_iff₀ hp, ← e]
      exact hle
    exact_mod_cast roundNearestEven_le_intCast _ _ hq
  · intro hn
    have hmax : max (binadeExp x) (-126) = binadeExp x := max_eq_left hn
    have e : (2 : ℚ) ^ binadeExp x
        = ((8388608 : Int) : ℚ) * (2 : ℚ) ^ f32UlpExp x := by
      rw [hu, hmax]
      nth_rewrite 1 [show binadeExp x = 23 + (binadeExp x - 23) by ring]
      rw [zpow_add₀ (by norm_num)]
      norm_num
    rw [e]
    unfold roundF32
    apply mul_le_mul_of_nonneg_right _ (le_of_lt hp)
    have hq : ((8388608 : Int) : ℚ) ≤ x / 2 ^ f32UlpExp x := by
      rw [le_div_iff₀ hp, ← e]
      exact s1
    exact_mod_cast roundNearestEven_intCast_le _ _ hq

theorem roundF32_mono_of_pos (x y : ℚ) (hx : 0 < x) (hxy : x ≤ y) :
    roundF32 x ≤ roundF32 y := by
  have hy : 0 < y := lt_of_lt_of_le hx hxy
  have he := binadeExp_mono x y hx hxy
  have hE : max (binadeExp x) (-126) ≤ max (binadeExp y) (-126) := max_le_max he (le_refl _)
  rcases lt_or_eq_of_le hE with hlt | heq
  · have hny : -126 ≤ binadeExp y := by omega
    have hmy : max (binadeExp y) (-126) = binadeExp y := max_eq_left hny
    have h1 := (roundF32_binade x hx).1
    have h2 := (roundF32_binade y hy).2 hny
    have h3 : (2 : ℚ) ^ (max (binadeExp x) (-126) + 1) ≤ (2 : ℚ) ^ binadeExp y :=
      zpow_le_zpow_right₀ (by norm_num) (by omega)
    linarith
  · have hu : f32UlpExp x = f32UlpExp y := by
      unfold f32UlpExp
      rw [heq]
    unfold roundF32
    rw [hu]
    have hp : (0 : ℚ) < 2 ^ f32UlpExp y := by positivity
    apply mul_le_mul_of_nonneg_right _ (le_of_lt hp)
    have hq : x / 2 ^ f32UlpExp y ≤ y / 2 ^ f32UlpExp y :=
      div_le_div_of_nonneg_right hxy (le_of_lt hp)
    exact_mod_cast roundNearestEven_mono _ _ hq

/-- Rounding to binary32 is monotone. -/
theorem roundF32_mono (x y : ℚ) (hxy : x ≤ y) : roundF32 x ≤ roundF32 y := by
  rcases lt_trichotomy 0 x with hx | hx | hx
  · exact roundF32_mono_of_pos x y hx hxy
  · rw [← hx, roundF32_zero]
    exact roundF32_nonneg y (by linarith)
  · rcases le_or_lt 0 y with hy | hy
    · have h1 : roundF32 x ≤ 0 := by
        have := roundF32_nonneg (-x) (by linarith)
        rw [roundF32_neg] at this
        linarith
      have h2 := roundF32_nonneg y hy
      linarith
    · have := roundF32_mono_of_pos (-y) (-x) (by linarith) (by linarith)
      rw [roundF32_neg, roundF32_neg] at this
      linarith

/-- A value `m * 2^k` with `|m| < 2^24` and `k ≥ -149` is a binary32 number: rounding
leaves it unchanged. -/
theorem roundF32_of_dyadic (x : ℚ) (m k : Int) (hx : x = (m : ℚ) * (2 : ℚ) ^ k)
    (hm : |m| < 2 ^ 24) (hk : -149 ≤ k) : roundF32 x = x := by
  by_cases h0 : x = 0
  · rw [h0, roundF32_zero]
  · obtain ⟨s1, s2⟩ := binadeExp_spec x h0
    have hpk : (0 : ℚ) < 2 ^ k := by positivity
    have habs : |x| = ((|m| : Int) : ℚ) * (2 : ℚ) ^ k := by
      rw [hx, abs_mul, abs_of_pos hpk, Int.cast_abs]
    have hlt : |x| < (2 : ℚ) ^ (24 + k) := by
      have hm' : |m| < 16777216 := by
        norm_num at hm
        exact hm
      have hq : ((|m| : Int) : ℚ) < 16777216 := by exact_mod_cast hm'
      rw [habs, zpow_add₀ (by norm_num)]
      have e24 : (2 : ℚ) ^ (24 : Int) = 16777216 := by norm_num
      rw [e24]
      exact mul_lt_mul_of_pos_right hq hpk
    have hb : binadeExp x < 24 + k := by
      have a : (2 : ℚ) ^ binadeExp x < (2 : ℚ) ^ (24 + k) := lt_of_le_of_lt s1 hlt
      exact (zpow_lt_zpow_iff_right₀ (by norm_num : (1 : ℚ) < 2)).mp a
    have hu : f32UlpExp x ≤ k := by
      unfold f32UlpExp
      rcases max_cases (binadeExp x) (-126) with ⟨h, -⟩ | ⟨h, -⟩ <;> rw [h] <;> omega
    obtain ⟨d, hd⟩ := Int.le.dest hu
    unfold roundF32
    generalize f32UlpExp x = u at *
    have hpu : (0 : ℚ) < 2 ^ u := by positivity
    have hq : x / 2 ^ u = ((m * 2 ^ d : Int) : ℚ) := by
      rw [div_eq_iff (ne_of_gt hpu), hx, ← hd, zpow_add₀ (by norm_num), zpow_natCast]
      push_cast
      ring
    rw [hq, roundNearestEven_intCast, ← hq]
    field_simp

/-! ### `NormalizeTerrain` in binary32 -/

theorem scaleF32_fold_apply (fMin fHeight : ℚ) (buf : FloatBuf) (m : Nat) (i : Int) :
    (List.range m).foldl (scaleStepF32 fMin fHeight) buf i
      = if 0 ≤ i ∧ i < (m : Int) then
          roundF32 (roundF32 (roundF32 (buf i - fMin) / fHeight) * 255)
        else buf i := by
  induction m with
  | zero =>
    have h0 : ¬ (0 ≤ i ∧ i < ((0 : Nat) : Int)) := by omega
    rw [if_neg h0]
    rfl
  | succ m ih =>
    rw [List.range_succ, List.foldl_append]
    simp only [List.foldl_cons, List.foldl_nil, scaleStepF32]
    by_cases him : i = (m : Int)
    · subst him
      have h1 : ¬ (0 ≤ (m : Int) ∧ (m : Int) < (m : Int)) := by omega
      have h2 : (0 ≤ (m : Int) ∧ (m : Int) < ((m + 1 : Nat) : Int)) := by omega
      rw [Function.update_same, ih, if_neg h1, if_pos h2]
    · rw [Function.update_noteq him, ih]
      by_cases hr : 0 ≤ i ∧ i < (m : Int)
      · have hr' : 0 ≤ i ∧ i < ((m + 1 : Nat) : Int) := by omega
        rw [if_pos hr, if_pos hr']
      · have hr' : ¬ (0 ≤ i ∧ i < ((m + 1 : Nat) : Int)) := by omega
        rw [if_neg hr, if_neg hr']

theorem NormalizeTerrainF32_apply (m_iSize : Nat) (buf : FloatBuf) (i : Nat)
    (hi : i < m_iSize * m_iSize)
    (hlt : (minMaxScan m_iSize buf).1 < (minMaxScan m_iSize buf).2) :
    NormalizeTerrainF32 m_iSize buf (i : Int)
      = roundF32 (roundF32 (roundF32 (buf (i : Int) - (minMaxScan m_iSize buf).1)
          / roundF32 ((minMaxScan m_iSize buf).2 - (minMaxScan m_iSize buf).1)) * 255) := by
  unfold NormalizeTerrainF32
  simp only [not_le.mpr hlt, if_false]
  rw [scaleF32_fold_apply, if_pos (by omega)]

theorem NormalizeTerrainF32_of_flat (m_iSize : Nat) (buf : FloatBuf)
    (hflat : (minMaxScan m_iSize buf).2 ≤ (minMaxScan m_iSize buf).1) :
    NormalizeTerrainF32 m_iSize buf = buf := by
  unfold NormalizeTerrainF32
  simp only [hflat, if_true]

/-- A binary32 value is a multiple of `2^-149`. -/
theorem roundF32_fixed_multiple (v : ℚ) (h : roundF32 v = v) :
    ∃ n : Int, v = (n : ℚ) * (2 : ℚ) ^ (-149 : Int) := by
  have hu : -149 ≤ f32UlpExp v := by
    unfold f32UlpExp
    have := le_max_right (binadeExp v) (-126)
    omega
  obtain ⟨d, hd⟩ := Int.le.dest hu
  refine ⟨roundNearestEven (v / 2 ^ f32UlpExp v) * 2 ^ d, ?_⟩
  have e : (2 : ℚ) ^ f32UlpExp v = (2 : ℚ) ^ d * (2 : ℚ) ^ (-149 : Int) := by
    rw [← hd, zpow_add₀ (by norm_num), zpow_natCast]
    ring
  conv_lhs => rw [← h]
  unfold roundF32
  rw [e]
  push_cast
  ring

/-- The difference of two distinct binary32 values does not round to zero. -/
theorem roundF32_sub_pos (x y : ℚ) (hx : roundF32 x = x) (hy : roundF32 y = y) (hlt : x < y) :
    0 < roundF32 (y - x) := by
  obtain ⟨a, ha⟩ := roundF32_fixed_multiple x hx
  obtain ⟨b, hb⟩ := roundF32_fixed_multiple y hy
  have hp : (0 : ℚ) < (2 : ℚ) ^ (-149 : Int) := by positivity
  have hab : a < b := by
    by_contra hcon
    have hle : (b : ℚ) ≤ (a : ℚ) := by exact_mod_cast not_lt.mp hcon
    have := mul_le_mul_of_nonneg_right hle (le_of_lt hp)
    rw [← ha, ← hb] at this
    linarith
  have h1 : (1 : ℚ) ≤ (b : ℚ) - (a : ℚ) := by
    have : (1 : Int) ≤ b - a := by omega
    exact_mod_cast this
  have hge : (2 : ℚ) ^ (-149 : Int) ≤ y - x := by
    rw [ha, hb, ← sub_mul]
    calc (2 : ℚ) ^ (-149 : Int) = 1 * (2 : ℚ) ^ (-149 : Int) := by ring
      _ ≤ ((b : ℚ) - (a : ℚ)) * (2 : ℚ) ^ (-149 : Int) :=
          mul_le_mul_of_nonneg_right h1 (le_of_lt hp)
  have hfix : roundF32 ((2 : ℚ) ^ (-149 : Int)) = (2 : ℚ) ^ (-149 : Int) :=
    roundF32_of_dyadic _ 1 (-149) (by simp) (by norm_num) (by norm_num)
  have := roundF32_mono _ _ hge
  rw [hfix] at this
  linarith

/-- In binary32, for a buffer of `float` values of magnitude at most `2^126` that is not
flat: the divisor `fHeight` is positive and finite, every result lies in `[0,255]`, and the
results are ordered as the inputs (not strictly). -/
theorem NormalizeTerrainF32_order (m_iSize : Nat) (buf : FloatBuf) (i j : Nat)
    (hi : i < m_iSize * m_iSize) (hj : j < m_iSize * m_iSize)
    (hrep : ∀ k : Nat, k < m_iSize * m_iSize →
      roundF32 (buf (k : Int)) = buf (k : Int) ∧ |buf (k : Int)| ≤ 2 ^ 126) :
    ((minMaxScan m_iSize buf).1 < (minMaxScan m_iSize buf).2 →
        0 < roundF32 ((minMaxScan m_iSize buf).2 - (minMaxScan m_iSize buf).1)
          ∧ roundF32 ((minMaxScan m_iSize buf).2 - (minMaxScan m_iSize buf).1) ≤ 2 ^ 127
          ∧ 0 ≤ NormalizeTerrainF32 m_iSize buf (i : Int)
          ∧ NormalizeTerrainF32 m_iSize buf (i : Int) ≤ 255)
      ∧ (buf (i : Int) ≤ buf (j : Int) →
          NormalizeTerrainF32 m_iSize buf (i : Int) ≤ NormalizeTerrainF32 m_iSize buf (j : Int))
      ∧ (buf (i : Int) = buf (j : Int) →
          NormalizeTerrainF32 m_iSize buf (i : Int) = NormalizeTerrainF32 m_iSize buf (j : Int)) := by
  obtain ⟨hmin, hmax⟩ := minMaxScan_isLeast_isGreatest m_iSize buf (by omega)
  obtain ⟨a, ha, hamn⟩ := hmin.1
  obtain ⟨b, hb, hbmx⟩ := hmax.1
  have hpos : (minMaxScan m_iSize buf).1 < (minMaxScan m_iSize buf).2 → 0 < roundF32 ((minMaxScan m_iSize buf).2 - (minMaxScan m_iSize buf).1) := by
    intro hlt
    apply roundF32_sub_pos (minMaxScan m_iSize buf).1 (minMaxScan m_iSize buf).2 _ _ hlt
    · rw [← hamn]; exact (hrep a ha).1
    · rw [← hbmx]; exact (hrep b hb).1
  have hstep : ∀ k : Nat, k < m_iSize * m_iSize → (minMaxScan m_iSize buf).1 < (minMaxScan m_iSize buf).2 →
      0 ≤ roundF32 (buf (k : Int) - (minMaxScan m_iSize buf).1) / roundF32 ((minMaxScan m_iSize buf).2 - (minMaxScan m_iSize buf).1)
        ∧ roundF32 (buf (k : Int) - (minMaxScan m_iSize buf).1) / roundF32 ((minMaxScan m_iSize buf).2 - (minMaxScan m_iSize buf).1) ≤ 1 := by
    intro k hk hlt
    have h1 : (minMaxScan m_iSize buf).1 ≤ buf (k : Int) := hmin.2 ⟨k, hk, rfl⟩
    have h2 : buf (k : Int) ≤ (minMaxScan m_iSize buf).2 := hmax.2 ⟨k, hk, rfl⟩
    have h3 := roundF32_nonneg (buf (k : Int) - (minMaxScan m_iSize buf).1) (by linarith)
    have h4 := roundF32_mono (buf (k : Int) - (minMaxScan m_iSize buf).1) ((minMaxScan m_iSize buf).2 - (minMaxScan m_iSize buf).1) (by linarith)
    have h5 := hpos hlt
    exact ⟨div_nonneg h3 (le_of_lt h5), (div_le_one h5).mpr h4⟩
  have r1 : roundF32 1 = 1 := roundF32_of_dyadic 1 1 0 (by simp) (by norm_num) (by norm_num)
  have r255 : roundF32 255 = 255 :=
    roundF32_of_dyadic 255 255 0 (by simp) (by norm_num) (by norm_num)
  refine ⟨?_, ?_, ?_⟩
  · intro hlt
    refine ⟨hpos hlt, ?_, ?_, ?_⟩
    · have hA : |buf (a : Int)| ≤ 2 ^ 126 := (hrep a ha).2
      have hB : |buf (b : Int)| ≤ 2 ^ 126 := (hrep b hb).2
      rw [hamn] at hA
      rw [hbmx] at hB
      have h1 := neg_abs_le (minMaxScan m_iSize buf).1
      have h2 := le_abs_self (minMaxScan m_iSize buf).2
      have hle : (minMaxScan m_iSize buf).2 - (minMaxScan m_iSize buf).1 ≤ (2 : ℚ) ^ 127 := by
        have e : (2 : ℚ) ^ 127 = 2 ^ 126 + 2 ^ 126 := by norm_num
        rw [e]
        linarith
      have := roundF32_mono _ _ hle
      have r127 : roundF32 ((2 : ℚ) ^ 127) = (2 : ℚ) ^ 127 :=
        roundF32_of_dyadic _ 1 127 (by norm_num) (by norm_num) (by norm_num)
      rw [r127] at this
      exact this
    · rw [NormalizeTerrainF32_apply m_iSize buf i hi hlt]
      exact roundF32_nonneg _ (mul_nonneg (roundF32_nonneg _ (hstep i hi hlt).1) (by norm_num))
    · rw [NormalizeTerrainF32_apply m_iSize buf i hi hlt]
      have h1 := roundF32_mono _ _ (hstep i hi hlt).2
      rw [r1] at h1
      have h2 : roundF32 (roundF32 (buf (i : Int) - (minMaxScan m_iSize buf).1) / roundF32 ((minMaxScan m_iSize buf).2 - (minMaxScan m_iSize buf).1)) * 255 ≤ 255 := by
        linarith
      have h3 := roundF32_mono _ _ h2
      rw [r255] at h3
      exact h3
  · intro hle
    by_cases hflat : (minMaxScan m_iSize buf).2 ≤ (minMaxScan m_iSize buf).1
    · rw [NormalizeTerrainF32_of_flat m_iSize buf hflat]
      exact hle
    · have hlt := not_le.mp hflat
      rw [NormalizeTerrainF32_apply m_iSize buf i hi hlt,
        NormalizeTerrainF32_apply m_iSize buf j hj hlt]
      apply roundF32_mono
      apply mul_le_mul_of_nonneg_right _ (by norm_num)
      apply roundF32_mono
      apply div_le_div_of_nonneg_right _ (le_of_lt (hpos hlt))
      apply roundF32_mono
      linarith
  · intro heq
    by_cases hflat : (minMaxScan m_iSize buf).2 ≤ (minMaxScan m_iSize buf).1
    · rw [NormalizeTerrainF32_of_flat m_iSize buf hflat]
      exact heq
    · have hlt := not_le.mp hflat
      rw [NormalizeTerrainF32_apply m_iSize buf i hi hlt,
        NormalizeTerrainF32_apply m_iSize buf j hj hlt, heq]

theorem collapseBuf_minMax : minMaxScan 2 collapseBuf = (-33554432, 2) := by decide!

/-- C4 (amended): in exact arithmetic `NormalizeTerrain` preserves the relative order of
any two samples strictly and keeps equal samples equal (flat buffers included).  In
binary32, for a buffer of `float` values of magnitude at most `2^126` (no operation
overflows), only the non-strict order is kept: `in[i] ≤ in[j]` gives `out[i] ≤ out[j]`
and equal samples stay equal; when the buffer is not flat the divisor `fHeight` is a
positive `float` not above `2^127` and every result lies in `[0,255]`. -/
theorem NormalizeTerrain_order_preserving (m_iSize : Nat) (buf : FloatBuf) (i j : Nat)
    (hi : i < m_iSize * m_iSize) (hj : j < m_iSize * m_iSize) :
    (buf (i : Int) < buf (j : Int) →
        NormalizeTerrain m_iSize buf (i : Int) < NormalizeTerrain m_iSize buf (j : Int))
      ∧ (buf (i : Int) = buf (j : Int) →
        NormalizeTerrain m_iSize buf (i : Int) = NormalizeTerrain m_iSize buf (j : Int))
      ∧ ((∀ k : Nat, k < m_iSize * m_iSize →
            roundF32 (buf (k : Int)) = buf (k : Int) ∧ |buf (k : Int)| ≤ 2 ^ 126) →
          ((minMaxScan m_iSize buf).1 < (minMaxScan m_iSize buf).2 →
              0 < roundF32 ((minMaxScan m_iSize buf).2 - (minMaxScan m_iSize buf).1)
                ∧ roundF32 ((minMaxScan m_iSize buf).2 - (minMaxScan m_iSize buf).1) ≤ 2 ^ 127
                ∧ 0 ≤ NormalizeTerrainF32 m_iSize buf (i : Int)
                ∧ NormalizeTerrainF32 m_iSize buf (i : Int) ≤ 255)
            ∧ (buf (i : Int) ≤ buf (j : Int) →
                NormalizeTerrainF32 m_iSize buf (i : Int)
                  ≤ NormalizeTerrainF32 m_iSize buf (j : Int))
            ∧ (buf (i : Int) = buf (j : Int) →
                NormalizeTerrainF32 m_iSize buf (i : Int)
                  = NormalizeTerrainF32 m_iSize buf (j : Int))) := by
  have hexact : (buf (i : Int) < buf (j : Int) →
        NormalizeTerrain m_iSize buf (i : Int) < NormalizeTerrain m_iSize buf (j : Int))
      ∧ (buf (i : Int) = buf (j : Int) →
        NormalizeTerrain m_iSize buf (i : Int) = NormalizeTerrain m_iSize buf (j : Int)) := by
    have hri : 0 ≤ (i : Int) ∧ (i : Int) < ((m_iSize * m_iSize : Nat) : Int) := by omega
    have hrj : 0 ≤ (j : Int) ∧ (j : Int) < ((m_iSize * m_iSize : Nat) : Int) := by omega
    rw [NormalizeTerrain_apply, NormalizeTerrain_apply]
    unfold normalizeReference
    by_cases hflat : (minMaxScan m_iSize buf).2 ≤ (minMaxScan m_iSize buf).1
    · rw [if_pos hflat, if_pos hflat]
      exact ⟨fun h => h, fun h => h⟩
    · rw [if_neg hflat, if_neg hflat, if_pos hri, if_pos hrj]
      have hpos : 0 < (minMaxScan m_iSize buf).2 - (minMaxScan m_iSize buf).1 := by
        have := not_le.mp hflat
        linarith
      constructor
      · intro h
        apply mul_lt_mul_of_pos_right _ (by norm_num)
        exact div_lt_div_of_pos_right (by linarith) hpos
      · intro h
        rw [h]
  exact ⟨hexact.1, hexact.2, fun hrep => NormalizeTerrainF32_order m_iSize buf i j hi hj hrep⟩

/-- C4 counterexample: the `float` buffer `-2^25, 1, 2, 0` of size 2 in binary32.  The
scan gives `fMin = -2^25`, `fMax = 2`; `fHeight`, `1 - fMin` and `2 - fMin` all round to
`2^25`, so the distinct samples of cells 1 and 2 both become 255. -/
theorem NormalizeTerrainF32_order_collapses :
    (∀ k : Nat, k < 2 * 2 → roundF32 (collapseBuf (k : Int)) = collapseBuf (k : Int))
      ∧ collapseBuf ((1 : Nat) : Int) < collapseBuf ((2 : Nat) : Int)
      ∧ NormalizeTerrainF32 2 collapseBuf ((1 : Nat) : Int) = 255
      ∧ NormalizeTerrainF32 2 collapseBuf ((2 : Nat) : Int) = 255 := by
  have hlt : (minMaxScan 2 collapseBuf).1 < (minMaxScan 2 collapseBuf).2 := by
    rw [collapseBuf_minMax]
    norm_num
  refine ⟨?_, by decide!, ?_, ?_⟩
  · intro k hk
    interval_cases k <;> decide!
  · rw [NormalizeTerrainF32_apply 2 collapseBuf 1 (by decide) hlt, collapseBuf_minMax]
    decide!
  · rw [NormalizeTerrainF32_apply 2 collapseBuf 2 (by decide) hlt, collapseBuf_minMax]
    decide!


theorem truncToInt_of_nonneg (v : ℚ) (h0 : 0 ≤ v) : truncToInt v = ⌊v⌋ := by
  unfold truncToInt
  rw [Int.tdiv_eq_ediv (Rat.num_nonneg.mpr h0) (Int.ofNat_nonneg _), Rat.floor_def]

theorem floatToUChar_of_range (v : ℚ) (h0 : 0 ≤ v) (h1 : v ≤ 255) :
    floatToUChar v = some ⌊v⌋.toNat := by
  unfold floatToUChar
  rw [truncToInt_of_nonneg v h0]
  have ha : 0 ≤ ⌊v⌋ := Int.floor_nonneg.mpr h0
  have hb : ⌊v⌋ < 256 := by
    rw [Int.floor_lt]
    push_cast
    linarith
  rw [if_pos ⟨ha, hb⟩]

theorem clearBuffer_apply (m_iSize : Nat) (buf : FloatBuf) (i : Int) :
    clearBuffer m_iSize buf i
      = if 0 ≤ i ∧ i < ((m_iSize * m_iSize : Nat) : Int) then 0 else buf i := by
  unfold clearBuffer
  generalize m_iSize * m_iSize = m
  induction m with
  | zero =>
    have h0 : ¬ (0 ≤ i ∧ i < ((0 : Nat) : Int)) := by omega
    rw [if_neg h0]
    rfl
  | succ m ih =>
    rw [List.range_succ, List.foldl_append]
    simp only [List.foldl_cons, List.foldl_nil]
    by_cases him : i = (m : Int)
    · subst him
      have h2 : (0 ≤ (m : Int) ∧ (m : Int) < ((m + 1 : Nat) : Int)) := by omega
      rw [Function.update_same, if_pos h2]
    · rw [Function.update_noteq him, ih]
      by_cases h : 0 ≤ i ∧ i < (m : Int)
      · have h2 : 0 ≤ i ∧ i < ((m + 1 : Nat) : Int) := by omega
        rw [if_pos h, if_pos h2]
      · have h2 : ¬ (0 ≤ i ∧ i < ((m + 1 : Nat) : Int)) := by omega
        rw [if_neg h, if_neg h2]

/-- One row of the transfer loop. -/
theorem transfer_row_apply (s z m : Nat) (g : Int → Option Nat) (d : Int → Option Nat)
    (k : Int) :
    (List.range m).foldl (fun d (x : Nat) => Function.update d ((z : Int) * s + x)
        (g ((z : Int) * s + x))) d k
      = if (z : Int) * s ≤ k ∧ k < (z : Int) * s + m then g k else d k := by
  induction m with
  | zero =>
    have h0 : ¬ ((z : Int) * s ≤ k ∧ k < (z : Int) * s + ((0 : Nat) : Int)) := by omega
    rw [if_neg h0]
    rfl
  | succ m ih =>
    rw [List.range_succ, List.foldl_append]
    simp only [List.foldl_cons, List.foldl_nil]
    by_cases hk : k = (z : Int) * s + m
    · have h2 : (z : Int) * s ≤ k ∧ k < (z : Int) * s + ((m + 1 : Nat) : Int) := by
        constructor <;> push_cast <;> omega
      rw [if_pos h2, hk, Function.update_same]
    · rw [Function.update_noteq hk, ih]
      by_cases h : (z : Int) * s ≤ k ∧ k < (z : Int) * s + m
      · have h2 : (z : Int) * s ≤ k ∧ k < (z : Int) * s + ((m + 1 : Nat) : Int) := by
          constructor <;> push_cast <;> omega
        rw [if_pos h, if_pos h2]
      · have h2 : ¬ ((z : Int) * s ≤ k ∧ k < (z : Int) * s + ((m + 1 : Nat) : Int)) := by
          push_cast
          omega
        rw [if_neg h, if_neg h2]

/-- The transfer loop stores the converted sample of every grid cell. -/
theorem transferHeights_apply (m_iSize : Nat) (buf : FloatBuf) (x z : Nat)
    (hx : x < m_iSize) (hz : z < m_iSize) :
    transferHeights m_iSize buf ((z : Int) * m_iSize + x)
      = floatToUChar (buf ((z : Int) * m_iSize + x)) := by
  unfold transferHeights
  have key : ∀ (mz : Nat) (d0 : Int → Option Nat), z < mz →
      (List.range mz).foldl (fun dz (z' : Nat) =>
        (List.range m_iSize).foldl (fun d (x' : Nat) =>
          Function.update d ((z' : Int) * m_iSize + x')
            (floatToUChar (buf ((z' : Int) * m_iSize + x')))) dz) d0
          ((z : Int) * m_iSize + x)
        = floatToUChar (buf ((z : Int) * m_iSize + x)) := by
    intro mz
    induction mz with
    | zero => intro d0 h; omega
    | succ mz ih =>
      intro d0 h
      rw [List.range_succ, List.foldl_append]
      simp only [List.foldl_cons, List.foldl_nil]
      rw [transfer_row_apply m_iSize mz m_iSize (fun k => floatToUChar (buf k))]
      by_cases hzm : z = mz
      · subst hzm
        have hin : (z : Int) * m_iSize ≤ (z : Int) * m_iSize + x
            ∧ (z : Int) * m_iSize + x < (z : Int) * m_iSize + m_iSize := by omega
        rw [if_pos hin]
      · have hlt : z < mz := by omega
        have hmul : ((z : Int) + 1) * m_iSize ≤ (mz : Int) * m_iSize :=
          mul_le_mul_of_nonneg_right (by omega) (by omega)
        have hout : ¬ ((mz : Int) * m_iSize ≤ (z : Int) * m_iSize + x
            ∧ (z : Int) * m_iSize + x < (mz : Int) * m_iSize + m_iSize) := by
          intro hc
          have : ((z : Int) + 1) * m_iSize = (z : Int) * m_iSize + m_iSize := by ring
          omega
        rw [if_neg hout]
        exact ih d0 hlt
  exact key m_iSize _ hz


theorem MakeTerrainFaultRaw_zero_iterations (rand : Nat → Nat) (fuel : Nat)
    (fTempBuffer : FloatBuf) (iSize : Nat) (iIterations iMinDelta iMaxDelta : Int)
    (fFilter : ℚ) (h : iIterations ≤ 0) :
    MakeTerrainFaultRaw rand fuel fTempBuffer iSize iIterations iMinDelta iMaxDelta fFilter
      = some (clearBuffer iSize fTempBuffer) := by
  unfold MakeTerrainFaultRaw
  have h0 : iIterations.toNat = 0 := by omega
  rw [h0]
  rfl

/-- C1 (amended): let `raw` be the working buffer of `MakeTerrainFault` when
`NormalizeTerrain` is called.  `MakeTerrainFault` then normalises `raw` and stores the
converted samples.  If two samples of `raw` differ, or all samples of `raw` already lie
in `[0,255]`, every sample after `NormalizeTerrain` lies in `[0,255]` and every stored
8-bit height is the truncation of that sample.  If `raw` is constant, `NormalizeTerrain`
returns it unchanged.  With no iterations `raw` is all zero. -/
theorem MakeTerrainFault_normalized_range (rand : Nat → Nat) (fuel : Nat)
    (fTempBuffer : FloatBuf) (iSize : Nat) (iIterations iMinDelta iMaxDelta : Int)
    (fFilter : ℚ) (raw : FloatBuf)
    (hraw : MakeTerrainFaultRaw rand fuel fTempBuffer iSize iIterations iMinDelta iMaxDelta
      fFilter = some raw) :
    MakeTerrainFaultBuffer rand fuel fTempBuffer iSize iIterations iMinDelta iMaxDelta fFilter
        = some (NormalizeTerrain iSize raw)
      ∧ MakeTerrainFault rand fuel fTempBuffer iSize iIterations iMinDelta iMaxDelta fFilter
        = some (transferHeights iSize (NormalizeTerrain iSize raw))
      ∧ (((∃ i j : Nat, i < iSize * iSize ∧ j < iSize * iSize ∧ raw (i : Int) ≠ raw (j : Int))
            ∨ (∀ i : Nat, i < iSize * iSize → 0 ≤ raw (i : Int) ∧ raw (i : Int) ≤ 255)) →
          ∀ x z : Nat, x < iSize → z < iSize →
            0 ≤ NormalizeTerrain iSize raw ((z : Int) * iSize + x)
              ∧ NormalizeTerrain iSize raw ((z : Int) * iSize + x) ≤ 255
              ∧ transferHeights iSize (NormalizeTerrain iSize raw) ((z : Int) * iSize + x)
                = some ⌊NormalizeTerrain iSize raw ((z : Int) * iSize + x)⌋.toNat)
      ∧ ((∀ i j : Nat, i < iSize * iSize → j < iSize * iSize → raw (i : Int) = raw (j : Int)) →
          NormalizeTerrain iSize raw = raw)
      ∧ (iIterations ≤ 0 → ∀ i : Nat, i < iSize * iSize → raw (i : Int) = 0) := by
  have hbuf : MakeTerrainFaultBuffer rand fuel fTempBuffer iSize iIterations iMinDelta
      iMaxDelta fFilter = some (NormalizeTerrain iSize raw) := by
    unfold MakeTerrainFaultBuffer
    rw [hraw]
    rfl
  refine ⟨hbuf, ?_, ?_, fun hflat => NormalizeTerrain_of_flat iSize raw hflat, ?_⟩
  · unfold MakeTerrainFault
    rw [hbuf]
    rfl
  · intro hok x z hx hz
    have hidx : (z : Int) * iSize + x = ((z * iSize + x : Nat) : Int) := by push_cast; ring
    have hlt : z * iSize + x < iSize * iSize := by
      have : (z + 1) * iSize ≤ iSize * iSize := Nat.mul_le_mul_right _ (by omega)
      have e : (z + 1) * iSize = z * iSize + iSize := by ring
      omega
    have hrange : 0 ≤ NormalizeTerrain iSize raw ((z : Int) * iSize + x)
        ∧ NormalizeTerrain iSize raw ((z : Int) * iSize + x) ≤ 255 := by
      rw [hidx]
      by_cases hne : ∃ i j : Nat, i < iSize * iSize ∧ j < iSize * iSize
          ∧ raw (i : Int) ≠ raw (j : Int)
      · obtain ⟨i, j, hi, hj, hij⟩ := hne
        exact NormalizeTerrain_range iSize raw (minMaxScan_lt_of_ne iSize raw i j hi hj hij)
          _ hlt
      · have hflat : ∀ i j : Nat, i < iSize * iSize → j < iSize * iSize →
            raw (i : Int) = raw (j : Int) := by
          intro i j hi hj
          by_contra hc
          exact hne ⟨i, j, hi, hj, hc⟩
        rw [NormalizeTerrain_of_flat iSize raw hflat]
        rcases hok with h | h
        · exact absurd h hne
        · exact h _ hlt
    refine ⟨hrange.1, hrange.2, ?_⟩
    rw [transferHeights_apply iSize _ x z hx hz]
    exact floatToUChar_of_range _ hrange.1 hrange.2
  · intro hit i hi
    rw [MakeTerrainFaultRaw_zero_iterations rand fuel fTempBuffer iSize iIterations iMinDelta
      iMaxDelta fFilter hit] at hraw
    have e : raw = clearBuffer iSize fTempBuffer := (Option.some.inj hraw).symm
    rw [e, clearBuffer_apply]
    have hr : 0 ≤ (i : Int) ∧ (i : Int) < ((iSize * iSize : Nat) : Int) := by omega
    rw [if_pos hr]

/-- The raw buffer of the worked fault example: one pass at filter strength 1 leaves all
four cells at 300. -/
theorem faultExample_raw :
    (MakeTerrainFaultRaw faultRand 1 (fun _ => 0) 2 1 0 300 1).map
      (fun b => (b 0, b 1, b 2, b 3)) = some (300, 300, 300, 300) := by
  decide!

/-- C1 witness: the theorem applied to a run with one pass at filter strength 1/2. -/
theorem MakeTerrainFault_normalized_range_witness :
    ∃ raw, MakeTerrainFaultRaw faultRand 1 (fun _ => 0) 2 1 0 300 (1 / 2) = some raw
      ∧ MakeTerrainFault faultRand 1 (fun _ => 0) 2 1 0 300 (1 / 2)
        = some (transferHeights 2 (NormalizeTerrain 2 raw)) := by
  have hsome : (MakeTerrainFaultRaw faultRand 1 (fun _ => 0) 2 1 0 300 (1 / 2)).isSome
      = true := by decide!
  obtain ⟨raw, hraw⟩ := Option.isSome_iff_exists.mp hsome
  exact ⟨raw, hraw,
    (MakeTerrainFault_normalized_range faultRand 1 (fun _ => 0) 2 1 0 300 (1 / 2) raw hraw).2.1⟩

/-- C1 counterexample: size 2, one iteration, deltas 0 ≤ 300, filter strength 1 and the
stream `faultRand`: the working buffer after `NormalizeTerrain` holds 300 in cell 0, which
is not in `[0,255]`. -/
theorem MakeTerrainFault_range_counterexample :
    ∃ buf, MakeTerrainFaultBuffer faultRand 1 (fun _ => 0) 2 1 0 300 1 = some buf
      ∧ buf 0 = 300 ∧ ¬ (0 ≤ buf 0 ∧ buf 0 ≤ 255) := by
  obtain ⟨raw, hraw, hv⟩ := Option.map_eq_some'.mp faultExample_raw
  simp only [Prod.mk.injEq] at hv
  obtain ⟨h0, h1, h2, h3⟩ := hv
  have hflat : ∀ i j : Nat, i < 2 * 2 → j < 2 * 2 → raw (i : Int) = raw (j : Int) := by
    intro i j hi hj
    have hall : ∀ k : Nat, k < 2 * 2 → raw (k : Int) = 300 := by
      intro k hk
      interval_cases k
      · exact h0
      · exact h1
      · exact h2
      · exact h3
    rw [hall i hi, hall j hj]
  refine ⟨raw, ?_, h0, ?_⟩
  · unfold MakeTerrainFaultBuffer
    rw [hraw, Option.map_some', NormalizeTerrain_of_flat 2 raw hflat]
  · rw [h0]
    norm_num


theorem rampBuf_float (k : Nat) (hk : k < 2 * 2) :
    roundF32 (rampBuf (k : Int)) = rampBuf (k : Int) ∧ |rampBuf (k : Int)| ≤ 2 ^ 126 := by
  interval_cases k <;> exact ⟨by decide!, by norm_num [rampBuf]⟩

/-- Witness for C4 (amended) on the ramp buffer `0, 1, 2, 3`, cells 1 and 2. -/
theorem NormalizeTerrain_order_preserving_witness :
    NormalizeTerrain 2 rampBuf ((1 : Nat) : Int) < NormalizeTerrain 2 rampBuf ((2 : Nat) : Int)
      ∧ NormalizeTerrainF32 2 rampBuf ((1 : Nat) : Int)
          ≤ NormalizeTerrainF32 2 rampBuf ((2 : Nat) : Int) :=
  have h := NormalizeTerrain_order_preserving 2 rampBuf 1 2 (by decide) (by decide)
  ⟨h.1 (by norm_num [rampBuf]), (h.2.2 rampBuf_float).2.1 (by norm_num [rampBuf])⟩


/-! ## Region computation -/

theorem range_tiles : List.range TRN_NUM_TILES = [0, 1, 2, 3] := rfl

/-- The region loop gives the `k`-th loaded tile the band `bandOf n k`. -/
theorem computeRegions_eq_bandOf (tiles : Nat → CIMAGE) (r0 : Nat → STRN_TEXTURE_REGIONS)
    (i : Nat) (hi : i < 4) (hl : (tiles i).m_bIsLoaded = true) :
    computeRegions tiles r0 i = bandOf (countTiles tiles) (tileRank tiles i)
      ∧ 0 ≤ tileRank tiles i ∧ tileRank tiles i < countTiles tiles ∧ countTiles tiles ≤ 4 := by
  cases h0 : (tiles 0).m_bIsLoaded <;> cases h1 : (tiles 1).m_bIsLoaded <;>
    cases h2 : (tiles 2).m_bIsLoaded <;> cases h3 : (tiles 3).m_bIsLoaded <;>
    interval_cases i <;>
    simp_all [computeRegions, countTiles, regionStep, range_tiles, tileRank, bandOf,
      Function.update, List.range_succ] <;> decide

/-- Ranks of two loaded tiles with no loaded tile between them differ by one. -/
theorem tileRank_succ (tiles : Nat → CIMAGE) (i j : Nat) (hji : j < i) (hi : i < 4)
    (hlj : (tiles j).m_bIsLoaded = true)
    (hbetween : ∀ m, j < m → m < i → (tiles m).m_bIsLoaded = false) :
    tileRank tiles i = tileRank tiles j + 1 := by
  have hb1 := hbetween 1
  have hb2 := hbetween 2
  cases h0 : (tiles 0).m_bIsLoaded <;> cases h1 : (tiles 1).m_bIsLoaded <;>
    cases h2 : (tiles 2).m_bIsLoaded <;>
    interval_cases i <;> interval_cases j <;>
    simp_all [tileRank, List.range_succ]

/-- A loaded tile followed by another loaded tile is not the last band. -/
theorem tileRank_lt_of_later (tiles : Nat → CIMAGE) (i j : Nat) (hij : i < j) (hj : j < 4)
    (hli : (tiles i).m_bIsLoaded = true) (hlj : (tiles j).m_bIsLoaded = true) :
    tileRank tiles i + 1 < countTiles tiles := by
  cases h0 : (tiles 0).m_bIsLoaded <;> cases h1 : (tiles 1).m_bIsLoaded <;>
    cases h2 : (tiles 2).m_bIsLoaded <;> cases h3 : (tiles 3).m_bIsLoaded <;>
    interval_cases j <;> interval_cases i <;>
    simp_all [tileRank, countTiles, range_tiles, List.range_succ]

/-- Numeric facts about the closed-form bands. -/
theorem bandOf_facts (n k : Int) (hk0 : 0 ≤ k) (hkn : k < n) (hn : n ≤ 4) :
    0 ≤ (bandOf n k).m_iLowHeight
      ∧ (bandOf n k).m_iLowHeight < (bandOf n k).m_iOptimalHeight
      ∧ (bandOf n k).m_iOptimalHeight < (bandOf n k).m_iHighHeight
      ∧ (bandOf n k).m_iOptimalHeight ≤ 254
      ∧ (bandOf n k).m_iHighHeight ≤ 508
      ∧ (k + 1 < n → (bandOf n k).m_iHighHeight ≤ 255)
      ∧ (k + 1 = n → 255 < (bandOf n k).m_iHighHeight) := by
  have h1 : 1 ≤ n := by omega
  interval_cases n <;> interval_cases k <;> decide

/-- The cascade of `RegionPercent` fires exactly for the first loaded tile below its
optimal height. -/
theorem lowestTileSpecialCase_iff (tiles : Nat → CIMAGE) (regions : Nat → STRN_TEXTURE_REGIONS)
    (i h : Nat) (hi : i < 4) (hl : (tiles i).m_bIsLoaded = true) :
    lowestTileSpecialCase tiles regions i h = true
      ↔ tileRank tiles i = 0 ∧ (h : Int) < (regions i).m_iOptimalHeight := by
  cases h0 : (tiles 0).m_bIsLoaded <;> cases h1 : (tiles 1).m_bIsLoaded <;>
    cases h2 : (tiles 2).m_bIsLoaded <;> cases h3 : (tiles 3).m_bIsLoaded <;>
    interval_cases i <;>
    simp_all [lowestTileSpecialCase, tileRank, List.range_succ, LOWEST_TILE, LOW_TILE,
      HIGH_TILE, HIGHEST_TILE]

/-! ## `RegionPercent` -/

/-- The ramps of `RegionPercent` agree with the piecewise reference for every band. -/
theorem regionRamp_eq_rampReference (r : STRN_TEXTURE_REGIONS) (h : Nat) :
    regionRamp r h = rampReference r.m_iLowHeight r.m_iOptimalHeight r.m_iHighHeight h := by
  unfold regionRamp rampReference
  by_cases h1 : (h : Int) < r.m_iLowHeight
  · simp [h1]
  by_cases h2 : (h : Int) > r.m_iHighHeight
  · simp [h1, h2]
  have h12 : ¬ ((h : Int) < r.m_iLowHeight ∨ (h : Int) > r.m_iHighHeight) := by tauto
  rw [if_neg h1, if_neg h2, if_neg h12]
  by_cases h3 : (h : Int) < r.m_iOptimalHeight
  · rw [if_pos h3, if_pos h3]
  rw [if_neg h3, if_neg h3]
  by_cases h4 : (h : Int) = r.m_iOptimalHeight
  · rw [if_pos h4, if_pos h4]
  rw [if_neg h4, if_neg h4]
  have h5 : (h : Int) > r.m_iOptimalHeight := by omega
  rw [if_pos h5]
  push_cast
  ring

/-- On a band with `low < optimal < high` the ramp value lies in `[0,1]`. -/
theorem regionRamp_mem_unit (r : STRN_TEXTURE_REGIONS) (h : Nat)
    (hlo : r.m_iLowHeight < r.m_iOptimalHeight) (hoh : r.m_iOptimalHeight < r.m_iHighHeight) :
    0 ≤ regionRamp r h ∧ regionRamp r h ≤ 1 := by
  have hlo' : (r.m_iLowHeight : ℚ) < r.m_iOptimalHeight := by exact_mod_cast hlo
  have hoh' : (r.m_iOptimalHeight : ℚ) < r.m_iHighHeight := by exact_mod_cast hoh
  rw [regionRamp_eq_rampReference]
  unfold rampReference
  by_cases h1 : (h : Int) < r.m_iLowHeight ∨ (h : Int) > r.m_iHighHeight
  · rw [if_pos h1]; norm_num
  rw [if_neg h1]
  have h1a : r.m_iLowHeight ≤ (h : Int) := by omega
  have h1b : (h : Int) ≤ r.m_iHighHeight := by omega
  have h1a' : (r.m_iLowHeight : ℚ) ≤ ((h : Int) : ℚ) := by exact_mod_cast h1a
  have h1b' : ((h : Int) : ℚ) ≤ r.m_iHighHeight := by exact_mod_cast h1b
  simp only [Int.cast_natCast] at h1a' h1b'
  by_cases h3 : (h : Int) < r.m_iOptimalHeight
  · rw [if_pos h3]
    have h3' : ((h : Int) : ℚ) < r.m_iOptimalHeight := by exact_mod_cast h3
    simp only [Int.cast_natCast] at h3'
    have hd : (0 : ℚ) < r.m_iOptimalHeight - r.m_iLowHeight := by linarith
    exact ⟨div_nonneg (by linarith) (le_of_lt hd), (div_le_one hd).mpr (by linarith)⟩
  rw [if_neg h3]
  by_cases h4 : (h : Int) = r.m_iOptimalHeight
  · rw [if_pos h4]; norm_num
  rw [if_neg h4]
  have h5 : r.m_iOptimalHeight < (h : Int) := by omega
  have h5' : (r.m_iOptimalHeight : ℚ) < ((h : Int) : ℚ) := by exact_mod_cast h5
  simp only [Int.cast_natCast] at h5'
  have hd : (0 : ℚ) < r.m_iHighHeight - r.m_iOptimalHeight := by linarith
  exact ⟨div_nonneg (by linarith) (le_of_lt hd), (div_le_one hd).mpr (by linarith)⟩

/-- Order facts on the band of a loaded tile. -/
theorem computeRegions_loaded_facts (tiles : Nat → CIMAGE) (r0 : Nat → STRN_TEXTURE_REGIONS)
    (i : Nat) (hi : i < 4) (hl : (tiles i).m_bIsLoaded = true) :
    0 ≤ (computeRegions tiles r0 i).m_iLowHeight
      ∧ (computeRegions tiles r0 i).m_iLowHeight < (computeRegions tiles r0 i).m_iOptimalHeight
      ∧ (computeRegions tiles r0 i).m_iOptimalHeight < (computeRegions tiles r0 i).m_iHighHeight
      ∧ (computeRegions tiles r0 i).m_iOptimalHeight ≤ 254
      ∧ (computeRegions tiles r0 i).m_iHighHeight ≤ 508 := by
  obtain ⟨e, hk0, hkn, hn⟩ := computeRegions_eq_bandOf tiles r0 i hi hl
  obtain ⟨f1, f2, f3, f4, f5, -, -⟩ := bandOf_facts _ _ hk0 hkn hn
  rw [e]
  exact ⟨f1, f2, f3, f4, f5⟩

/-- C5: for a loaded tile `i`, with the regions computed by `GenerateTextureMap`:
whenever the "lowest tile below its optimal height" cascade does not fire,
`RegionPercent(i,h)` equals the piecewise reference (0 outside `[low,high]`,
`(h-low)/(optimal-low)` below the optimum, 1 at the optimum,
`(high-h)/(high-optimal)` above it); neither divisor is zero; and
`RegionPercent(i, optimal_i) = 1`, where `optimal_i` is a height in `0..255`. -/
theorem RegionPercent_eq_reference (tiles : Nat → CIMAGE) (r0 : Nat → STRN_TEXTURE_REGIONS)
    (i h : Nat) (hi : i < TRN_NUM_TILES) (hl : (tiles i).m_bIsLoaded = true) (_hh : h ≤ 255) :
    (lowestTileSpecialCase tiles (computeRegions tiles r0) i h = false →
        RegionPercent tiles (computeRegions tiles r0) i h
          = rampReference (computeRegions tiles r0 i).m_iLowHeight
              (computeRegions tiles r0 i).m_iOptimalHeight
              (computeRegions tiles r0 i).m_iHighHeight h)
      ∧ ((computeRegions tiles r0 i).m_iOptimalHeight : ℚ)
          - ((computeRegions tiles r0 i).m_iLowHeight : ℚ) ≠ 0
      ∧ ((computeRegions tiles r0 i).m_iHighHeight : ℚ)
          - ((computeRegions tiles r0 i).m_iOptimalHeight : ℚ) ≠ 0
      ∧ 0 ≤ (computeRegions tiles r0 i).m_iOptimalHeight
      ∧ (computeRegions tiles r0 i).m_iOptimalHeight ≤ 255
      ∧ RegionPercent tiles (computeRegions tiles r0) i
          (computeRegions tiles r0 i).m_iOptimalHeight.toNat = 1 := by
  obtain ⟨f1, f2, f3, f4, -⟩ := computeRegions_loaded_facts tiles r0 i hi hl
  have f2' : ((computeRegions tiles r0 i).m_iLowHeight : ℚ)
      < (computeRegions tiles r0 i).m_iOptimalHeight := by exact_mod_cast f2
  have f3' : ((computeRegions tiles r0 i).m_iOptimalHeight : ℚ)
      < (computeRegions tiles r0 i).m_iHighHeight := by exact_mod_cast f3
  refine ⟨?_, ?_, ?_, by omega, by omega, ?_⟩
  · intro hs
    unfold RegionPercent
    rw [hs]
    exact regionRamp_eq_rampReference _ _
  · exact ne_of_gt (by linarith)
  · exact ne_of_gt (by linarith)
  · have hopt : (((computeRegions tiles r0 i).m_iOptimalHeight.toNat : Nat) : Int)
        = (computeRegions tiles r0 i).m_iOptimalHeight := Int.toNat_of_nonneg (by omega)
    unfold RegionPercent
    have hs : lowestTileSpecialCase tiles (computeRegions tiles r0) i
        (computeRegions tiles r0 i).m_iOptimalHeight.toNat = false := by
      rw [Bool.eq_false_iff]
      intro hc
      have := ((lowestTileSpecialCase_iff tiles _ i _ hi hl).mp hc).2
      omega
    rw [hs]
    unfold regionRamp
    rw [hopt]
    simp only [Bool.false_eq_true, if_false]
    rw [if_neg (by omega), if_neg (by omega), if_neg (by omega)]
    simp

/-- C6: for a loaded tile `i`, with the regions computed by `GenerateTextureMap`, and every
height `h` in `0..255`, `RegionPercent(i,h)` lies in `[0,1]`. -/
theorem RegionPercent_mem_unit (tiles : Nat → CIMAGE) (r0 : Nat → STRN_TEXTURE_REGIONS)
    (i h : Nat) (hi : i < TRN_NUM_TILES) (hl : (tiles i).m_bIsLoaded = true) (_hh : h ≤ 255) :
    0 ≤ RegionPercent tiles (computeRegions tiles r0) i h
      ∧ RegionPercent tiles (computeRegions tiles r0) i h ≤ 1 := by
  obtain ⟨-, f2, f3, -, -⟩ := computeRegions_loaded_facts tiles r0 i hi hl
  unfold RegionPercent
  by_cases hs : lowestTileSpecialCase tiles (computeRegions tiles r0) i h = true
  · rw [if_pos hs]; norm_num
  · rw [if_neg hs]
    exact regionRamp_mem_unit _ h f2 f3

/-- Witness for C5: four loaded tiles, tile 1 (band 63, 125, 187) at height 100. -/
theorem RegionPercent_eq_reference_witness :
    lowestTileSpecialCase fourTiles (computeRegions fourTiles zeroRegions) 1 100 = false
      ∧ RegionPercent fourTiles (computeRegions fourTiles zeroRegions) 1 100
          = rampReference (computeRegions fourTiles zeroRegions 1).m_iLowHeight
              (computeRegions fourTiles zeroRegions 1).m_iOptimalHeight
              (computeRegions fourTiles zeroRegions 1).m_iHighHeight 100 :=
  ⟨by decide, (RegionPercent_eq_reference fourTiles zeroRegions 1 100 (by decide) rfl
    (by decide)).1 (by decide)⟩

/-- Witness for C6: four loaded tiles, tile 1 at height 100. -/
theorem RegionPercent_mem_unit_witness :
    0 ≤ RegionPercent fourTiles (computeRegions fourTiles zeroRegions) 1 100
      ∧ RegionPercent fourTiles (computeRegions fourTiles zeroRegions) 1 100 ≤ 1 :=
  RegionPercent_mem_unit fourTiles zeroRegions 1 100 (by decide) rfl (by decide)

/-! ## Region invariants -/

/-- C9 (amended): after the region computation, a loaded tile `i` that is not the first
loaded tile has `lowHeight` equal to the previous loaded tile's `optimalHeight + 1`
(the previous loaded tile `j` being the loaded slot below `i` with no loaded slot
between them). -/
theorem computeRegions_low_eq_prev_optimal_succ (tiles : Nat → CIMAGE)
    (r0 : Nat → STRN_TEXTURE_REGIONS) (i j : Nat) (hji : j < i) (hi : i < TRN_NUM_TILES)
    (hli : (tiles i).m_bIsLoaded = true) (hlj : (tiles j).m_bIsLoaded = true)
    (hbetween : ∀ m, j < m → m < i → (tiles m).m_bIsLoaded = false) :
    (computeRegions tiles r0 i).m_iLowHeight
      = (computeRegions tiles r0 j).m_iOptimalHeight + 1 := by
  have hi4 : i < 4 := hi
  obtain ⟨ei, -⟩ := computeRegions_eq_bandOf tiles r0 i hi4 hli
  obtain ⟨ej, -⟩ := computeRegions_eq_bandOf tiles r0 j (by omega) hlj
  rw [ei, ej, tileRank_succ tiles i j hji hi4 hlj hbetween]
  simp only [bandOf]
  ring

/-- Witness for C9 (amended): slots 0 and 1 loaded. -/
theorem computeRegions_low_eq_prev_optimal_succ_witness :
    (computeRegions twoTiles zeroRegions 1).m_iLowHeight
      = (computeRegions twoTiles zeroRegions 0).m_iOptimalHeight + 1 :=
  computeRegions_low_eq_prev_optimal_succ twoTiles zeroRegions 1 0 (by decide) (by decide)
    rfl rfl (fun m h1 h2 => absurd h2 (by omega))

/-- C9 counterexample: with slots 0 and 1 loaded the second band starts at 127 while the
first band's `highHeight + 1` is 253. -/
theorem computeRegions_low_ne_prev_high_succ :
    (twoTiles 0).m_bIsLoaded = true ∧ (twoTiles 1).m_bIsLoaded = true
      ∧ (computeRegions twoTiles zeroRegions 1).m_iLowHeight = 127
      ∧ (computeRegions twoTiles zeroRegions 0).m_iHighHeight + 1 = 253
      ∧ (computeRegions twoTiles zeroRegions 1).m_iLowHeight
          ≠ (computeRegions twoTiles zeroRegions 0).m_iHighHeight + 1 := by
  decide

/-- C10 (amended): after the region computation every loaded tile has
`0 ≤ lowHeight ≤ optimalHeight ≤ highHeight`, with `lowHeight` and `optimalHeight` in
`[0,255]` and `highHeight` in `[0,508]`; `highHeight ≤ 255` for every loaded tile that has
a loaded tile above it. -/
theorem computeRegions_invariant (tiles : Nat → CIMAGE) (r0 : Nat → STRN_TEXTURE_REGIONS)
    (i : Nat) (hi : i < TRN_NUM_TILES) (hl : (tiles i).m_bIsLoaded = true) :
    0 ≤ (computeRegions tiles r0 i).m_iLowHeight
      ∧ (computeRegions tiles r0 i).m_iLowHeight ≤ (computeRegions tiles r0 i).m_iOptimalHeight
      ∧ (computeRegions tiles r0 i).m_iOptimalHeight ≤ (computeRegions tiles r0 i).m_iHighHeight
      ∧ (computeRegions tiles r0 i).m_iLowHeight ≤ 255
      ∧ (computeRegions tiles r0 i).m_iOptimalHeight ≤ 255
      ∧ (computeRegions tiles r0 i).m_iHighHeight ≤ 508
      ∧ ((∃ j, i < j ∧ j < TRN_NUM_TILES ∧ (tiles j).m_bIsLoaded = true) →
          (computeRegions tiles r0 i).m_iHighHeight ≤ 255) := by
  have hi4 : i < 4 := hi
  obtain ⟨e, hk0, hkn, hn⟩ := computeRegions_eq_bandOf tiles r0 i hi4 hl
  obtain ⟨f1, f2, f3, f4, f5, f6, -⟩ := bandOf_facts _ _ hk0 hkn hn
  rw [e]
  refine ⟨f1, by omega, by omega, by omega, by omega, f5, ?_⟩
  rintro ⟨j, hij, hj, hlj⟩
  exact f6 (tileRank_lt_of_later tiles i j hij hj hl hlj)

/-- Witness for C10 (amended): slot 0 of two loaded tiles. -/
theorem computeRegions_invariant_witness :
    (computeRegions twoTiles zeroRegions 0).m_iHighHeight ≤ 508
      ∧ (computeRegions twoTiles zeroRegions 0).m_iHighHeight ≤ 255 :=
  ⟨(computeRegions_invariant twoTiles zeroRegions 0 (by decide) rfl).2.2.2.2.2.1,
   (computeRegions_invariant twoTiles zeroRegions 0 (by decide) rfl).2.2.2.2.2.2
     ⟨1, by decide, by decide, rfl⟩⟩

/-- C10 counterexample: with a single loaded tile the band is `0, 254, 508`, so
`highHeight` is not in `[0,255]`. -/
theorem computeRegions_high_exceeds_255 :
    (oneTile 2).m_bIsLoaded = true
      ∧ computeRegions oneTile zeroRegions 2 = ⟨0, 254, 508⟩
      ∧ ¬ ((computeRegions oneTile zeroRegions 2).m_iHighHeight ≤ 255) := by
  decide

/-! ## `GetTexCoords` -/

/-- With enough fuel the repetition loop stops at `coord / uiDim`. -/
theorem findRepeat_eq_div (uiDim coord : Nat) (hpos : 1 ≤ uiDim)
    (hov : uiDim * (coord / uiDim + 1) < 2 ^ 32) :
    ∀ fuel i : Nat, i ≤ coord / uiDim → coord / uiDim - i < fuel →
      findRepeat uiDim coord fuel i = some (coord / uiDim) := by
  intro fuel
  induction fuel with
  | zero => intro i _ h; omega
  | succ fuel ih =>
    intro i hle hfuel
    unfold findRepeat
    rcases Nat.eq_or_lt_of_le hle with heq | hlt
    · have hlt2 : coord < uiDim * (coord / uiDim + 1) := Nat.lt_mul_div_succ coord hpos
      rw [heq, Nat.mod_eq_of_lt hov, if_pos hlt2]
    · have h1 : uiDim * (i + 1) ≤ uiDim * (coord / uiDim) := Nat.mul_le_mul_left _ hlt
      have h2 : uiDim * (coord / uiDim) ≤ coord := Nat.mul_div_le coord uiDim
      have h3 : uiDim * (i + 1) % 2 ^ 32 ≤ uiDim * (i + 1) := Nat.mod_le _ _
      rw [if_neg (by omega)]
      exact ih (i + 1) hlt (by omega)

/-- The `unsigned int` subtraction of line 659 leaves the remainder. -/
theorem wrapSub_eq_mod (uiDim coord : Nat) (hpos : 1 ≤ uiDim)
    (hov : uiDim * (coord / uiDim + 1) < 2 ^ 32) :
    (coord + 2 ^ 32 - (uiDim * (coord / uiDim)) % 2 ^ 32) % 2 ^ 32 = coord % uiDim := by
  have h1 : coord < uiDim * (coord / uiDim + 1) := Nat.lt_mul_div_succ coord hpos
  have h2 : uiDim * (coord / uiDim) + coord % uiDim = coord := Nat.div_add_mod coord uiDim
  have h3 : coord % uiDim < uiDim := Nat.mod_lt _ hpos
  have h4 : uiDim * (coord / uiDim) < 2 ^ 32 := by omega
  rw [Nat.mod_eq_of_lt h4]
  have h5 : coord + 2 ^ 32 - uiDim * (coord / uiDim) = coord % uiDim + 2 ^ 32 := by omega
  rw [h5, Nat.add_mod_right, Nat.mod_eq_of_lt (by omega)]

/-- With enough fuel and no `unsigned int` wrap-around, `GetTexCoords` reduces both
coordinates modulo the tile's dimensions. -/
theorem GetTexCoords_eq_mod (fuel : Nat) (texture : CIMAGE) (x y : Nat)
    (hw : 1 ≤ texture.m_uiWidth) (hh : 1 ≤ texture.m_uiHeight)
    (hovx : texture.m_uiWidth * (x / texture.m_uiWidth + 1) < 2 ^ 32)
    (hovy : texture.m_uiHeight * (y / texture.m_uiHeight + 1) < 2 ^ 32)
    (hfx : x / texture.m_uiWidth < fuel) (hfy : y / texture.m_uiHeight < fuel) :
    GetTexCoords fuel texture x y = some (x % texture.m_uiWidth, y % texture.m_uiHeight) := by
  unfold GetTexCoords
  rw [findRepeat_eq_div _ _ hw hovx fuel 0 (Nat.zero_le _) (by rw [Nat.sub_zero]; exact hfx),
    findRepeat_eq_div _ _ hh hovy fuel 0 (Nat.zero_le _) (by rw [Nat.sub_zero]; exact hfy)]
  simp only
  rw [wrapSub_eq_mod _ _ hw hovx, wrapSub_eq_mod _ _ hh hovy]

/-! ## Byte conversion of a byte-valued total -/

theorem floatToUChar_natCast (c : Nat) (hc : c ≤ 255) : floatToUChar (c : ℚ) = some c := by
  have h1 : (c : ℚ) ≤ 255 := by exact_mod_cast hc
  rw [floatToUChar_of_range _ (Nat.cast_nonneg c) h1]
  simp

/-! ## A single loaded tile -/

theorem single_tile_rank (tiles : Nat → CIMAGE) (i : Nat) (hi : i < 4)
    (hli : (tiles i).m_bIsLoaded = true)
    (honly : ∀ j, j < 4 → j ≠ i → (tiles j).m_bIsLoaded = false) :
    countTiles tiles = 1 ∧ tileRank tiles i = 0 := by
  have hb0 := honly 0
  have hb1 := honly 1
  have hb2 := honly 2
  have hb3 := honly 3
  interval_cases i <;>
    simp_all [tileRank, countTiles, range_tiles, List.range_succ]

/-- The tile loop with a single loaded tile accumulates that tile's weighted colour. -/
theorem blendTotals_single (fuel : Nat) (tiles : Nat → CIMAGE)
    (regions : Nat → STRN_TEXTURE_REGIONS) (x z h i : Nat) (hi : i < 4)
    (hli : (tiles i).m_bIsLoaded = true)
    (honly : ∀ j, j < 4 → j ≠ i → (tiles j).m_bIsLoaded = false)
    (tx tz : Nat) (htex : GetTexCoords fuel (tiles i) x z = some (tx, tz)) :
    blendTotals fuel tiles regions x z h
      = some ((((tiles i).GetColor tx tz).1 : ℚ) * RegionPercent tiles regions i h,
          (((tiles i).GetColor tx tz).2.1 : ℚ) * RegionPercent tiles regions i h,
          (((tiles i).GetColor tx tz).2.2 : ℚ) * RegionPercent tiles regions i h) := by
  have hb0 := honly 0
  have hb1 := honly 1
  have hb2 := honly 2
  have hb3 := honly 3
  interval_cases i <;>
    simp_all [blendTotals, blendStep, range_tiles, List.foldlM]


theorem bandOf_one_zero : bandOf 1 0 = ⟨0, 254, 508⟩ := by decide

/-- Weight of the only loaded tile: 1 up to height 254, and 253/254 at height 255. -/
theorem RegionPercent_single (tiles : Nat → CIMAGE) (r0 : Nat → STRN_TEXTURE_REGIONS)
    (i : Nat) (hi : i < 4) (hli : (tiles i).m_bIsLoaded = true)
    (honly : ∀ j, j < 4 → j ≠ i → (tiles j).m_bIsLoaded = false) :
    (∀ h : Nat, h ≤ 254 → RegionPercent tiles (computeRegions tiles r0) i h = 1)
      ∧ RegionPercent tiles (computeRegions tiles r0) i 255 = 253 / 254 := by
  obtain ⟨hc, hr⟩ := single_tile_rank tiles i hi hli honly
  obtain ⟨e, -⟩ := computeRegions_eq_bandOf tiles r0 i hi hli
  rw [hc, hr, bandOf_one_zero] at e
  constructor
  · intro h hh
    unfold RegionPercent
    by_cases hs : lowestTileSpecialCase tiles (computeRegions tiles r0) i h = true
    · rw [if_pos hs]
    · rw [if_neg hs]
      have hnot : ¬ (tileRank tiles i = 0 ∧ (h : Int) < (computeRegions tiles r0 i).m_iOptimalHeight) :=
        fun hc' => hs ((lowestTileSpecialCase_iff tiles _ i h hi hli).mpr hc')
      rw [e] at hnot ⊢
      have h254 : h = 254 := by
        simp only [hr, true_and] at hnot
        omega
      subst h254
      simp [regionRamp]
  · unfold RegionPercent
    have hs : ¬ (lowestTileSpecialCase tiles (computeRegions tiles r0) i 255 = true) := by
      intro hc'
      have := ((lowestTileSpecialCase_iff tiles _ i 255 hi hli).mp hc').2
      rw [e] at this
      simp at this
    rw [if_neg hs, e]
    simp [regionRamp]
    norm_num

/-- C7 (amended): when exactly one tile `i` is loaded (tile dimensions at least 1, no
`unsigned int` wrap in `GetTexCoords`, enough fuel, byte-valued colours), for every height
field and every output pixel `(x,z)` whose interpolated height `h` is at most 254, the
blend weight of the tile is 1 and the colour `GenerateTextureMap` stores is exactly the
tile's colour at `(x mod width, z mod height)`; at height 255 the weight is 253/254. -/
theorem GenerateTextureMap_single_tile (fuel m_iSize : Nat) (m_ucpData : List Nat)
    (tiles : Nat → CIMAGE) (r0 : Nat → STRN_TEXTURE_REGIONS) (uiSize x z i h : Nat)
    (hi : i < TRN_NUM_TILES) (hli : (tiles i).m_bIsLoaded = true)
    (honly : ∀ j, j < TRN_NUM_TILES → j ≠ i → (tiles j).m_bIsLoaded = false)
    (hw : 1 ≤ (tiles i).m_uiWidth) (hh : 1 ≤ (tiles i).m_uiHeight)
    (hovx : (tiles i).m_uiWidth * (x / (tiles i).m_uiWidth + 1) < 2 ^ 32)
    (hovz : (tiles i).m_uiHeight * (z / (tiles i).m_uiHeight + 1) < 2 ^ 32)
    (hfx : x / (tiles i).m_uiWidth < fuel) (hfz : z / (tiles i).m_uiHeight < fuel)
    (hcol : (tiles i).colorsInRange)
    (hinterp : InterpolateHeight m_iSize m_ucpData (x : Int) (z : Int)
      ((m_iSize : ℚ) / (uiSize : ℚ)) = some h)
    (h254 : h ≤ 254) :
    RegionPercent tiles (computeRegions tiles r0) i h = 1
      ∧ GenerateTextureMap fuel m_iSize m_ucpData tiles r0 uiSize x z
          = some ((tiles i).GetColor (x % (tiles i).m_uiWidth) (z % (tiles i).m_uiHeight))
      ∧ RegionPercent tiles (computeRegions tiles r0) i 255 = 253 / 254 := by
  have hi4 : i < 4 := hi
  obtain ⟨hone, h255⟩ := RegionPercent_single tiles r0 i hi4 hli honly
  refine ⟨hone h h254, ?_, h255⟩
  have htex := GetTexCoords_eq_mod fuel (tiles i) x z hw hh hovx hovz hfx hfz
  unfold GenerateTextureMap
  simp only [hinterp]
  rw [blendTotals_single fuel tiles _ x z h i hi4 hli honly _ _ htex, hone h h254]
  obtain ⟨c1, c2, c3⟩ := hcol (x % (tiles i).m_uiWidth) (z % (tiles i).m_uiHeight)
  simp only [totalsToColor, mul_one, floatToUChar_natCast _ c1, floatToUChar_natCast _ c2,
    floatToUChar_natCast _ c3]

/-- Witness for C7 (amended): height field `[7,0,0,0]` of size 2, output size 4,
pixel `(0,0)`, the single tile in slot 2. -/
theorem GenerateTextureMap_single_tile_witness :
    RegionPercent oneTile (computeRegions oneTile zeroRegions) 2 7 = 1
      ∧ GenerateTextureMap 1 2 [7, 0, 0, 0] oneTile zeroRegions 4 0 0
          = some ((oneTile 2).GetColor (0 % (oneTile 2).m_uiWidth) (0 % (oneTile 2).m_uiHeight))
      ∧ RegionPercent oneTile (computeRegions oneTile zeroRegions) 2 255 = 253 / 254 :=
  GenerateTextureMap_single_tile 1 2 [7, 0, 0, 0] oneTile zeroRegions 4 0 0 2 7
    (by decide) rfl (by intro j hj hne; have h4 : j < 4 := hj; interval_cases j <;> simp_all [oneTile, sampleTile])
    (by decide) (by decide) (by decide) (by decide) (by decide) (by decide)
    (by intro a b; simp only [oneTile, sampleTile]; omega)
    (by decide!) (by decide)

/-- C7 counterexample: a single loaded tile whose colour at `(0,0)` is `(255,0,0)`, a
height field whose interpolated height at pixel `(0,0)` is 255: the weight is 253/254
and the stored colour is `(253,0,0)`, not the sampled colour. -/
theorem GenerateTextureMap_single_tile_counterexample :
    InterpolateHeight 2 [255, 0, 0, 0] 0 0 ((2 : ℚ) / (4 : ℚ)) = some 255
      ∧ (oneTile 2).GetColor (0 % (oneTile 2).m_uiWidth) (0 % (oneTile 2).m_uiHeight)
          = (255, 0, 0)
      ∧ RegionPercent oneTile (computeRegions oneTile zeroRegions) 2 255 = 253 / 254
      ∧ GenerateTextureMap 1 2 [255, 0, 0, 0] oneTile zeroRegions 4 0 0 = some (253, 0, 0) := by
  decide!

/-! ## Sum of the blend weights -/

theorem regionRamp_eq_rampNum (r : STRN_TEXTURE_REGIONS) (h : Nat)
    (hd : r.m_iHighHeight - r.m_iOptimalHeight = r.m_iOptimalHeight - r.m_iLowHeight)
    (hpos : r.m_iLowHeight < r.m_iOptimalHeight) :
    regionRamp r h = (rampNum r h : ℚ) / ((r.m_iOptimalHeight - r.m_iLowHeight : Int) : ℚ) := by
  have hposq : ((r.m_iOptimalHeight - r.m_iLowHeight : Int) : ℚ) ≠ 0 := by
    have : r.m_iOptimalHeight - r.m_iLowHeight ≠ 0 := by omega
    exact_mod_cast this
  have hdq : (r.m_iHighHeight : ℚ) - r.m_iOptimalHeight
      = ((r.m_iOptimalHeight - r.m_iLowHeight : Int) : ℚ) := by
    rw [← hd]; push_cast; ring
  unfold regionRamp rampNum
  by_cases h1 : (h : Int) < r.m_iLowHeight
  · simp [h1]
  rw [if_neg h1, if_neg h1]
  by_cases h2 : (h : Int) > r.m_iHighHeight
  · simp [h2]
  rw [if_neg h2, if_neg h2]
  by_cases h3 : (h : Int) < r.m_iOptimalHeight
  · rw [if_pos h3, if_pos h3]
    push_cast
    rfl
  rw [if_neg h3, if_neg h3]
  by_cases h4 : (h : Int) = r.m_iOptimalHeight
  · rw [if_pos h4, if_pos h4, div_self hposq]
  rw [if_neg h4, if_neg h4]
  have h5 : (h : Int) > r.m_iOptimalHeight := by omega
  rw [if_pos h5]
  simp only
  rw [hdq]
  congr 1
  have : (r.m_iHighHeight : ℚ) = ((r.m_iOptimalHeight - r.m_iLowHeight : Int) : ℚ) + r.m_iOptimalHeight := by
    rw [← hdq]; ring
  push_cast at this ⊢
  rw [this]
  ring

theorem bandOf_symm (n k : Int) :
    (bandOf n k).m_iHighHeight - (bandOf n k).m_iOptimalHeight = Int.tdiv 255 n - 1
      ∧ (bandOf n k).m_iOptimalHeight - (bandOf n k).m_iLowHeight = Int.tdiv 255 n - 1 := by
  simp only [bandOf]
  constructor <;> ring

/-- The weight of a loaded tile as a fraction with divisor `255/n - 1`. -/
theorem RegionPercent_eq_weightNum (tiles : Nat → CIMAGE) (r0 : Nat → STRN_TEXTURE_REGIONS)
    (i h : Nat) (hi : i < 4) (hl : (tiles i).m_bIsLoaded = true) :
    RegionPercent tiles (computeRegions tiles r0) i h
      = (weightNum (countTiles tiles) (tileRank tiles i) h : ℚ)
          / ((Int.tdiv 255 (countTiles tiles) - 1 : Int) : ℚ) := by
  obtain ⟨e, hk0, hkn, hn⟩ := computeRegions_eq_bandOf tiles r0 i hi hl
  obtain ⟨-, f2, -⟩ := bandOf_facts _ _ hk0 hkn hn
  obtain ⟨s1, s2⟩ := bandOf_symm (countTiles tiles) (tileRank tiles i)
  have hne : ((Int.tdiv 255 (countTiles tiles) - 1 : Int) : ℚ) ≠ 0 := by
    have : Int.tdiv 255 (countTiles tiles) - 1 ≠ 0 := by omega
    exact_mod_cast this
  unfold RegionPercent weightNum
  by_cases hs : lowestTileSpecialCase tiles (computeRegions tiles r0) i h = true
  · have hs' := (lowestTileSpecialCase_iff tiles _ i h hi hl).mp hs
    rw [e] at hs'
    rw [if_pos hs, if_pos hs', div_self hne]
  · have hs' : ¬ (tileRank tiles i = 0
        ∧ (h : Int) < (bandOf (countTiles tiles) (tileRank tiles i)).m_iOptimalHeight) := by
      intro hc
      apply hs
      rw [lowestTileSpecialCase_iff tiles _ i h hi hl, e]
      exact hc
    rw [if_neg hs, if_neg hs', e, regionRamp_eq_rampNum _ _ (by omega) f2, s2]


set_option maxRecDepth 100000 in
/-- The weight numerators of the loaded tiles sum to a value in `(0, 255/n - 1]`. -/
theorem weightNumSum_bounds :
    ∀ n : Nat, n < 5 → 1 ≤ n → ∀ h : Nat, h < 256 →
      0 < weightNumSum n h ∧ weightNumSum n h ≤ Int.tdiv 255 (n : Int) - 1 := by
  decide!

/-- The weights of the loaded tiles add up to `weightNumSum / (255/n - 1)`. -/
theorem blendWeightSum_eq (tiles : Nat → CIMAGE) (r0 : Nat → STRN_TEXTURE_REGIONS) (h : Nat) :
    blendWeightSum tiles (computeRegions tiles r0) h
      = (weightNumSum (countTiles tiles).toNat h : ℚ)
          / ((Int.tdiv 255 (countTiles tiles) - 1 : Int) : ℚ) := by
  have e0 := RegionPercent_eq_weightNum tiles r0 0 h (by decide)
  have e1 := RegionPercent_eq_weightNum tiles r0 1 h (by decide)
  have e2 := RegionPercent_eq_weightNum tiles r0 2 h (by decide)
  have e3 := RegionPercent_eq_weightNum tiles r0 3 h (by decide)
  cases h0 : (tiles 0).m_bIsLoaded <;> cases h1 : (tiles 1).m_bIsLoaded <;>
    cases h2 : (tiles 2).m_bIsLoaded <;> cases h3 : (tiles 3).m_bIsLoaded <;>
    simp only [h0, h1, h2, h3, forall_true_left] at e0 e1 e2 e3 <;>
    simp only [blendWeightSum, range_tiles, List.foldl_cons, List.foldl_nil, h0, h1, h2, h3,
      if_true, if_false, Bool.false_eq_true, e0, e1, e2, e3] <;>
    simp [countTiles, range_tiles, tileRank, List.range_succ, weightNumSum, h0, h1, h2, h3] <;>
    ring


/-- Invariant of the tile loop: every colour total grows by at most 255 times the growth
of the weight sum, and never decreases. -/
theorem blend_fold_bounds (fuel : Nat) (tiles : Nat → CIMAGE)
    (regions : Nat → STRN_TEXTURE_REGIONS) (x z h : Nat) :
    ∀ (l : List Nat) (acc t : ℚ × ℚ × ℚ) (s0 : ℚ),
      (∀ i ∈ l, (tiles i).m_bIsLoaded = true → 0 ≤ RegionPercent tiles regions i h) →
      (∀ i ∈ l, (tiles i).colorsInRange) →
      l.foldlM (blendStep fuel tiles regions x z h) acc = some t →
      (acc.1 ≤ t.1 ∧ acc.2.1 ≤ t.2.1 ∧ acc.2.2 ≤ t.2.2)
        ∧ t.1 - acc.1 ≤ 255 * (l.foldl (fun s i => if (tiles i).m_bIsLoaded then
              s + RegionPercent tiles regions i h else s) s0 - s0)
        ∧ t.2.1 - acc.2.1 ≤ 255 * (l.foldl (fun s i => if (tiles i).m_bIsLoaded then
              s + RegionPercent tiles regions i h else s) s0 - s0)
        ∧ t.2.2 - acc.2.2 ≤ 255 * (l.foldl (fun s i => if (tiles i).m_bIsLoaded then
              s + RegionPercent tiles regions i h else s) s0 - s0) := by
  intro l
  induction l with
  | nil =>
    intro acc t s0 _ _ ht
    simp only [List.foldlM_nil, pure, Option.some.injEq] at ht
    subst ht
    simp
  | cons i l ih =>
    intro acc t s0 hw hcol ht
    have hw' : ∀ j ∈ l, (tiles j).m_bIsLoaded = true → 0 ≤ RegionPercent tiles regions j h :=
      fun j hj => hw j (List.mem_cons_of_mem _ hj)
    have hcol' : ∀ j ∈ l, (tiles j).colorsInRange :=
      fun j hj => hcol j (List.mem_cons_of_mem _ hj)
    rw [List.foldlM_cons] at ht
    simp only [List.foldl_cons]
    by_cases hl : (tiles i).m_bIsLoaded = true
    · have hwi := hw i (List.mem_cons_self _ _) hl
      cases htex : GetTexCoords fuel (tiles i) x z with
      | none =>
        simp [blendStep, hl, htex] at ht
      | some p =>
        obtain ⟨c1, c2, c3⟩ := hcol i (List.mem_cons_self _ _) p.1 p.2
        have c1q : (((tiles i).GetColor p.1 p.2).1 : ℚ) ≤ 255 := by exact_mod_cast c1
        have c2q : (((tiles i).GetColor p.1 p.2).2.1 : ℚ) ≤ 255 := by exact_mod_cast c2
        have c3q : (((tiles i).GetColor p.1 p.2).2.2 : ℚ) ≤ 255 := by exact_mod_cast c3
        have n1 : (0 : ℚ) ≤ (((tiles i).GetColor p.1 p.2).1 : ℚ) := Nat.cast_nonneg _
        have n2 : (0 : ℚ) ≤ (((tiles i).GetColor p.1 p.2).2.1 : ℚ) := Nat.cast_nonneg _
        have n3 : (0 : ℚ) ≤ (((tiles i).GetColor p.1 p.2).2.2 : ℚ) := Nat.cast_nonneg _
        simp only [blendStep, hl, htex, if_true, Option.bind_eq_bind, Option.some_bind] at ht
        obtain ⟨⟨m1, m2, m3⟩, b1, b2, b3⟩ := ih _ t
          (s0 + RegionPercent tiles regions i h) hw' hcol' ht
        simp only [hl, if_true]
        have p1 := mul_nonneg n1 hwi
        have p2 := mul_nonneg n2 hwi
        have p3 := mul_nonneg n3 hwi
        have q1 := mul_le_mul_of_nonneg_right c1q hwi
        have q2 := mul_le_mul_of_nonneg_right c2q hwi
        have q3 := mul_le_mul_of_nonneg_right c3q hwi
        simp only at m1 m2 m3 b1 b2 b3
        refine ⟨⟨by linarith, by linarith, by linarith⟩, by linarith, by linarith, by linarith⟩
    · simp only [blendStep, hl, if_false, Option.bind_eq_bind, Option.some_bind,
        Bool.false_eq_true] at ht
      simp only [hl, if_false, Bool.false_eq_true]
      exact ih acc t s0 hw' hcol' ht

/-- C8: for every non-empty set of loaded tiles, with the regions computed by
`GenerateTextureMap`, and every height `h` in `0..255`, the sum of `RegionPercent(i,h)`
over the loaded tiles is strictly positive and at most 1; hence, for byte-valued tile
colours, each accumulated red/green/blue total of the tile loop lies in `[0,255]` and the
three conversions to 8-bit channels are defined. -/
theorem blendWeightSum_bounds_and_totals (fuel : Nat) (tiles : Nat → CIMAGE)
    (r0 : Nat → STRN_TEXTURE_REGIONS) (x z h : Nat) (totals : ℚ × ℚ × ℚ)
    (hne : ∃ i, i < TRN_NUM_TILES ∧ (tiles i).m_bIsLoaded = true) (hh : h ≤ 255)
    (hcol : ∀ i, i < TRN_NUM_TILES → (tiles i).colorsInRange)
    (htot : blendTotals fuel tiles (computeRegions tiles r0) x z h = some totals) :
    (0 < blendWeightSum tiles (computeRegions tiles r0) h
        ∧ blendWeightSum tiles (computeRegions tiles r0) h ≤ 1)
      ∧ (0 ≤ totals.1 ∧ totals.1 ≤ 255) ∧ (0 ≤ totals.2.1 ∧ totals.2.1 ≤ 255)
      ∧ (0 ≤ totals.2.2 ∧ totals.2.2 ≤ 255)
      ∧ totalsToColor totals = some (⌊totals.1⌋.toNat, ⌊totals.2.1⌋.toNat, ⌊totals.2.2⌋.toNat) := by
  obtain ⟨i, hi, hl⟩ := hne
  have hi4 : i < 4 := hi
  obtain ⟨-, hk0, hkn, hn⟩ := computeRegions_eq_bandOf tiles r0 i hi4 hl
  have hn1 : 1 ≤ (countTiles tiles).toNat := by omega
  have hn5 : (countTiles tiles).toNat < 5 := by omega
  have hcast : (((countTiles tiles).toNat : Nat) : Int) = countTiles tiles :=
    Int.toNat_of_nonneg (by omega)
  obtain ⟨hs0, hs1⟩ := weightNumSum_bounds _ hn5 hn1 h (by omega)
  rw [hcast] at hs1
  have hdpos : (0 : ℚ) < ((Int.tdiv 255 (countTiles tiles) - 1 : Int) : ℚ) := by
    have : 0 < Int.tdiv 255 (countTiles tiles) - 1 := by omega
    exact_mod_cast this
  have hsum : 0 < blendWeightSum tiles (computeRegions tiles r0) h
      ∧ blendWeightSum tiles (computeRegions tiles r0) h ≤ 1 := by
    rw [blendWeightSum_eq]
    constructor
    · exact div_pos (by exact_mod_cast hs0) hdpos
    · rw [div_le_one hdpos]
      exact_mod_cast hs1
  have hw : ∀ j ∈ List.range TRN_NUM_TILES, (tiles j).m_bIsLoaded = true →
      0 ≤ RegionPercent tiles (computeRegions tiles r0) j h := by
    intro j hj hlj
    exact (RegionPercent_mem_unit tiles r0 j h (List.mem_range.mp hj) hlj hh).1
  have hc : ∀ j ∈ List.range TRN_NUM_TILES, (tiles j).colorsInRange :=
    fun j hj => hcol j (List.mem_range.mp hj)
  obtain ⟨⟨m1, m2, m3⟩, b1, b2, b3⟩ := blend_fold_bounds fuel tiles (computeRegions tiles r0)
    x z h (List.range TRN_NUM_TILES) (0, 0, 0) totals 0 hw hc htot
  simp only [sub_zero] at m1 m2 m3 b1 b2 b3
  have hS : (List.range TRN_NUM_TILES).foldl (fun s i => if (tiles i).m_bIsLoaded then
      s + RegionPercent tiles (computeRegions tiles r0) i h else s) 0 ≤ 1 := hsum.2
  have r1 : totals.1 ≤ 255 := by linarith
  have r2 : totals.2.1 ≤ 255 := by linarith
  have r3 : totals.2.2 ≤ 255 := by linarith
  refine ⟨hsum, ⟨m1, r1⟩, ⟨m2, r2⟩, ⟨m3, r3⟩, ?_⟩
  simp only [totalsToColor, floatToUChar_of_range _ m1 r1, floatToUChar_of_range _ m2 r2,
    floatToUChar_of_range _ m3 r3]

theorem fourTiles_colorsInRange (i : Nat) : (fourTiles i).colorsInRange := by
  intro a b
  simp only [fourTiles, sampleTile]
  omega

/-- Witness for C8: four loaded tiles at height 100, pixel `(0,0)`. -/
theorem blendWeightSum_bounds_and_totals_witness :
    blendTotals 1 fourTiles (computeRegions fourTiles zeroRegions) 0 0 100
        = some (925 / 31, 0, 0)
      ∧ (0 < blendWeightSum fourTiles (computeRegions fourTiles zeroRegions) 100
        ∧ blendWeightSum fourTiles (computeRegions fourTiles zeroRegions) 100 ≤ 1)
      ∧ totalsToColor ((925 / 31 : ℚ), (0 : ℚ), (0 : ℚ))
        = some (⌊(925 / 31 : ℚ)⌋.toNat, ⌊(0 : ℚ)⌋.toNat, ⌊(0 : ℚ)⌋.toNat) :=
  have htot : blendTotals 1 fourTiles (computeRegions fourTiles zeroRegions) 0 0 100
      = some (925 / 31, 0, 0) := by decide!
  have key := blendWeightSum_bounds_and_totals 1 fourTiles zeroRegions 0 0 100
    (925 / 31, 0, 0) ⟨0, by decide, rfl⟩ (by decide) (fun i _ => fourTiles_colorsInRange i) htot
  ⟨htot, key.1, key.2.2.2.2⟩

/-! ## `InterpolateHeight` -/

theorem scaledCoord_nonneg (m_iSize uiSize x : Nat) : 0 ≤ scaledCoord m_iSize uiSize x := by
  unfold scaledCoord
  positivity

theorem scaledCoord_lt (m_iSize uiSize x : Nat) (hx : x < uiSize) :
    scaledCoord m_iSize uiSize x < m_iSize ∨ m_iSize = 0 := by
  rcases Nat.eq_zero_or_pos m_iSize with h0 | hpos
  · exact Or.inr h0
  left
  unfold scaledCoord
  have hu : (0 : ℚ) < uiSize := by exact_mod_cast (by omega : 0 < uiSize)
  have hs : (0 : ℚ) < m_iSize := by exact_mod_cast hpos
  have hxq : (x : ℚ) < uiSize := by exact_mod_cast hx
  rw [← mul_div_assoc, div_lt_iff₀ hu]
  nlinarith

/-- Truncation of a scaled coordinate is its floor, a natural number. -/
theorem truncToInt_scaledCoord (m_iSize uiSize x : Nat) :
    truncToInt (scaledCoord m_iSize uiSize x)
      = ((⌊scaledCoord m_iSize uiSize x⌋.toNat : Nat) : Int) := by
  rw [truncToInt_of_nonneg _ (scaledCoord_nonneg _ _ _),
    Int.toNat_of_nonneg (Int.floor_nonneg.mpr (scaledCoord_nonneg _ _ _))]

/-- A read inside the grid returns the row-major cell. -/
theorem GetTrueHeightAtPoint_inside (m_iSize : Nat) (data : List Nat) (a b : Nat)
    (hlen : data.length = m_iSize * m_iSize) (ha : a < m_iSize) (hb : b < m_iSize) :
    GetTrueHeightAtPoint m_iSize data (a : Int) (b : Int) = some (sampleAt m_iSize data a b) := by
  unfold GetTrueHeightAtPoint sampleAt
  have hcond : 0 ≤ (a : Int) ∧ (a : Int) < (m_iSize : Int) ∧ 0 ≤ (b : Int)
      ∧ (b : Int) < (m_iSize : Int) := by omega
  have hidx : ((b : Int) * (m_iSize : Int) + (a : Int)).toNat = b * m_iSize + a := by
    have : (b : Int) * (m_iSize : Int) + (a : Int) = ((b * m_iSize + a : Nat) : Int) := by
      push_cast; ring
    rw [this, Int.toNat_natCast]
  have hlt : b * m_iSize + a < data.length := by
    rw [hlen]
    have : (b + 1) * m_iSize ≤ m_iSize * m_iSize := Nat.mul_le_mul_right _ (by omega)
    have e : (b + 1) * m_iSize = b * m_iSize + m_iSize := by ring
    omega
  rw [if_pos hcond, hidx, List.get?_eq_getElem?, List.getD_eq_getElem?_getD,
    List.getElem?_eq_getElem hlt]
  rfl

/-- A read at column `m_iSize` is outside the grid. -/
theorem GetTrueHeightAtPoint_outside_x (m_iSize : Nat) (data : List Nat) (z : Int) :
    GetTrueHeightAtPoint m_iSize data (m_iSize : Int) z = none := by
  unfold GetTrueHeightAtPoint
  rw [if_neg (by omega)]

theorem sampleAt_le (m_iSize : Nat) (data : List Nat) (a b : Nat)
    (hbytes : ∀ v ∈ data, v ≤ 255) : sampleAt m_iSize data a b ≤ 255 := by
  unfold sampleAt
  rw [List.getD_eq_getElem?_getD]
  cases h : data[b * m_iSize + a]? with
  | none => simp
  | some v =>
    simp only [Option.getD_some]
    exact hbytes v (List.getElem?_mem h)

/-- A linear interpolation between two bytes with weight in `[0,1]` stays in `[0,255]`. -/
theorem lerp_range (a b : Nat) (t : ℚ) (ha : a ≤ 255) (hb : b ≤ 255) (ht0 : 0 ≤ t)
    (ht1 : t ≤ 1) :
    0 ≤ (a : ℚ) + ((b : ℚ) - (a : ℚ)) * t ∧ (a : ℚ) + ((b : ℚ) - (a : ℚ)) * t ≤ 255 := by
  have haq : (a : ℚ) ≤ 255 := by exact_mod_cast ha
  have hbq : (b : ℚ) ≤ 255 := by exact_mod_cast hb
  have ha0 : (0 : ℚ) ≤ a := Nat.cast_nonneg a
  have hb0 : (0 : ℚ) ≤ b := Nat.cast_nonneg b
  have e : (a : ℚ) + ((b : ℚ) - (a : ℚ)) * t = (1 - t) * a + t * b := by ring
  rw [e]
  have h1 : 0 ≤ 1 - t := by linarith
  constructor
  · have := mul_nonneg h1 ha0
    have := mul_nonneg ht0 hb0
    linarith
  · have := mul_le_mul_of_nonneg_left haq h1
    have := mul_le_mul_of_nonneg_left hbq ht0
    linarith


theorem floor_scaledCoord_lt (m_iSize uiSize x : Nat) (hsize : 1 ≤ m_iSize) (hx : x < uiSize) :
    ⌊scaledCoord m_iSize uiSize x⌋.toNat < m_iSize := by
  have h0 := Int.floor_nonneg.mpr (scaledCoord_nonneg m_iSize uiSize x)
  have hlt : ⌊scaledCoord m_iSize uiSize x⌋ < (m_iSize : Int) := by
    rw [Int.floor_lt]
    rcases scaledCoord_lt m_iSize uiSize x hx with h | h
    · exact_mod_cast h
    · omega
  omega

theorem floor_scaledCoord_succ_lt (m_iSize uiSize x : Nat)
    (h : scaledCoord m_iSize uiSize x < (m_iSize : ℚ) - 1) :
    ⌊scaledCoord m_iSize uiSize x⌋.toNat + 1 < m_iSize := by
  have h0 := Int.floor_nonneg.mpr (scaledCoord_nonneg m_iSize uiSize x)
  have hlt : ⌊scaledCoord m_iSize uiSize x⌋ < (m_iSize : Int) - 1 := by
    rw [Int.floor_lt]
    push_cast
    exact h
  omega

theorem frac_scaledCoord (m_iSize uiSize x : Nat) :
    0 ≤ scaledCoord m_iSize uiSize x - ((⌊scaledCoord m_iSize uiSize x⌋.toNat : Nat) : ℚ)
      ∧ scaledCoord m_iSize uiSize x - ((⌊scaledCoord m_iSize uiSize x⌋.toNat : Nat) : ℚ) ≤ 1 := by
  have h0 := Int.floor_nonneg.mpr (scaledCoord_nonneg m_iSize uiSize x)
  have e : ((⌊scaledCoord m_iSize uiSize x⌋.toNat : Nat) : ℚ)
      = ((⌊scaledCoord m_iSize uiSize x⌋ : Int) : ℚ) := by
    have := Int.toNat_of_nonneg h0
    exact_mod_cast congrArg (fun (k : Int) => (k : ℚ)) this
  rw [e]
  have h1 := Int.floor_le (scaledCoord m_iSize uiSize x)
  have h2 := Int.lt_floor_add_one (scaledCoord m_iSize uiSize x)
  constructor <;> linarith

/-! ## Binary32 `InterpolateHeight` on power-of-two sizes -/

theorem roundF32_of_scaled (v : ℚ) (s : Nat) (m : Int) (h : v * 2 ^ s = (m : ℚ))
    (hm : |m| < 2 ^ 24) (hs : s ≤ 149) : roundF32 v = v := by
  apply roundF32_of_dyadic v m (-(s : Int)) _ hm (by omega)
  rw [zpow_neg, zpow_natCast, ← h]
  field_simp

theorem intToF32_of_small (n : Int) (h : |n| < 2 ^ 24) : intToF32 n = (n : ℚ) :=
  roundF32_of_dyadic _ n 0 (by simp) h (by norm_num)

theorem scaledCoord_pow2 (a b x : Nat) :
    scaledCoord (2 ^ a) (2 ^ b) x * 2 ^ (b - a) = ((x * 2 ^ (a - b) : Nat) : ℚ) := by
  unfold scaledCoord
  push_cast
  have e : (2 : ℚ) ^ a * 2 ^ (b - a) = 2 ^ b * 2 ^ (a - b) := by
    rw [← pow_add, ← pow_add]
    congr 1
    omega
  have hb : (2 : ℚ) ^ b ≠ 0 := by positivity
  field_simp
  linear_combination (x : ℚ) * e

theorem pow2_le_15 (k : Nat) (hk : k ≤ 15) : 2 ^ k ≤ 32768 := by
  have := Nat.pow_le_pow_right (by norm_num : 0 < 2) hk
  norm_num at this
  exact this

/-- On power-of-two sizes up to `2^15` the scaled coordinate, its successor, its integer
part and its fractional part are binary32 numbers: none of these operations rounds. -/
theorem scaledAxis_exact (a b x : Nat) (ha : a ≤ 15) (hb : b ≤ 15) (hx : x < 2 ^ b) :
    intToF32 (x : Int) = ((x : Int) : ℚ)
      ∧ roundF32 (scaledCoord (2 ^ a) (2 ^ b) x) = scaledCoord (2 ^ a) (2 ^ b) x
      ∧ roundF32 (scaledCoord (2 ^ a) (2 ^ b) x + 1) = scaledCoord (2 ^ a) (2 ^ b) x + 1
      ∧ intToF32 (truncToInt (scaledCoord (2 ^ a) (2 ^ b) x))
          = ((truncToInt (scaledCoord (2 ^ a) (2 ^ b) x) : Int) : ℚ)
      ∧ roundF32 (scaledCoord (2 ^ a) (2 ^ b) x
            - ((truncToInt (scaledCoord (2 ^ a) (2 ^ b) x) : Int) : ℚ))
          = scaledCoord (2 ^ a) (2 ^ b) x
            - ((truncToInt (scaledCoord (2 ^ a) (2 ^ b) x) : Int) : ℚ)
      ∧ ∃ mf : Int, (scaledCoord (2 ^ a) (2 ^ b) x
            - ((truncToInt (scaledCoord (2 ^ a) (2 ^ b) x) : Int) : ℚ)) * 2 ^ (b - a) = (mf : ℚ)
          ∧ 0 ≤ mf ∧ mf < 2 ^ (b - a) := by
  have hsc := scaledCoord_pow2 a b x
  have h0 := scaledCoord_nonneg (2 ^ a) (2 ^ b) x
  have hlt : scaledCoord (2 ^ a) (2 ^ b) x < ((2 ^ a : Nat) : ℚ) := by
    rcases scaledCoord_lt (2 ^ a) (2 ^ b) x hx with h | h
    · exact h
    · exact absurd h (by positivity)
  have htr := truncToInt_of_nonneg _ h0
  have hfl0 : 0 ≤ ⌊scaledCoord (2 ^ a) (2 ^ b) x⌋ := Int.floor_nonneg.mpr h0
  have hfl1 := Int.floor_le (scaledCoord (2 ^ a) (2 ^ b) x)
  have hfl2 := Int.lt_floor_add_one (scaledCoord (2 ^ a) (2 ^ b) x)
  have hp := pow2_le_15 (b - a) (by omega)
  have hpa := pow2_le_15 a ha
  have hpb := pow2_le_15 b hb
  have hxq : x * 2 ^ (a - b) < 32768 := by
    have h1 : x * 2 ^ (a - b) < 2 ^ b * 2 ^ (a - b) :=
      Nat.mul_lt_mul_of_pos_right hx (by positivity)
    have h2 : 2 ^ b * 2 ^ (a - b) = 2 ^ (b + (a - b)) := by rw [pow_add]
    have h3 := pow2_le_15 (b + (a - b)) (by omega)
    omega
  have hfllt : ⌊scaledCoord (2 ^ a) (2 ^ b) x⌋ < 32768 := by
    have h1 : ((⌊scaledCoord (2 ^ a) (2 ^ b) x⌋ : Int) : ℚ) < ((2 ^ a : Nat) : ℚ) := by linarith
    have h2 : ⌊scaledCoord (2 ^ a) (2 ^ b) x⌋ < ((2 ^ a : Nat) : Int) := by exact_mod_cast h1
    omega
  generalize scaledCoord (2 ^ a) (2 ^ b) x = sx at *
  have hx15 : x < 32768 := by omega
  have hmf : (sx - ((⌊sx⌋ : Int) : ℚ)) * 2 ^ (b - a)
      = ((((x * 2 ^ (a - b) : Nat) : Int) - ⌊sx⌋ * 2 ^ (b - a) : Int) : ℚ) := by
    rw [sub_mul, hsc]
    push_cast
    ring
  have hP : (0 : ℚ) < 2 ^ (b - a) := by positivity
  have hmf0 : 0 ≤ ((x * 2 ^ (a - b) : Nat) : Int) - ⌊sx⌋ * 2 ^ (b - a) := by
    have h1 : (0 : ℚ) ≤ (sx - ((⌊sx⌋ : Int) : ℚ)) * 2 ^ (b - a) :=
      mul_nonneg (by linarith) (le_of_lt hP)
    rw [hmf] at h1
    exact_mod_cast h1
  have hmf1 : ((x * 2 ^ (a - b) : Nat) : Int) - ⌊sx⌋ * 2 ^ (b - a) < 2 ^ (b - a) := by
    have h1 : (sx - ((⌊sx⌋ : Int) : ℚ)) * 2 ^ (b - a) < 1 * 2 ^ (b - a) :=
      mul_lt_mul_of_pos_right (by linarith) hP
    rw [hmf, one_mul] at h1
    exact_mod_cast h1
  have hPi : (2 : Int) ^ (b - a) ≤ 32768 := by exact_mod_cast hp
  refine ⟨?_, ?_, ?_, ?_, ?_, ?_⟩
  · apply intToF32_of_small
    rw [abs_of_nonneg (by omega)]
    omega
  · apply roundF32_of_scaled sx (b - a) ((x * 2 ^ (a - b) : Nat) : Int) _ _ (by omega)
    · rw [hsc, Int.cast_natCast]
    · rw [abs_of_nonneg (Int.natCast_nonneg _)]
      have hn : x * 2 ^ (a - b) < 2 ^ 24 := by omega
      exact_mod_cast hn
  · apply roundF32_of_scaled (sx + 1) (b - a) ((x * 2 ^ (a - b) + 2 ^ (b - a) : Nat) : Int) _ _
      (by omega)
    · rw [add_mul, hsc]
      push_cast
      ring
    · rw [abs_of_nonneg (Int.natCast_nonneg _)]
      have hn : x * 2 ^ (a - b) + 2 ^ (b - a) < 2 ^ 24 := by omega
      exact_mod_cast hn
  · rw [htr]
    apply intToF32_of_small
    rw [abs_of_nonneg hfl0]
    omega
  · rw [htr]
    apply roundF32_of_scaled _ (b - a) _ hmf _ (by omega)
    rw [abs_of_nonneg hmf0]
    omega
  · rw [htr]
    exact ⟨_, hmf, hmf0, hmf1⟩

/-- One interpolated estimate `( ( ucHigh-ucLow )*fInterpolation )+ucLow` on bytes, with a
fraction that is a multiple of `2^-s` in `[0,1)`: neither operation rounds. -/
theorem lerpF32_exact (lo hi : Nat) (fr : ℚ) (s : Nat) (mf : Int) (hlo : lo ≤ 255)
    (hhi : hi ≤ 255) (hs : s ≤ 15) (hfr : fr * 2 ^ s = (mf : ℚ)) (h0 : 0 ≤ mf)
    (h1 : mf < 2 ^ s) :
    roundF32 (roundF32 (intToF32 ((hi : Int) - (lo : Int)) * fr) + intToF32 (lo : Int))
        = (((hi : Int) - (lo : Int) : Int) : ℚ) * fr + (lo : ℚ)
      ∧ ∃ mu : Int, ((((hi : Int) - (lo : Int) : Int) : ℚ) * fr + (lo : ℚ)) * 2 ^ s = (mu : ℚ)
          ∧ 0 ≤ mu ∧ mu ≤ 255 * 2 ^ s := by
  have hP : (2 : Int) ^ s ≤ 32768 := by exact_mod_cast pow2_le_15 s hs
  have hP0 : (0 : Int) < 2 ^ s := by positivity
  generalize hd : (hi : Int) - (lo : Int) = d
  have hd1 : -255 ≤ d := by omega
  have hd2 : d ≤ 255 := by omega
  have hlo0 : (0 : Int) ≤ (lo : Int) := Int.natCast_nonneg _
  have hloq : (lo : Int) ≤ 255 := by exact_mod_cast hlo
  have e1 : intToF32 d = (d : ℚ) := by
    apply intToF32_of_small
    rw [abs_lt]
    constructor <;> omega
  have e2 : intToF32 (lo : Int) = (lo : ℚ) := by
    rw [intToF32_of_small]
    · exact Int.cast_natCast lo
    · rw [abs_of_nonneg hlo0]
      omega
  have hprod : (d : ℚ) * fr * 2 ^ s = ((d * mf : Int) : ℚ) := by
    rw [mul_assoc, hfr]
    push_cast
    rfl
  have hdm1 : -(255 * 32768) ≤ d * mf := by nlinarith
  have hdm2 : d * mf ≤ 255 * 32768 := by nlinarith
  have e3 : roundF32 ((d : ℚ) * fr) = (d : ℚ) * fr := by
    apply roundF32_of_scaled _ s _ hprod _ (by omega)
    rw [abs_lt]
    constructor <;> omega
  have hmu : ((d : ℚ) * fr + (lo : ℚ)) * 2 ^ s = ((d * mf + (lo : Int) * 2 ^ s : Int) : ℚ) := by
    rw [add_mul, hprod]
    push_cast
    rfl
  have hmu0 : 0 ≤ d * mf + (lo : Int) * 2 ^ s := by
    rcases le_or_lt 0 d with hdn | hdn
    · nlinarith
    · have hhi0 : (0 : Int) ≤ (hi : Int) := Int.natCast_nonneg _
      have : d * mf + (lo : Int) * 2 ^ s ≥ (hi : Int) * 2 ^ s := by
        have e : (hi : Int) = d + lo := by omega
        rw [e]
        nlinarith
      nlinarith
  have hmu1 : d * mf + (lo : Int) * 2 ^ s ≤ 255 * 2 ^ s := by
    rcases le_or_lt 0 d with hdn | hdn
    · have hhi1 : (hi : Int) ≤ 255 := by exact_mod_cast hhi
      have e : (hi : Int) = d + lo := by omega
      nlinarith
    · nlinarith
  refine ⟨?_, _, hmu, hmu0, hmu1⟩
  rw [e1, e2, e3]
  apply roundF32_of_scaled _ s _ hmu _ (by omega)
  rw [abs_of_nonneg hmu0]
  omega

/-- The average `( ucX+ucZ )/2` of two estimates that are multiples of `2^-s` in
`[0,255]`: neither the addition nor the division rounds. -/
theorem avgF32_exact (uX uZ : ℚ) (s : Nat) (mX mZ : Int) (hs : s ≤ 15)
    (hX : uX * 2 ^ s = (mX : ℚ)) (hZ : uZ * 2 ^ s = (mZ : ℚ))
    (hX0 : 0 ≤ mX) (hX1 : mX ≤ 255 * 2 ^ s) (hZ0 : 0 ≤ mZ) (hZ1 : mZ ≤ 255 * 2 ^ s) :
    roundF32 (roundF32 (uX + uZ) / 2) = (uX + uZ) / 2 := by
  have hP : (2 : Int) ^ s ≤ 32768 := by exact_mod_cast pow2_le_15 s hs
  have e1 : roundF32 (uX + uZ) = uX + uZ := by
    apply roundF32_of_scaled _ s (mX + mZ) _ _ (by omega)
    · rw [add_mul, hX, hZ]
      push_cast
      rfl
    · rw [abs_of_nonneg (by omega)]
      omega
  rw [e1]
  apply roundF32_of_scaled _ (s + 1) (mX + mZ) _ _ (by omega)
  · rw [pow_succ]
    have : (uX + uZ) / 2 * (2 ^ s * 2) = uX * 2 ^ s + uZ * 2 ^ s := by ring
    rw [this, hX, hZ]
    push_cast
    rfl
  · rw [abs_of_nonneg (by omega)]
    omega

theorem GetTrueHeightAtPoint_le (m_iSize : Nat) (data : List Nat) (x z : Int) (v : Nat)
    (hbytes : ∀ w ∈ data, w ≤ 255) (h : GetTrueHeightAtPoint m_iSize data x z = some v) :
    v ≤ 255 := by
  unfold GetTrueHeightAtPoint at h
  split_ifs at h
  exact hbytes v (List.get?_mem h)

theorem mapRatioF32_pow2 (a b : Nat) (ha : a ≤ 15) (hb : b ≤ 15) :
    mapRatioF32 (2 ^ a) (2 ^ b) = ((2 ^ a : Nat) : ℚ) / ((2 ^ b : Nat) : ℚ) := by
  have hpa := pow2_le_15 a ha
  have hpb := pow2_le_15 b hb
  have e1 : intToF32 ((2 ^ a : Nat) : Int) = ((2 ^ a : Nat) : ℚ) := by
    rw [intToF32_of_small]
    · exact Int.cast_natCast _
    · rw [abs_of_nonneg (Int.natCast_nonneg _)]
      have : 2 ^ a < 2 ^ 24 := by omega
      exact_mod_cast this
  have e2 : intToF32 ((2 ^ b : Nat) : Int) = ((2 ^ b : Nat) : ℚ) := by
    rw [intToF32_of_small]
    · exact Int.cast_natCast _
    · rw [abs_of_nonneg (Int.natCast_nonneg _)]
      have : 2 ^ b < 2 ^ 24 := by omega
      exact_mod_cast this
  unfold mapRatioF32
  rw [e1, e2]
  apply roundF32_of_dyadic _ 1 ((a : Int) - (b : Int)) _ (by norm_num) (by omega)
  push_cast
  rw [zpow_sub₀ (by norm_num), zpow_natCast, zpow_natCast]
  ring

/-- On power-of-two sizes up to `2^15` no operation of the binary32 computation rounds:
the ratio is exact and `InterpolateHeightF32` returns what the exact computation
returns. -/
theorem InterpolateHeightF32_eq_of_pow2 (a b x z : Nat) (data : List Nat) (ha : a ≤ 15)
    (hb : b ≤ 15) (hx : x < 2 ^ b) (hz : z < 2 ^ b) (hbytes : ∀ v ∈ data, v ≤ 255) :
    mapRatioF32 (2 ^ a) (2 ^ b) = ((2 ^ a : Nat) : ℚ) / ((2 ^ b : Nat) : ℚ)
      ∧ InterpolateHeightF32 (2 ^ a) data (x : Int) (z : Int) (mapRatioF32 (2 ^ a) (2 ^ b))
          = InterpolateHeight (2 ^ a) data (x : Int) (z : Int)
              (((2 ^ a : Nat) : ℚ) / ((2 ^ b : Nat) : ℚ)) := by
  have hr := mapRatioF32_pow2 a b ha hb
  refine ⟨hr, ?_⟩
  rw [hr]
  obtain ⟨x1, x2, x3, x4, x5, mfx, hmfx, hmfx0, hmfx1⟩ := scaledAxis_exact a b x ha hb hx
  obtain ⟨z1, z2, z3, z4, z5, mfz, hmfz, hmfz0, hmfz1⟩ := scaledAxis_exact a b z ha hb hz
  have hsx : ((x : Int) : ℚ) * (((2 ^ a : Nat) : ℚ) / ((2 ^ b : Nat) : ℚ))
      = scaledCoord (2 ^ a) (2 ^ b) x := by
    simp [scaledCoord]
  have hsz : ((z : Int) : ℚ) * (((2 ^ a : Nat) : ℚ) / ((2 ^ b : Nat) : ℚ))
      = scaledCoord (2 ^ a) (2 ^ b) z := by
    simp [scaledCoord]
  have hn : intToF32 ((2 ^ a : Nat) : Int) = ((2 ^ a : Nat) : ℚ) := by
    have hpa := pow2_le_15 a ha
    rw [intToF32_of_small]
    · exact Int.cast_natCast _
    · rw [abs_of_nonneg (Int.natCast_nonneg _)]
      have : 2 ^ a < 2 ^ 24 := by omega
      exact_mod_cast this
  unfold InterpolateHeightF32 InterpolateHeight
  simp only [x1, z1, hsx, hsz, x2, z2, x3, z3, x4, z4, x5, z5, hn]
  cases hL : GetTrueHeightAtPoint (2 ^ a) data (truncToInt (scaledCoord (2 ^ a) (2 ^ b) x))
      (truncToInt (scaledCoord (2 ^ a) (2 ^ b) z)) with
  | none => rfl
  | some lo =>
    have hlo := GetTrueHeightAtPoint_le _ _ _ _ lo hbytes hL
    simp only []
    by_cases c1 : scaledCoord (2 ^ a) (2 ^ b) x + 1 > ((2 ^ a : Nat) : ℚ)
    · rw [if_pos c1, if_pos c1]
    · rw [if_neg c1, if_neg c1]
      cases hHX : GetTrueHeightAtPoint (2 ^ a) data
          (truncToInt (scaledCoord (2 ^ a) (2 ^ b) x) + 1)
          (truncToInt (scaledCoord (2 ^ a) (2 ^ b) z)) with
      | none => rfl
      | some hxv =>
        have hhx := GetTrueHeightAtPoint_le _ _ _ _ hxv hbytes hHX
        simp only []
        by_cases c2 : scaledCoord (2 ^ a) (2 ^ b) z + 1 > ((2 ^ a : Nat) : ℚ)
        · rw [if_pos c2, if_pos c2]
        · rw [if_neg c2, if_neg c2]
          cases hHZ : GetTrueHeightAtPoint (2 ^ a) data
              (truncToInt (scaledCoord (2 ^ a) (2 ^ b) x))
              (truncToInt (scaledCoord (2 ^ a) (2 ^ b) z) + 1) with
          | none => rfl
          | some hzv =>
            have hhz := GetTrueHeightAtPoint_le _ _ _ _ hzv hbytes hHZ
            simp only []
            obtain ⟨eX, mX, hmX, hmX0, hmX1⟩ :=
              lerpF32_exact lo hxv _ (b - a) mfx hlo hhx (by omega) hmfx hmfx0 hmfx1
            obtain ⟨eZ, mZ, hmZ, hmZ0, hmZ1⟩ :=
              lerpF32_exact lo hzv _ (b - a) mfz hlo hhz (by omega) hmfz hmfz0 hmfz1
            rw [eX, eZ, avgF32_exact _ _ (b - a) mX mZ (by omega) hmX hmZ hmX0 hmX1 hmZ0 hmZ1]

/-- C11 (amended): in exact arithmetic, for a height field of `size*size` bytes
(`size ≥ 1`), an output size `≥ 1` and a pixel `(x,z)` of the output, with `(sx,sz)` the
scaled coordinates and `low` the sample at `(floor sx, floor sz)`: if `sx > size-1` the
result is `low`; if `sx < size-1` and `sz > size-1` the result is `low`; if `sx < size-1`
and `sz < size-1` the result equals the reference (truncated average of the X and the Z
estimate).  In binary32, when `size = 2^a` and `outputSize = 2^b` with `a, b ≤ 15`, the
ratio `fMapRatio` is exact, no operation rounds, and the result is the same. -/
theorem InterpolateHeight_eq_cases (m_iSize uiSize x z : Nat) (data : List Nat)
    (hsize : 1 ≤ m_iSize) (hx : x < uiSize) (hz : z < uiSize)
    (hlen : data.length = m_iSize * m_iSize) (hbytes : ∀ v ∈ data, v ≤ 255) :
    ((m_iSize : ℚ) - 1 < scaledCoord m_iSize uiSize x →
        InterpolateHeight m_iSize data (x : Int) (z : Int) ((m_iSize : ℚ) / (uiSize : ℚ))
          = some (sampleAt m_iSize data ⌊scaledCoord m_iSize uiSize x⌋.toNat
              ⌊scaledCoord m_iSize uiSize z⌋.toNat))
      ∧ (scaledCoord m_iSize uiSize x < (m_iSize : ℚ) - 1 →
          (m_iSize : ℚ) - 1 < scaledCoord m_iSize uiSize z →
        InterpolateHeight m_iSize data (x : Int) (z : Int) ((m_iSize : ℚ) / (uiSize : ℚ))
          = some (sampleAt m_iSize data ⌊scaledCoord m_iSize uiSize x⌋.toNat
              ⌊scaledCoord m_iSize uiSize z⌋.toNat))
      ∧ (scaledCoord m_iSize uiSize x < (m_iSize : ℚ) - 1 →
          scaledCoord m_iSize uiSize z < (m_iSize : ℚ) - 1 →
        InterpolateHeight m_iSize data (x : Int) (z : Int) ((m_iSize : ℚ) / (uiSize : ℚ))
          = some (interpolateReference m_iSize data uiSize x z))
      ∧ (∀ a b : Nat, m_iSize = 2 ^ a → uiSize = 2 ^ b → a ≤ 15 → b ≤ 15 →
          mapRatioF32 m_iSize uiSize = (m_iSize : ℚ) / (uiSize : ℚ)
            ∧ InterpolateHeightF32 m_iSize data (x : Int) (z : Int)
                (mapRatioF32 m_iSize uiSize)
              = InterpolateHeight m_iSize data (x : Int) (z : Int)
                  ((m_iSize : ℚ) / (uiSize : ℚ))) := by
  have hsx : ((x : Int) : ℚ) * ((m_iSize : ℚ) / (uiSize : ℚ)) = scaledCoord m_iSize uiSize x := by
    simp [scaledCoord]
  have hsz : ((z : Int) : ℚ) * ((m_iSize : ℚ) / (uiSize : ℚ)) = scaledCoord m_iSize uiSize z := by
    simp [scaledCoord]
  have hfx := floor_scaledCoord_lt m_iSize uiSize x hsize hx
  have hfz := floor_scaledCoord_lt m_iSize uiSize z hsize hz
  have hlow := GetTrueHeightAtPoint_inside m_iSize data _ _ hlen hfx hfz
  refine ⟨?_, ?_, ?_, ?_⟩
  · intro h1
    unfold InterpolateHeight
    simp only [hsx, hsz, truncToInt_scaledCoord, hlow]
    rw [if_pos (by linarith)]
  · intro h1 h2
    have hx1 := floor_scaledCoord_succ_lt m_iSize uiSize x h1
    have hhx := GetTrueHeightAtPoint_inside m_iSize data _ _ hlen hx1 hfz
    unfold InterpolateHeight
    simp only [hsx, hsz, truncToInt_scaledCoord, hlow]
    rw [if_neg (by linarith)]
    have hh : ((⌊scaledCoord m_iSize uiSize x⌋.toNat : Nat) : Int) + 1
        = ((⌊scaledCoord m_iSize uiSize x⌋.toNat + 1 : Nat) : Int) := by push_cast; rfl
    simp only [hh, hhx]
    rw [if_pos (by linarith)]
  · intro h1 h2
    have hx1 := floor_scaledCoord_succ_lt m_iSize uiSize x h1
    have hz1 := floor_scaledCoord_succ_lt m_iSize uiSize z h2
    have hhx := GetTrueHeightAtPoint_inside m_iSize data _ _ hlen hx1 hfz
    have hhz := GetTrueHeightAtPoint_inside m_iSize data _ _ hlen hfx hz1
    obtain ⟨tx0, tx1⟩ := frac_scaledCoord m_iSize uiSize x
    obtain ⟨tz0, tz1⟩ := frac_scaledCoord m_iSize uiSize z
    have bl := sampleAt_le m_iSize data ⌊scaledCoord m_iSize uiSize x⌋.toNat
      ⌊scaledCoord m_iSize uiSize z⌋.toNat hbytes
    have bx := sampleAt_le m_iSize data (⌊scaledCoord m_iSize uiSize x⌋.toNat + 1)
      ⌊scaledCoord m_iSize uiSize z⌋.toNat hbytes
    have bz := sampleAt_le m_iSize data ⌊scaledCoord m_iSize uiSize x⌋.toNat
      (⌊scaledCoord m_iSize uiSize z⌋.toNat + 1) hbytes
    obtain ⟨rx0, rx1⟩ := lerp_range _ _ _ bl bx tx0 tx1
    obtain ⟨rz0, rz1⟩ := lerp_range _ _ _ bl bz tz0 tz1
    unfold InterpolateHeight
    simp only [hsx, hsz, truncToInt_scaledCoord, hlow]
    rw [if_neg (by linarith)]
    have hh : ((⌊scaledCoord m_iSize uiSize x⌋.toNat : Nat) : Int) + 1
        = ((⌊scaledCoord m_iSize uiSize x⌋.toNat + 1 : Nat) : Int) := by push_cast; rfl
    have hh2 : ((⌊scaledCoord m_iSize uiSize z⌋.toNat : Nat) : Int) + 1
        = ((⌊scaledCoord m_iSize uiSize z⌋.toNat + 1 : Nat) : Int) := by push_cast; rfl
    simp only [hh, hhx]
    rw [if_neg (by linarith)]
    simp only [hh2, hhz]
    have ex : (x : ℚ) * (m_iSize : ℚ) / (uiSize : ℚ) = scaledCoord m_iSize uiSize x := by
      unfold scaledCoord; ring
    have ez : (z : ℚ) * (m_iSize : ℚ) / (uiSize : ℚ) = scaledCoord m_iSize uiSize z := by
      unfold scaledCoord; ring
    unfold interpolateReference
    simp only [ex, ez, if_pos hx1, if_pos hz1]
    push_cast
    have eX : ((sampleAt m_iSize data (⌊scaledCoord m_iSize uiSize x⌋.toNat + 1)
          ⌊scaledCoord m_iSize uiSize z⌋.toNat : ℚ)
          - (sampleAt m_iSize data ⌊scaledCoord m_iSize uiSize x⌋.toNat
            ⌊scaledCoord m_iSize uiSize z⌋.toNat : ℚ))
          * (scaledCoord m_iSize uiSize x - ((⌊scaledCoord m_iSize uiSize x⌋.toNat : Nat) : ℚ))
          + (sampleAt m_iSize data ⌊scaledCoord m_iSize uiSize x⌋.toNat
            ⌊scaledCoord m_iSize uiSize z⌋.toNat : ℚ)
        = (sampleAt m_iSize data ⌊scaledCoord m_iSize uiSize x⌋.toNat
            ⌊scaledCoord m_iSize uiSize z⌋.toNat : ℚ)
          + ((sampleAt m_iSize data (⌊scaledCoord m_iSize uiSize x⌋.toNat + 1)
            ⌊scaledCoord m_iSize uiSize z⌋.toNat : ℚ)
          - (sampleAt m_iSize data ⌊scaledCoord m_iSize uiSize x⌋.toNat
            ⌊scaledCoord m_iSize uiSize z⌋.toNat : ℚ))
          * (scaledCoord m_iSize uiSize x
            - ((⌊scaledCoord m_iSize uiSize x⌋.toNat : Nat) : ℚ)) := by ring
    have eZ : ((sampleAt m_iSize data ⌊scaledCoord m_iSize uiSize x⌋.toNat
          (⌊scaledCoord m_iSize uiSize z⌋.toNat + 1) : ℚ)
          - (sampleAt m_iSize data ⌊scaledCoord m_iSize uiSize x⌋.toNat
            ⌊scaledCoord m_iSize uiSize z⌋.toNat : ℚ))
          * (scaledCoord m_iSize uiSize z - ((⌊scaledCoord m_iSize uiSize z⌋.toNat : Nat) : ℚ))
          + (sampleAt m_iSize data ⌊scaledCoord m_iSize uiSize x⌋.toNat
            ⌊scaledCoord m_iSize uiSize z⌋.toNat : ℚ)
        = (sampleAt m_iSize data ⌊scaledCoord m_iSize uiSize x⌋.toNat
            ⌊scaledCoord m_iSize uiSize z⌋.toNat : ℚ)
          + ((sampleAt m_iSize data ⌊scaledCoord m_iSize uiSize x⌋.toNat
            (⌊scaledCoord m_iSize uiSize z⌋.toNat + 1) : ℚ)
          - (sampleAt m_iSize data ⌊scaledCoord m_iSize uiSize x⌋.toNat
            ⌊scaledCoord m_iSize uiSize z⌋.toNat : ℚ))
          * (scaledCoord m_iSize uiSize z
            - ((⌊scaledCoord m_iSize uiSize z⌋.toNat : Nat) : ℚ)) := by ring
    rw [eX, eZ]
    exact floatToUChar_of_range _ (by linarith) (by linarith)
  · intro a b ha hb ha15 hb15
    subst ha hb
    exact InterpolateHeightF32_eq_of_pow2 a b x z data ha15 hb15 hx hz hbytes

/-- Witness for C11 (amended): grid `[10,20,30,200]` of size 2, output size 4,
pixel `(1,1)`. -/
theorem InterpolateHeight_eq_cases_witness :
    InterpolateHeight 2 [10, 20, 30, 200] ((1 : Nat) : Int) ((1 : Nat) : Int)
        (((2 : Nat) : ℚ) / ((4 : Nat) : ℚ))
      = some (interpolateReference 2 [10, 20, 30, 200] 4 1 1)
      ∧ InterpolateHeightF32 2 [10, 20, 30, 200] ((1 : Nat) : Int) ((1 : Nat) : Int)
          (mapRatioF32 2 4)
        = InterpolateHeight 2 [10, 20, 30, 200] ((1 : Nat) : Int) ((1 : Nat) : Int)
            (((2 : Nat) : ℚ) / ((4 : Nat) : ℚ)) :=
  have h := InterpolateHeight_eq_cases 2 4 1 1 [10, 20, 30, 200] (by decide) (by decide)
    (by decide) rfl (by decide)
  ⟨h.2.2.1 (by norm_num [scaledCoord]) (by norm_num [scaledCoord]),
    (h.2.2.2 1 2 rfl rfl (by decide) (by decide)).2⟩

/-- C11 counterexample: grid `[0,0,0,200]` of size 2, output size 4, pixel `(3,1)`: the
next X sample is outside the grid and the next Z sample is inside; the reference gives
the truncated average 50 of `low = 0` and the Z estimate 100, `InterpolateHeight`
returns `low = 0`, in exact arithmetic and in binary32.  In binary32 the result also
differs where no border is involved: for the grid `10, 20, ..., 90` of size 3, output
size 123 and pixel `(41,0)` the scaled coordinate `41*(3/123)` rounds to
`1 - 2^-24`, the cell to its left is selected and the result is 15, where the reference
gives 20. -/
theorem InterpolateHeight_ne_reference :
    InterpolateHeight 2 [0, 0, 0, 200] 3 1 ((2 : ℚ) / (4 : ℚ)) = some 0
      ∧ interpolateReference 2 [0, 0, 0, 200] 4 3 1 = 50
      ∧ InterpolateHeightF32 2 [0, 0, 0, 200] 3 1 (mapRatioF32 2 4) = some 0
      ∧ roundF32 (intToF32 41 * mapRatioF32 3 123) = 1 - 1 / 2 ^ 24
      ∧ InterpolateHeightF32 3 [10, 20, 30, 40, 50, 60, 70, 80, 90] 41 0 (mapRatioF32 3 123)
          = some 15
      ∧ interpolateReference 3 [10, 20, 30, 40, 50, 60, 70, 80, 90] 123 41 0 = 20 := by
  decide!

/-- C12 (failing input): grid `[7]` of size 1, output size 1, pixel `(0,0)`: the scaled
X coordinate is 0, the guard `fScaledX+1 > m_iSize` does not fire, and the next X sample
is read at column 1, outside the grid, so the bounds-checked lookup fails. -/
theorem InterpolateHeight_reads_outside_grid :
    ¬ (scaledCoord 1 1 0 + 1 > ((1 : Nat) : ℚ))
      ∧ truncToInt (scaledCoord 1 1 0) + 1 = 1
      ∧ GetTrueHeightAtPoint 1 [7] (truncToInt (scaledCoord 1 1 0) + 1)
          (truncToInt (scaledCoord 1 1 0)) = none
      ∧ InterpolateHeight 1 [7] 0 0 ((1 : ℚ) / (1 : ℚ)) = none := by
  decide!

/-- C13: for a tile with width and height at least 1 and coordinates `(x,y)` with
`width*(x div width + 1)` and `height*(y div height + 1)` below `2^32`, the two loops of
`GetTexCoords` terminate (any fuel above `x div width` and `y div height` suffices) with
repetition counts `x div width` and `y div height`, and `(x,y)` is replaced by
`(x mod width, y mod height)`, which are below `width` and `height`. -/
theorem GetTexCoords_terminates_with_mod (fuel : Nat) (texture : CIMAGE) (x y : Nat)
    (hw : 1 ≤ texture.m_uiWidth) (hh : 1 ≤ texture.m_uiHeight)
    (hovx : texture.m_uiWidth * (x / texture.m_uiWidth + 1) < 2 ^ 32)
    (hovy : texture.m_uiHeight * (y / texture.m_uiHeight + 1) < 2 ^ 32)
    (hfx : x / texture.m_uiWidth < fuel) (hfy : y / texture.m_uiHeight < fuel) :
    findRepeat texture.m_uiWidth x fuel 0 = some (x / texture.m_uiWidth)
      ∧ findRepeat texture.m_uiHeight y fuel 0 = some (y / texture.m_uiHeight)
      ∧ GetTexCoords fuel texture x y = some (x % texture.m_uiWidth, y % texture.m_uiHeight)
      ∧ x % texture.m_uiWidth < texture.m_uiWidth
      ∧ y % texture.m_uiHeight < texture.m_uiHeight :=
  ⟨findRepeat_eq_div _ _ hw hovx fuel 0 (Nat.zero_le _) (by rw [Nat.sub_zero]; exact hfx),
   findRepeat_eq_div _ _ hh hovy fuel 0 (Nat.zero_le _) (by rw [Nat.sub_zero]; exact hfy),
   GetTexCoords_eq_mod fuel texture x y hw hh hovx hovy hfx hfy,
   Nat.mod_lt _ hw, Nat.mod_lt _ hh⟩

/-- Witness for C13: a 2x2 tile and the coordinates `(7,4)`. -/
theorem GetTexCoords_terminates_with_mod_witness :
    GetTexCoords 4 (sampleTile true 0) 7 4 = some (1, 0) :=
  (GetTexCoords_terminates_with_mod 4 (sampleTile true 0) 7 4 (by decide) (by decide)
    (by decide) (by decide) (by decide) (by decide)).2.2.1

/-! ## `FilterHeightBand` -/

/-- Invariant of the loop of `FilterHeightBand` after `m` passes. -/
theorem filterBand_fold_spec (buf : FloatBuf) (fpBand iStride : Int) (fFilter : ℚ)
    (hstride : iStride ≠ 0) (m : Nat) :
    ((List.range m).foldl (filterBandStep fpBand iStride fFilter)
        (buf, buf fpBand, iStride)).2.2 = ((m : Int) + 1) * iStride
      ∧ ((List.range m).foldl (filterBandStep fpBand iStride fFilter)
        (buf, buf fpBand, iStride)).2.1
        = ((List.range m).foldl (filterBandStep fpBand iStride fFilter)
            (buf, buf fpBand, iStride)).1 (fpBand + (m : Int) * iStride)
      ∧ (∀ i : Nat, 1 ≤ i → i ≤ m →
          ((List.range m).foldl (filterBandStep fpBand iStride fFilter)
            (buf, buf fpBand, iStride)).1 (fpBand + (i : Int) * iStride)
          = fFilter * ((List.range m).foldl (filterBandStep fpBand iStride fFilter)
              (buf, buf fpBand, iStride)).1 (fpBand + ((i : Int) - 1) * iStride)
            + (1 - fFilter) * buf (fpBand + (i : Int) * iStride))
      ∧ (∀ k : Int, (∀ i : Nat, 1 ≤ i → i ≤ m → k ≠ fpBand + (i : Int) * iStride) →
          ((List.range m).foldl (filterBandStep fpBand iStride fFilter)
            (buf, buf fpBand, iStride)).1 k = buf k) := by
  have hinj : ∀ a b : Int, fpBand + a * iStride = fpBand + b * iStride → a = b := by
    intro a b h
    have h2 : a * iStride = b * iStride := by linarith
    exact mul_right_cancel₀ hstride h2
  induction m with
  | zero =>
    refine ⟨by simp, by simp, ?_, ?_⟩
    · intro i h1 h2; omega
    · intro k _; rfl
  | succ m ih =>
    rw [List.range_succ, List.foldl_append]
    simp only [List.foldl_cons, List.foldl_nil]
    generalize (List.range m).foldl (filterBandStep fpBand iStride fFilter)
      (buf, buf fpBand, iStride) = st at ih ⊢
    obtain ⟨B, v, j⟩ := st
    simp only at ih
    obtain ⟨hj, hv, hrec, hout⟩ := ih
    simp only [filterBandStep]
    subst hj
    have hnew : B (fpBand + ((m : Int) + 1) * iStride)
        = buf (fpBand + ((m : Int) + 1) * iStride) := by
      apply hout
      intro i h1 h2 hc
      have := hinj _ _ hc
      omega
    refine ⟨by push_cast; ring, ?_, ?_, ?_⟩
    · congr 1
    · intro i h1 h2
      rcases Nat.lt_or_ge i (m + 1) with hlt | hge
      · have hne1 : fpBand + (i : Int) * iStride ≠ fpBand + ((m : Int) + 1) * iStride := by
          intro hc
          have := hinj _ _ hc
          omega
        have hne2 : fpBand + ((i : Int) - 1) * iStride
            ≠ fpBand + ((m : Int) + 1) * iStride := by
          intro hc
          have := hinj _ _ hc
          omega
        rw [Function.update_noteq hne1, Function.update_noteq hne2]
        exact hrec i h1 (by omega)
      · have hi : i = m + 1 := by omega
        subst hi
        have hne2 : fpBand + (((m + 1 : Nat) : Int) - 1) * iStride
            ≠ fpBand + ((m : Int) + 1) * iStride := by
          intro hc
          have := hinj _ _ hc
          omega
        have e1 : fpBand + ((m + 1 : Nat) : Int) * iStride
            = fpBand + ((m : Int) + 1) * iStride := by push_cast; rfl
        have e2 : fpBand + (((m + 1 : Nat) : Int) - 1) * iStride
            = fpBand + (m : Int) * iStride := by push_cast; ring
        rw [Function.update_noteq hne2, e1, Function.update_same, e2, hnew, hv]
    · intro k hk
      have hne : k ≠ fpBand + ((m : Int) + 1) * iStride := by
        have := hk (m + 1) (by omega) (le_refl _)
        push_cast at this
        exact this
      rw [Function.update_noteq hne]
      exact hout k (fun i h1 h2 => hk i h1 (by omega))

/-- C16: for every strength, every stride other than 0 and every count `≥ 1`,
`FilterHeightBand` leaves logical sample 0 unchanged, sets each logical sample `i` in
`1..count-1` to `strength*new[i-1] + (1-strength)*old[i]` with `new[i-1]` the already
filtered previous sample, and leaves every buffer cell outside the view (offsets other
than `0, stride, ..., (count-1)*stride`) unchanged. -/
theorem FilterHeightBand_recurrence (buf : FloatBuf) (fpBand iStride : Int) (iCount : Nat)
    (fFilter : ℚ) (hcount : 1 ≤ iCount) (hstride : iStride ≠ 0) :
    FilterHeightBand buf fpBand iStride iCount fFilter fpBand = buf fpBand
      ∧ (∀ i : Nat, 1 ≤ i → i < iCount →
          FilterHeightBand buf fpBand iStride iCount fFilter (fpBand + (i : Int) * iStride)
            = fFilter * FilterHeightBand buf fpBand iStride iCount fFilter
                (fpBand + ((i : Int) - 1) * iStride)
              + (1 - fFilter) * buf (fpBand + (i : Int) * iStride))
      ∧ (∀ k : Int, (∀ i : Nat, i < iCount → k ≠ fpBand + (i : Int) * iStride) →
          FilterHeightBand buf fpBand iStride iCount fFilter k = buf k) := by
  obtain ⟨-, -, hrec, hout⟩ := filterBand_fold_spec buf fpBand iStride fFilter hstride
    (iCount - 1)
  unfold FilterHeightBand
  refine ⟨?_, ?_, ?_⟩
  · apply hout
    intro i h1 h2 hc
    have h3 : (i : Int) * iStride = 0 := by linarith
    rcases mul_eq_zero.mp h3 with h | h
    · omega
    · exact hstride h
  · intro i h1 h2
    exact hrec i h1 (by omega)
  · intro k hk
    exact hout k (fun i _ h2 => hk i (by omega))

/-- Witness for C16: a three-sample band of the ramp buffer at stride 1, strength 1/2. -/
theorem FilterHeightBand_recurrence_witness :
    FilterHeightBand rampBuf 0 1 3 (1 / 2) 0 = rampBuf 0
      ∧ (∀ i : Nat, 1 ≤ i → i < 3 →
          FilterHeightBand rampBuf 0 1 3 (1 / 2) (0 + (i : Int) * 1)
            = (1 / 2) * FilterHeightBand rampBuf 0 1 3 (1 / 2) (0 + ((i : Int) - 1) * 1)
              + (1 - 1 / 2) * rampBuf (0 + (i : Int) * 1))
      ∧ (∀ k : Int, (∀ i : Nat, i < 3 → k ≠ 0 + (i : Int) * 1) →
          FilterHeightBand rampBuf 0 1 3 (1 / 2) k = rampBuf k) :=
  FilterHeightBand_recurrence rampBuf 0 1 3 (1 / 2) (by decide) (by decide)

/-! ## Load, save, unload -/

/-- C18 (failing input): a terrain holding the 1x1 grid `[7]`.  `UnloadHeightMap` succeeds
and sets the size to 0 but leaves the pointer non-null; a second `UnloadHeightMap` calls
`delete[]` on released storage (undefined), and a following `SaveHeightMap` passes the
`NULL` test, writes an empty file and reports success. -/
theorem UnloadHeightMap_leaves_pointer :
    UnloadHeightMap { m_ucpData := HeightPtr.live [7], m_iSize := 1 }
        = some (true, { m_ucpData := HeightPtr.freed, m_iSize := 0 })
      ∧ UnloadHeightMap { m_ucpData := HeightPtr.freed, m_iSize := 0 } = none
      ∧ (SaveHeightMap emptyFiles "map.raw"
          { m_ucpData := HeightPtr.freed, m_iSize := 0 }).map Prod.fst = some true
      ∧ (SaveHeightMap emptyFiles "map.raw"
          { m_ucpData := HeightPtr.null, m_iSize := 0 }).map Prod.fst = some false := by
  decide

/-- C19 (amended): from a terrain whose pointer is `NULL` or live, `LoadHeightMap` reports
failure exactly when the file cannot be opened; for every file that opens, whatever its
length, it reports success, sets the size to `iSize`, and the buffer holds the file's
bytes in its leading cells (all of them when the file has at least `iSize*iSize`
bytes). -/
theorem LoadHeightMap_success_iff_opens (fs : FileSystem) (fresh : Nat → Nat) (name : String)
    (iSize : Nat) (t : CTERRAIN) (hptr : t.m_ucpData ≠ HeightPtr.freed) :
    (fs.contents name = none →
        (LoadHeightMap fs fresh name iSize t).map Prod.fst = some false)
      ∧ (∀ bytes, fs.contents name = some bytes →
          ∃ cells, LoadHeightMap fs fresh name iSize t
              = some (true, { m_ucpData := HeightPtr.live cells, m_iSize := iSize })
            ∧ cells.length = iSize * iSize
            ∧ ∀ i, i < iSize * iSize → i < bytes.length → cells.get? i = bytes.get? i) := by
  obtain ⟨p, s⟩ := t
  cases p with
  | freed => exact absurd rfl hptr
  | null =>
    constructor
    · intro h
      simp [LoadHeightMap, h]
    · intro bytes h
      refine ⟨(List.range (iSize * iSize)).map (fun i => bytes.getD i (fresh i)),
        by simp [LoadHeightMap, h], by simp, ?_⟩
      intro i hi hb
      simp [List.getD_eq_getElem?_getD, List.getElem?_eq_getElem hb, hi]
  | live c =>
    constructor
    · intro h
      simp [LoadHeightMap, UnloadHeightMap, h]
    · intro bytes h
      refine ⟨(List.range (iSize * iSize)).map (fun i => bytes.getD i (fresh i)),
        by simp [LoadHeightMap, UnloadHeightMap, h], by simp, ?_⟩
      intro i hi hb
      simp [List.getD_eq_getElem?_getD, List.getElem?_eq_getElem hb, hi]

/-- Witness for C19 (amended): loading a one-byte file with size 2 into an empty terrain. -/
theorem LoadHeightMap_success_iff_opens_witness :
    ∃ cells, LoadHeightMap (emptyFiles.write "short.raw" [9]) (fun _ => 0) "short.raw" 2
          { m_ucpData := HeightPtr.null, m_iSize := 0 }
        = some (true, { m_ucpData := HeightPtr.live cells, m_iSize := 2 })
      ∧ cells.length = 2 * 2
      ∧ ∀ i, i < 2 * 2 → i < [9].length → cells.get? i = [9].get? i :=
  (LoadHeightMap_success_iff_opens (emptyFiles.write "short.raw" [9]) (fun _ => 0)
    "short.raw" 2 { m_ucpData := HeightPtr.null, m_iSize := 0 } (by decide)).2 [9]
    (by simp [FileSystem.write])

/-- C19 counterexample: size 2 and a file that opens but holds one byte instead of four:
`LoadHeightMap` reports success. -/
theorem LoadHeightMap_short_file_succeeds :
    (emptyFiles.write "short.raw" [9]).contents "short.raw" = some [9]
      ∧ [9].length < 2 * 2
      ∧ (LoadHeightMap (emptyFiles.write "short.raw" [9]) (fun _ => 0) "short.raw" 2
          { m_ucpData := HeightPtr.null, m_iSize := 0 }).map Prod.fst = some true := by
  decide

/-! ## `MakeTerrainPlasma` -/

theorem WrittenMono.refl (b : RawBuf) : WrittenMono b b := fun _ h => h

theorem WrittenMono.trans {b1 b2 b3 : RawBuf} (h12 : WrittenMono b1 b2)
    (h23 : WrittenMono b2 b3) : WrittenMono b1 b3 := fun k h => h23 k (h12 k h)

theorem cellWritten_upClosed (n a b : Nat) : UpClosed (fun buf => cellWritten n buf a b) :=
  fun _ _ hm h => hm _ h

/-- A monadic loop whose passes only add written cells keeps every up-closed invariant
and collects the up-closed facts established by its passes. -/
theorem foldlM_written {α : Type} (f : RawBuf × Nat → α → Option (RawBuf × Nat))
    (I : RawBuf → Prop) (Q : α → RawBuf → Prop) (hI : UpClosed I) (hQ : ∀ x, UpClosed (Q x))
    (l : List α)
    (hstep : ∀ st x, x ∈ l → I st.1 →
      ∃ st', f st x = some st' ∧ WrittenMono st.1 st'.1 ∧ Q x st'.1) :
    ∀ st : RawBuf × Nat, I st.1 →
      ∃ st', l.foldlM f st = some st' ∧ WrittenMono st.1 st'.1 ∧ ∀ x ∈ l, Q x st'.1 := by
  induction l with
  | nil =>
    intro st _
    exact ⟨st, rfl, WrittenMono.refl _, fun x hx => absurd hx (List.not_mem_nil x)⟩
  | cons x l ih =>
    intro st hst
    obtain ⟨st1, h1, m1, q1⟩ := hstep st x (List.mem_cons_self _ _) hst
    obtain ⟨st2, h2, m2, q2⟩ := ih (fun st y hy => hstep st y (List.mem_cons_of_mem _ hy))
      st1 (hI _ _ m1 hst)
    refine ⟨st2, ?_, m1.trans m2, ?_⟩
    · rw [List.foldlM_cons, h1]
      exact h2
    · intro y hy
      rcases List.mem_cons.mp hy with rfl | hy'
      · exact hQ _ _ _ m2 q1
      · exact q2 y hy'

theorem cellIndex_natCell (n a b : Nat) :
    cellIndex n ((a : Int), (b : Int)) = ((a + b * n : Nat) : Int) := by
  simp [cellIndex]

theorem cellIndex_inRange (n a b : Nat) (ha : a < n) (hb : b < n) :
    0 ≤ cellIndex n ((a : Int), (b : Int))
      ∧ cellIndex n ((a : Int), (b : Int)) < ((n * n : Nat) : Int) := by
  rw [cellIndex_natCell]
  have h1 : (b + 1) * n ≤ n * n := Nat.mul_le_mul_right _ (by omega)
  have e : (b + 1) * n = b * n + n := by ring
  constructor
  · omega
  · have : a + b * n < n * n := by omega
    exact_mod_cast this

theorem readCell_of_written (n : Nat) (buf : RawBuf) (a b : Nat) (ha : a < n) (hb : b < n)
    (hw : cellWritten n buf a b) :
    ∃ v, readCell n buf (cellIndex n ((a : Int), (b : Int))) = some v := by
  unfold readCell
  rw [if_pos (cellIndex_inRange n a b ha hb)]
  exact Option.isSome_iff_exists.mp hw

/-- One displaced assignment succeeds when its four source cells are written cells of
the grid and its target is a cell of the grid; it only adds the target to the written
cells. -/
theorem displaceCell_ok (RangedRandom : Nat → ℚ → ℚ → ℚ) (n : Nat) (fHeight : ℚ)
    (st : RawBuf × Nat) (a1 b1 a2 b2 a3 b3 a4 b4 ta tb : Nat)
    (h1 : a1 < n ∧ b1 < n ∧ cellWritten n st.1 a1 b1)
    (h2 : a2 < n ∧ b2 < n ∧ cellWritten n st.1 a2 b2)
    (h3 : a3 < n ∧ b3 < n ∧ cellWritten n st.1 a3 b3)
    (h4 : a4 < n ∧ b4 < n ∧ cellWritten n st.1 a4 b4)
    (ht : ta < n ∧ tb < n) :
    ∃ st', displaceCell RangedRandom n fHeight
        [((a1 : Int), (b1 : Int)), ((a2 : Int), (b2 : Int)), ((a3 : Int), (b3 : Int)),
          ((a4 : Int), (b4 : Int))] ((ta : Int), (tb : Int)) st = some st'
      ∧ WrittenMono st.1 st'.1 ∧ cellWritten n st'.1 ta tb := by
  obtain ⟨v1, e1⟩ := readCell_of_written n st.1 a1 b1 h1.1 h1.2.1 h1.2.2
  obtain ⟨v2, e2⟩ := readCell_of_written n st.1 a2 b2 h2.1 h2.2.1 h2.2.2
  obtain ⟨v3, e3⟩ := readCell_of_written n st.1 a3 b3 h3.1 h3.2.1 h3.2.2
  obtain ⟨v4, e4⟩ := readCell_of_written n st.1 a4 b4 h4.1 h4.2.1 h4.2.2
  unfold displaceCell
  simp only [List.map_cons, List.map_nil, e1, e2, e3, e4, writeCell,
    if_pos (cellIndex_inRange n ta tb ht.1 ht.2)]
  refine ⟨_, rfl, ?_, ?_⟩
  · intro k hk
    dsimp only
    by_cases hkt : k = cellIndex n ((ta : Int), (tb : Int))
    · rw [hkt, Function.update_same]; rfl
    · rw [Function.update_noteq hkt]; exact hk
  · unfold cellWritten
    dsimp only
    rw [Function.update_same]
    rfl



theorem tdiv_two_natCast (R : Nat) : Int.tdiv (R : Int) 2 = ((R / 2 : Nat) : Int) := by
  rw [Int.tdiv_eq_ediv (by omega) (by omega)]
  omega

theorem tmod_add_natCast (i R n : Nat) :
    Int.tmod ((i : Int) + (R : Int)) (n : Int) = (((i + R) % n : Nat) : Int) := by
  rw [Int.tmod_eq_emod (by omega) (by omega)]
  push_cast
  rfl

theorem tmod_sub_natCast (j r n : Nat) (h : r ≤ j + n) :
    Int.tmod ((j : Int) - (r : Int) + (n : Int)) (n : Int) = (((j + n - r) % n : Nat) : Int) := by
  rw [Int.tmod_eq_emod (by omega) (by omega)]
  have e : (j : Int) - (r : Int) + (n : Int) = ((j + n - r : Nat) : Int) := by omega
  rw [e]
  push_cast
  rfl

/-- A loop value plus the rectangle size stays within the grid. -/
theorem step_add_le (n R i : Nat) (hRn : R ∣ n) (hi : i < n) (hRi : i % R = 0) :
    i + R ≤ n := by
  obtain ⟨q, rfl⟩ := hRn
  obtain ⟨a, rfl⟩ := Nat.dvd_of_mod_eq_zero hRi
  have hR : 0 < R := by
    rcases Nat.eq_zero_or_pos R with h | h
    · subst h; simp at hi
    · exact h
  have haq : a < q := Nat.lt_of_mul_lt_mul_left hi
  have : R * (a + 1) ≤ R * q := Nat.mul_le_mul_left _ haq
  have e : R * (a + 1) = R * a + R := by ring
  omega

/-- The wrapped next corner is again a loop value. -/
theorem step_next (n R i : Nat) (hRn : R ∣ n) (hi : i < n) (hRi : i % R = 0) :
    (i + R) % n < n ∧ ((i + R) % n) % R = 0 := by
  have hle := step_add_le n R i hRn hi hRi
  refine ⟨Nat.mod_lt _ (by omega), ?_⟩
  rcases Nat.lt_or_ge (i + R) n with hlt | hge
  · rw [Nat.mod_eq_of_lt hlt, Nat.add_mod, hRi]
    simp
  · have : i + R = n := by omega
    rw [this, Nat.mod_self, Nat.zero_mod]

/-- The wrapped previous midpoint `pmi` is the midpoint of some rectangle. -/
theorem step_prev (n R j : Nat) (hRn : R ∣ n) (hj : j < n) (hRj : j % R = 0)
    (hpar : R = 1 ∨ R % 2 = 0) :
    ∃ j', j' < n ∧ j' % R = 0 ∧ (j + n - R / 2) % n = j' + R / 2 := by
  rcases hpar with h1 | h2
  · subst h1
    refine ⟨j, hj, Nat.mod_one _, ?_⟩
    simp [Nat.mod_eq_of_lt hj]
  · have hle := step_add_le n R j hRn hj hRj
    have hR : 0 < R := by
      rcases Nat.eq_zero_or_pos R with h | h
      · subst h; simp at hRj; omega
      · exact h
    rcases Nat.lt_or_ge j R with hlt | hge
    · have hj0 : j = 0 := by
        have := Nat.mod_eq_of_lt hlt
        omega
      subst hj0
      refine ⟨n - R, by omega, ?_, ?_⟩
      · obtain ⟨q, rfl⟩ := hRn
        have hq : 0 < q := Nat.pos_of_mul_pos_left (by omega : 0 < R * q)
        have e : R * q - R = R * (q - 1) := by
          rw [Nat.mul_sub, Nat.mul_one]
        rw [e, Nat.mul_mod_right]
      · rw [Nat.mod_eq_of_lt (by omega)]
        omega
    · refine ⟨j - R, by omega, ?_, ?_⟩
      · obtain ⟨a, rfl⟩ := Nat.dvd_of_mod_eq_zero hRj
        have ha : 0 < a := by
          rcases Nat.eq_zero_or_pos a with h | h
          · subst h; simp at hge; omega
          · exact h
        have e : R * a - R = R * (a - 1) := by
          rw [Nat.mul_sub, Nat.mul_one]
        rw [e, Nat.mul_mod_right]
      · have e : j + n - R / 2 = (j - R + R / 2) + n := by omega
        rw [e, Nat.add_mod_right, Nat.mod_eq_of_lt (by omega)]

theorem mem_loopSteps (n R i : Nat) : i ∈ loopSteps n R ↔ i < n ∧ i % R = 0 := by
  simp [loopSteps]


theorem gridWritten_upClosed (n R : Nat) : UpClosed (gridWritten n R) :=
  fun _ _ hm h a b ha hb hRa hRb => hm _ (h a b ha hb hRa hRb)

theorem offsetWritten_upClosed (n R da db : Nat) : UpClosed (offsetWritten n R da db) :=
  fun _ _ hm h a b ha hb hRa hRb => hm _ (h a b ha hb hRa hRb)

theorem diamondCorners_natCast (n R i j : Nat) :
    diamondCorners n R i j
      = [((i : Int), (j : Int)), ((((i + R) % n : Nat) : Int), (j : Int)),
          ((i : Int), (((j + R) % n : Nat) : Int)),
          ((((i + R) % n : Nat) : Int), (((j + R) % n : Nat) : Int))] := by
  simp only [diamondCorners, tmod_add_natCast]

theorem rectCenter_natCast (R i j : Nat) :
    rectCenter R i j = (((i + R / 2 : Nat) : Int), ((j + R / 2 : Nat) : Int)) := by
  simp only [rectCenter, tdiv_two_natCast, Nat.cast_add]

theorem squareTopCells_natCast (n R i j : Nat) (h : R / 2 ≤ j + n) :
    squareTopCells n R i j
      = [((i : Int), (j : Int)), ((((i + R) % n : Nat) : Int), (j : Int)),
          (((i + R / 2 : Nat) : Int), (((j + n - R / 2) % n : Nat) : Int)),
          (((i + R / 2 : Nat) : Int), ((j + R / 2 : Nat) : Int))] := by
  simp only [squareTopCells, tmod_add_natCast, tdiv_two_natCast, tmod_sub_natCast _ _ _ h,
    Nat.cast_add]

theorem squareLeftCells_natCast (n R i j : Nat) (h : R / 2 ≤ i + n) :
    squareLeftCells n R i j
      = [((i : Int), (j : Int)), ((i : Int), (((j + R) % n : Nat) : Int)),
          ((((i + n - R / 2) % n : Nat) : Int), ((j + R / 2 : Nat) : Int)),
          (((i + R / 2 : Nat) : Int), ((j + R / 2 : Nat) : Int))] := by
  simp only [squareLeftCells, tmod_add_natCast, tdiv_two_natCast, tmod_sub_natCast _ _ _ h,
    Nat.cast_add]

/-- The diamond step succeeds on a buffer whose rectangle corners are written, and
writes every rectangle midpoint. -/
theorem diamondStep_ok (RangedRandom : Nat → ℚ → ℚ → ℚ) (n R : Nat) (fHeight : ℚ)
    (hRn : R ∣ n) (hR : 0 < R) (st : RawBuf × Nat) (hG : gridWritten n R st.1) :
    ∃ st', diamondStep RangedRandom n R fHeight st = some st'
      ∧ WrittenMono st.1 st'.1 ∧ offsetWritten n R (R / 2) (R / 2) st'.1 := by
  have hhalf : R / 2 < R := Nat.div_lt_self hR (by decide)
  obtain ⟨st', h1, h2, h3⟩ := foldlM_written
    (fun sti i => (loopSteps n R).foldlM (fun stj j =>
      displaceCell RangedRandom n fHeight (diamondCorners n R i j) (rectCenter R i j) stj) sti)
    (gridWritten n R)
    (fun i buf => ∀ j ∈ loopSteps n R, cellWritten n buf (i + R / 2) (j + R / 2))
    (gridWritten_upClosed n R)
    (fun i b b' hm h j hj => hm _ (h j hj))
    (loopSteps n R)
    (by
      intro sti i hi hI
      obtain ⟨hin, hiR⟩ := (mem_loopSteps n R i).mp hi
      exact foldlM_written
        (fun stj j => displaceCell RangedRandom n fHeight (diamondCorners n R i j)
          (rectCenter R i j) stj)
        (gridWritten n R)
        (fun j buf => cellWritten n buf (i + R / 2) (j + R / 2))
        (gridWritten_upClosed n R)
        (fun j => cellWritten_upClosed n _ _)
        (loopSteps n R)
        (by
          intro stj j hj hIj
          obtain ⟨hjn, hjR⟩ := (mem_loopSteps n R j).mp hj
          obtain ⟨ni1, ni2⟩ := step_next n R i hRn hin hiR
          obtain ⟨nj1, nj2⟩ := step_next n R j hRn hjn hjR
          have hile := step_add_le n R i hRn hin hiR
          have hjle := step_add_le n R j hRn hjn hjR
          show ∃ st', displaceCell RangedRandom n fHeight (diamondCorners n R i j)
              (rectCenter R i j) stj = some st'
            ∧ WrittenMono stj.1 st'.1 ∧ cellWritten n st'.1 (i + R / 2) (j + R / 2)
          rw [diamondCorners_natCast, rectCenter_natCast]
          exact displaceCell_ok RangedRandom n fHeight stj _ _ _ _ _ _ _ _ _ _
            ⟨hin, hjn, hIj i j hin hjn hiR hjR⟩
            ⟨ni1, hjn, hIj _ j ni1 hjn ni2 hjR⟩
            ⟨hin, nj1, hIj i _ hin nj1 hiR nj2⟩
            ⟨ni1, nj1, hIj _ _ ni1 nj1 ni2 nj2⟩
            ⟨by omega, by omega⟩)
        sti hI)
    st hG
  refine ⟨st', h1, h2, ?_⟩
  intro a b ha hb hRa hRb
  exact h3 a ((mem_loopSteps n R a).mpr ⟨ha, hRa⟩) b ((mem_loopSteps n R b).mpr ⟨hb, hRb⟩)

/-- The square step succeeds on a buffer whose rectangle corners and midpoints are
written, and writes every top-edge and left-edge midpoint. -/
theorem squareStep_ok (RangedRandom : Nat → ℚ → ℚ → ℚ) (n R : Nat) (fHeight : ℚ)
    (hRn : R ∣ n) (hR : 0 < R) (hpar : R = 1 ∨ R % 2 = 0) (st : RawBuf × Nat)
    (hG : gridWritten n R st.1) (hC : offsetWritten n R (R / 2) (R / 2) st.1) :
    ∃ st', squareStep RangedRandom n R fHeight st = some st'
      ∧ WrittenMono st.1 st'.1 ∧ offsetWritten n R (R / 2) 0 st'.1
      ∧ offsetWritten n R 0 (R / 2) st'.1 := by
  have hhalf : R / 2 < R := Nat.div_lt_self hR (by decide)
  obtain ⟨st', h1, h2, h3⟩ := foldlM_written
    (fun sti i => (loopSteps n R).foldlM (fun stj j =>
      squareCell RangedRandom n R fHeight i j stj) sti)
    (fun buf => gridWritten n R buf ∧ offsetWritten n R (R / 2) (R / 2) buf)
    (fun i buf => ∀ j ∈ loopSteps n R,
      cellWritten n buf (i + R / 2) (j + 0) ∧ cellWritten n buf (i + 0) (j + R / 2))
    (fun b b' hm h => ⟨gridWritten_upClosed n R b b' hm h.1,
      offsetWritten_upClosed n R _ _ b b' hm h.2⟩)
    (fun i b b' hm h j hj => ⟨hm _ (h j hj).1, hm _ (h j hj).2⟩)
    (loopSteps n R)
    (by
      intro sti i hi hI
      obtain ⟨hin, hiR⟩ := (mem_loopSteps n R i).mp hi
      exact foldlM_written
        (fun stj j => squareCell RangedRandom n R fHeight i j stj)
        (fun buf => gridWritten n R buf ∧ offsetWritten n R (R / 2) (R / 2) buf)
        (fun j buf =>
          cellWritten n buf (i + R / 2) (j + 0) ∧ cellWritten n buf (i + 0) (j + R / 2))
        (fun b b' hm h => ⟨gridWritten_upClosed n R b b' hm h.1,
          offsetWritten_upClosed n R _ _ b b' hm h.2⟩)
        (fun j b b' hm h => ⟨hm _ h.1, hm _ h.2⟩)
        (loopSteps n R)
        (by
          intro stj j hj hIj
          obtain ⟨hGj, hCj⟩ := hIj
          obtain ⟨hjn, hjR⟩ := (mem_loopSteps n R j).mp hj
          obtain ⟨ni1, ni2⟩ := step_next n R i hRn hin hiR
          obtain ⟨nj1, nj2⟩ := step_next n R j hRn hjn hjR
          obtain ⟨pi, pi1, pi2, pi3⟩ := step_prev n R i hRn hin hiR hpar
          obtain ⟨pj, pj1, pj2, pj3⟩ := step_prev n R j hRn hjn hjR hpar
          have hile := step_add_le n R i hRn hin hiR
          have hjle := step_add_le n R j hRn hjn hjR
          have hpile := step_add_le n R pi hRn pi1 pi2
          have hpjle := step_add_le n R pj hRn pj1 pj2
          obtain ⟨st1, e1, m1, w1⟩ := displaceCell_ok RangedRandom n fHeight stj
            i j ((i + R) % n) j (i + R / 2) ((j + n - R / 2) % n) (i + R / 2) (j + R / 2)
            (i + R / 2) j
            ⟨hin, hjn, hGj i j hin hjn hiR hjR⟩
            ⟨ni1, hjn, hGj _ j ni1 hjn ni2 hjR⟩
            ⟨by omega, by omega, by rw [pj3]; exact hCj i pj hin pj1 hiR pj2⟩
            ⟨by omega, by omega, hCj i j hin hjn hiR hjR⟩
            ⟨by omega, hjn⟩
          obtain ⟨st2, e2, m2, w2⟩ := displaceCell_ok RangedRandom n fHeight st1
            i j i ((j + R) % n) ((i + n - R / 2) % n) (j + R / 2) (i + R / 2) (j + R / 2)
            i (j + R / 2)
            ⟨hin, hjn, m1 _ (hGj i j hin hjn hiR hjR)⟩
            ⟨hin, nj1, m1 _ (hGj i _ hin nj1 hiR nj2)⟩
            ⟨by omega, by omega, by rw [pi3]; exact m1 _ (hCj pi j pi1 hjn pi2 hjR)⟩
            ⟨by omega, by omega, m1 _ (hCj i j hin hjn hiR hjR)⟩
            ⟨hin, by omega⟩
          refine ⟨st2, ?_, m1.trans m2, ?_, ?_⟩
          · show squareCell RangedRandom n R fHeight i j stj = some st2
            unfold squareCell
            rw [squareTopCells_natCast n R i j (by omega),
              squareLeftCells_natCast n R i j (by omega), rectCenter_natCast]
            simp only [e1, e2]
          · exact m2 _ w1
          · exact w2)
        sti hI)
    st ⟨hG, hC⟩
  refine ⟨st', h1, h2, ?_, ?_⟩
  · intro a b ha hb hRa hRb
    exact (h3 a ((mem_loopSteps n R a).mpr ⟨ha, hRa⟩) b
      ((mem_loopSteps n R b).mpr ⟨hb, hRb⟩)).1
  · intro a b ha hb hRa hRb
    exact (h3 a ((mem_loopSteps n R a).mpr ⟨ha, hRa⟩) b
      ((mem_loopSteps n R b).mpr ⟨hb, hRb⟩)).2

theorem half_step (r a : Nat) (ha : a % r = 0) :
    a % (2 * r) = 0 ∨ (r ≤ a ∧ (a - r) % (2 * r) = 0) := by
  obtain ⟨c, rfl⟩ := Nat.dvd_of_mod_eq_zero ha
  rcases Nat.even_or_odd' c with ⟨d, hd | hd⟩
  · left
    subst hd
    have e : r * (2 * d) = 2 * r * d := by ring
    rw [e, Nat.mul_mod_right]
  · right
    subst hd
    have e1 : r * (2 * d + 1) = 2 * r * d + r := by ring
    constructor
    · rw [e1]; omega
    · rw [e1, Nat.add_sub_cancel, Nat.mul_mod_right]

/-- After a level with rectangle size `2*r` the cells on the grid of spacing `r` are
written. -/
theorem gridWritten_half (n r : Nat) (buf : RawBuf)
    (hG : gridWritten n (2 * r) buf) (hC : offsetWritten n (2 * r) r r buf)
    (hT : offsetWritten n (2 * r) r 0 buf) (hL : offsetWritten n (2 * r) 0 r buf) :
    gridWritten n r buf := by
  intro a b ha hb hra hrb
  rcases half_step r a hra with ha0 | ⟨ha1, ha2⟩ <;>
    rcases half_step r b hrb with hb0 | ⟨hb1, hb2⟩
  · exact hG a b ha hb ha0 hb0
  · have := hL a (b - r) ha (by omega) ha0 hb2
    rw [Nat.sub_add_cancel hb1] at this
    exact this
  · have := hT (a - r) b (by omega) hb ha2 hb0
    rw [Nat.sub_add_cancel ha1] at this
    exact this
  · have := hC (a - r) (b - r) (by omega) (by omega) ha2 hb2
    rw [Nat.sub_add_cancel ha1, Nat.sub_add_cancel hb1] at this
    exact this

/-- One pass of the displacement loop (diamond step, then square step). -/
theorem plasmaLevel_ok (RangedRandom : Nat → ℚ → ℚ → ℚ) (n R : Nat) (fHeight : ℚ)
    (hRn : R ∣ n) (hR : 0 < R) (hpar : R = 1 ∨ R % 2 = 0) (st : RawBuf × Nat)
    (hG : gridWritten n R st.1) :
    ∃ st1 st2, diamondStep RangedRandom n R fHeight st = some st1
      ∧ squareStep RangedRandom n R fHeight st1 = some st2
      ∧ gridWritten n R st2.1 ∧ offsetWritten n R (R / 2) (R / 2) st2.1
      ∧ offsetWritten n R (R / 2) 0 st2.1 ∧ offsetWritten n R 0 (R / 2) st2.1 := by
  obtain ⟨st1, e1, m1, c1⟩ := diamondStep_ok RangedRandom n R fHeight hRn hR st hG
  obtain ⟨st2, e2, m2, t2, l2⟩ := squareStep_ok RangedRandom n R fHeight hRn hR hpar st1
    (gridWritten_upClosed n R _ _ m1 hG) c1
  exact ⟨st1, st2, e1, e2, gridWritten_upClosed n R _ _ (m1.trans m2) hG,
    offsetWritten_upClosed n R _ _ _ _ m2 c1, t2, l2⟩

/-- The displacement loop started at rectangle size `2^k` on a buffer whose cells of
spacing `2^k` are written terminates within `k + 2` units of fuel with every cell
written. -/
theorem plasmaLoop_ok (RangedRandom : Nat → ℚ → ℚ → ℚ) (n : Nat) (fHeightReducer : ℚ) :
    ∀ (k fuel : Nat) (fHeight : ℚ) (st : RawBuf × Nat), 2 ^ k ∣ n → k + 2 ≤ fuel →
      gridWritten n (2 ^ k) st.1 →
      ∃ st', plasmaLoop RangedRandom n fHeightReducer fuel (2 ^ k) fHeight st = some st'
        ∧ gridWritten n 1 st'.1 := by
  intro k
  induction k with
  | zero =>
    intro fuel fHeight st hdvd hfuel hG
    obtain ⟨st1, st2, e1, e2, g2, -, -, -⟩ := plasmaLevel_ok RangedRandom n (2 ^ 0) fHeight hdvd
      (by decide) (Or.inl rfl) st hG
    obtain ⟨f, rfl⟩ : ∃ f, fuel = f + 2 := ⟨fuel - 2, by omega⟩
    refine ⟨st2, ?_, g2⟩
    rw [plasmaLoop, if_pos (by decide)]
    simp only [e1, e2]
    rw [plasmaLoop, if_neg (by decide)]
  | succ k ih =>
    intro fuel fHeight st hdvd hfuel hG
    have hpos : 0 < 2 ^ (k + 1) := Nat.two_pow_pos _
    have hhalf : 2 ^ (k + 1) / 2 = 2 ^ k := by
      rw [Nat.pow_succ, Nat.mul_div_cancel _ (by decide)]
    have hmod : 2 ^ (k + 1) % 2 = 0 := by
      rw [Nat.pow_succ, Nat.mul_mod_left]
    have htwo : 2 ^ (k + 1) = 2 * 2 ^ k := by rw [Nat.pow_succ, Nat.mul_comm]
    obtain ⟨st1, st2, e1, e2, g2, c2, t2, l2⟩ := plasmaLevel_ok RangedRandom n (2 ^ (k + 1))
      fHeight hdvd hpos (Or.inr hmod) st hG
    rw [hhalf] at c2 t2 l2
    rw [htwo] at g2 c2 t2 l2
    have hG2 := gridWritten_half n (2 ^ k) st2.1 g2 c2 t2 l2
    obtain ⟨f, rfl⟩ : ∃ f, fuel = f + 1 := ⟨fuel - 1, by omega⟩
    have hdvd' : 2 ^ k ∣ n := Dvd.dvd.trans ⟨2, by rw [Nat.pow_succ]⟩ hdvd
    obtain ⟨st', e', g'⟩ := ih f (fHeight * fHeightReducer) st2 hdvd' (by omega) hG2
    refine ⟨st', ?_, g'⟩
    rw [plasmaLoop, if_pos hpos]
    simp only [e1, e2, hhalf]
    exact e'

theorem roughness_abs_neg (r : ℚ) :
    (if -r < 0 then -r * -1 else -r) = (if r < 0 then r * -1 else r) := by
  by_cases h1 : r < 0
  · rw [if_pos h1, if_neg (by linarith)]
    ring
  · by_cases h2 : -r < 0
    · rw [if_pos h2, if_neg h1]
      ring
    · rw [if_neg h2, if_neg h1]
      linarith

theorem plasmaDisplacement_neg (pow2 : ℚ → ℚ) (RangedRandom : Nat → ℚ → ℚ → ℚ)
    (fuel iSize : Nat) (fRoughness : ℚ) :
    plasmaDisplacement pow2 RangedRandom fuel iSize (-fRoughness)
      = plasmaDisplacement pow2 RangedRandom fuel iSize fRoughness := by
  unfold plasmaDisplacement
  simp only [roughness_abs_neg]

/-- For a power-of-two size and enough fuel the displacement returns a buffer all of
whose cells are written. -/
theorem plasmaDisplacement_ok (pow2 : ℚ → ℚ) (RangedRandom : Nat → ℚ → ℚ → ℚ)
    (m fuel : Nat) (fRoughness : ℚ) (hfuel : m + 2 ≤ fuel) :
    ∃ buf, plasmaDisplacement pow2 RangedRandom fuel (2 ^ m) fRoughness = some buf
      ∧ ∀ i : Nat, i < 2 ^ m * 2 ^ m → (buf (i : Int)).isSome = true := by
  have hn : 0 < 2 ^ m := Nat.two_pow_pos _
  have h0 : (0 : Int) ≤ 0 ∧ (0 : Int) < ((2 ^ m * 2 ^ m : Nat) : Int) := by
    have : 0 < 2 ^ m * 2 ^ m := Nat.mul_pos hn hn
    omega
  have hG0 : gridWritten (2 ^ m) (2 ^ m)
      ((Function.update (fun _ => none) 0 (some 0) : RawBuf), 0).1 := by
    intro a b ha hb hRa hRb
    have ha0 : a = 0 := by
      have := Nat.mod_eq_of_lt ha
      omega
    have hb0 : b = 0 := by
      have := Nat.mod_eq_of_lt hb
      omega
    subst ha0
    subst hb0
    have e : cellIndex (2 ^ m) (((0 : Nat) : Int), ((0 : Nat) : Int)) = 0 := by
      simp [cellIndex]
    unfold cellWritten
    rw [e]
    dsimp only
    rw [Function.update_same]
    rfl
  obtain ⟨st', e', g'⟩ := plasmaLoop_ok RangedRandom (2 ^ m)
    (pow2 (-1 * (if fRoughness < 0 then fRoughness * -1 else fRoughness))) m fuel
    (((2 ^ m : Nat) : ℚ) / 2) _ (dvd_refl _) hfuel hG0
  refine ⟨st'.1, ?_, ?_⟩
  · unfold plasmaDisplacement
    simp only [writeCell, if_pos h0, e', Option.map_some']
  · intro i hi
    have ha : i % 2 ^ m < 2 ^ m := Nat.mod_lt _ hn
    have hb : i / 2 ^ m < 2 ^ m := Nat.div_lt_of_lt_mul hi
    have hw := g' (i % 2 ^ m) (i / 2 ^ m) ha hb (Nat.mod_one _) (Nat.mod_one _)
    unfold cellWritten at hw
    rw [cellIndex_natCell] at hw
    have e : i % 2 ^ m + i / 2 ^ m * 2 ^ m = i := by
      rw [Nat.mul_comm]
      exact Nat.mod_add_div i (2 ^ m)
    rw [e] at hw
    exact hw

theorem initializedBuffer_of_written (n : Nat) (buf : RawBuf)
    (h : ∀ i : Nat, i < n * n → (buf (i : Int)).isSome = true) :
    initializedBuffer n buf = some (fun i => (buf i).getD 0) := by
  unfold initializedBuffer
  rw [if_pos]
  rw [List.all_eq_true]
  intro i hi
  exact h i (List.mem_range.mp hi)

theorem loopSteps_self (n : Nat) (hn : 1 ≤ n) : loopSteps n n = [0] := by
  obtain ⟨k, rfl⟩ : ∃ k, n = k + 1 := ⟨n - 1, by omega⟩
  unfold loopSteps
  rw [List.range_succ_eq_map, List.filter_cons]
  simp only [Nat.zero_mod, decide_True, if_true]
  congr 1
  rw [List.filter_eq_nil_iff]
  intro a ha
  obtain ⟨b, hb, rfl⟩ := List.mem_map.mp ha
  have hlt : b + 1 < k + 1 := by
    have := List.mem_range.mp hb
    omega
  simp [Nat.mod_eq_of_lt hlt]

/-- C14: for every power-of-two size, every roughness `r` and every random stream (the
random source and the power function being explicit inputs), `MakeTerrainPlasma(size, r)`
and `MakeTerrainPlasma(size, -r)` return, and they produce the same height grid. -/
theorem MakeTerrainPlasma_roughness_sign (pow2 : ℚ → ℚ) (RangedRandom : Nat → ℚ → ℚ → ℚ)
    (m fuel : Nat) (fRoughness : ℚ) (hfuel : m + 2 ≤ fuel) :
    ∃ grid, MakeTerrainPlasma pow2 RangedRandom fuel (2 ^ m) fRoughness = some grid
      ∧ MakeTerrainPlasma pow2 RangedRandom fuel (2 ^ m) (-fRoughness) = some grid := by
  obtain ⟨buf, e, hw⟩ := plasmaDisplacement_ok pow2 RangedRandom m fuel fRoughness hfuel
  have hi := initializedBuffer_of_written (2 ^ m) buf hw
  refine ⟨transferHeights (2 ^ m) (NormalizeTerrain (2 ^ m) (fun i => (buf i).getD 0)), ?_, ?_⟩
  · unfold MakeTerrainPlasma
    simp only [e, hi]
  · unfold MakeTerrainPlasma
    rw [plasmaDisplacement_neg]
    simp only [e, hi]

/-- Witness for C14: size 2, roughness 1, the sample power function and random source. -/
theorem MakeTerrainPlasma_roughness_sign_witness :
    ∃ grid, MakeTerrainPlasma samplePow2 sampleRangedRandom 3 (2 ^ 1) 1 = some grid
      ∧ MakeTerrainPlasma samplePow2 sampleRangedRandom 3 (2 ^ 1) (-1) = some grid :=
  MakeTerrainPlasma_roughness_sign samplePow2 sampleRangedRandom 1 3 1 (by decide)

/-- C15 (amended): for every size `≥ 2`, at the top recursion level of `MakeTerrainPlasma`
(rectangle size equal to the grid size) the diamond step visits the single rectangle at
`(0,0)`, its four wrapped corner cells all coincide with cell `(0,0)`, and cell
`(size-1, size-1)` is not among them. -/
theorem diamondCorners_top_level (iSize : Nat) (h : 2 ≤ iSize) :
    loopSteps iSize iSize = [0]
      ∧ diamondCorners iSize iSize 0 0 = [(0, 0), (0, 0), (0, 0), (0, 0)]
      ∧ (((iSize : Int) - 1, (iSize : Int) - 1) ∉ diamondCorners iSize iSize 0 0) := by
  have hc : diamondCorners iSize iSize 0 0 = [(0, 0), (0, 0), (0, 0), (0, 0)] := by
    rw [diamondCorners_natCast]
    simp
  refine ⟨loopSteps_self iSize (by omega), hc, ?_⟩
  rw [hc]
  intro hmem
  simp only [List.mem_cons, Prod.mk.injEq, List.mem_nil_iff, or_false, or_self] at hmem
  omega

/-- Witness for C15 (amended): size 2. -/
theorem diamondCorners_top_level_witness :
    loopSteps 2 2 = [0]
      ∧ diamondCorners 2 2 0 0 = [(0, 0), (0, 0), (0, 0), (0, 0)]
      ∧ ((((2 : Nat) : Int) - 1, ((2 : Nat) : Int) - 1) ∉ diamondCorners 2 2 0 0) :=
  diamondCorners_top_level 2 (by decide)

/-- C15 counterexample: at size 2 the top-level diamond neighbourhood does not contain
both cell `(0,0)` and cell `(1,1)`. -/
theorem diamondCorners_top_level_counterexample :
    ¬ (((0 : Int), (0 : Int)) ∈ diamondCorners 2 2 0 0
      ∧ ((1 : Int), (1 : Int)) ∈ diamondCorners 2 2 0 0) := by
  decide

/-- C20: for every power-of-two size `2^m` and every random stream, in the checked
semantics of the working buffer (a read returns a value only for an index in
`[0, size*size)` whose cell was written before; a write succeeds only for an index in
`[0, size*size)`), the displacement loop of `MakeTerrainPlasma` terminates within
`m + 2` units of fuel without a failing read or write, and when it ends every one of the
`size*size` cells has been written, so that `NormalizeTerrain` receives an initialised
buffer. -/
theorem plasmaDisplacement_safe (pow2 : ℚ → ℚ) (RangedRandom : Nat → ℚ → ℚ → ℚ)
    (m fuel : Nat) (fRoughness : ℚ) (hfuel : m + 2 ≤ fuel) :
    (∀ (buf : RawBuf) (idx : Int) (v : ℚ), readCell (2 ^ m) buf idx = some v →
        0 ≤ idx ∧ idx < ((2 ^ m * 2 ^ m : Nat) : Int) ∧ buf idx = some v)
      ∧ (∀ (buf buf' : RawBuf) (idx : Int) (v : ℚ), writeCell (2 ^ m) buf idx v = some buf' →
        0 ≤ idx ∧ idx < ((2 ^ m * 2 ^ m : Nat) : Int))
      ∧ ∃ buf, plasmaDisplacement pow2 RangedRandom fuel (2 ^ m) fRoughness = some buf
          ∧ (∀ i : Nat, i < 2 ^ m * 2 ^ m → (buf (i : Int)).isSome = true)
          ∧ initializedBuffer (2 ^ m) buf = some (fun i => (buf i).getD 0) := by
  refine ⟨?_, ?_, ?_⟩
  · intro buf idx v h
    unfold readCell at h
    by_cases hr : 0 ≤ idx ∧ idx < ((2 ^ m * 2 ^ m : Nat) : Int)
    · rw [if_pos hr] at h
      exact ⟨hr.1, hr.2, h⟩
    · rw [if_neg hr] at h
      exact absurd h (by simp)
  · intro buf buf' idx v h
    unfold writeCell at h
    by_cases hr : 0 ≤ idx ∧ idx < ((2 ^ m * 2 ^ m : Nat) : Int)
    · exact hr
    · rw [if_neg hr] at h
      exact absurd h (by simp)
  · obtain ⟨buf, e, hw⟩ := plasmaDisplacement_ok pow2 RangedRandom m fuel fRoughness hfuel
    exact ⟨buf, e, hw, initializedBuffer_of_written (2 ^ m) buf hw⟩

/-- Witness for C20: size 4 with fuel 4, the sample power function and random source. -/
theorem plasmaDisplacement_safe_witness :
    ∃ buf, plasmaDisplacement samplePow2 sampleRangedRandom 4 (2 ^ 2) 1 = some buf
      ∧ (∀ i : Nat, i < 2 ^ 2 * 2 ^ 2 → (buf (i : Int)).isSome = true)
      ∧ initializedBuffer (2 ^ 2) buf = some (fun i => (buf i).getD 0) :=
  (plasmaDisplacement_safe samplePow2 sampleRangedRandom 2 4 1 (by decide)).2.2

/-! ## Fault displacement height -/

/-- C22: for `iterations ≥ 1` and `minDelta ≤ maxDelta` (integers without overflow), the
per-pass displacement `height(k) = maxDelta - ((maxDelta-minDelta)*k) div iterations`
equals `maxDelta` at `k = 0`, is non-increasing in `k` over `0 ≤ k < iterations`, and
satisfies `minDelta ≤ height(k) ≤ maxDelta` there. -/
theorem faultHeight_monotone_bounds (iIterations iMinDelta iMaxDelta : Int)
    (hit : 1 ≤ iIterations) (hd : iMinDelta ≤ iMaxDelta) :
    faultHeight iIterations iMinDelta iMaxDelta 0 = iMaxDelta
      ∧ (∀ k k' : Nat, k ≤ k' → (k' : Int) < iIterations →
          faultHeight iIterations iMinDelta iMaxDelta k'
            ≤ faultHeight iIterations iMinDelta iMaxDelta k)
      ∧ (∀ k : Nat, (k : Int) < iIterations →
          iMinDelta ≤ faultHeight iIterations iMinDelta iMaxDelta k
            ∧ faultHeight iIterations iMinDelta iMaxDelta k ≤ iMaxDelta) := by
  have hD : 0 ≤ iMaxDelta - iMinDelta := by omega
  have hpos : 0 < iIterations := by omega
  have htd : ∀ k : Nat, Int.tdiv ((iMaxDelta - iMinDelta) * (k : Int)) iIterations
      = ((iMaxDelta - iMinDelta) * (k : Int)) / iIterations := by
    intro k
    exact Int.tdiv_eq_ediv (mul_nonneg hD (by omega)) (by omega)
  refine ⟨?_, ?_, ?_⟩
  · unfold faultHeight
    simp
  · intro k k' hk _
    unfold faultHeight
    rw [htd, htd]
    have hkk : (k : Int) ≤ (k' : Int) := by exact_mod_cast hk
    have hle : (iMaxDelta - iMinDelta) * (k : Int) ≤ (iMaxDelta - iMinDelta) * (k' : Int) :=
      mul_le_mul_of_nonneg_left hkk hD
    have := Int.ediv_le_ediv hpos hle
    omega
  · intro k hk
    unfold faultHeight
    rw [htd]
    have h0 : 0 ≤ ((iMaxDelta - iMinDelta) * (k : Int)) / iIterations :=
      Int.ediv_nonneg (mul_nonneg hD (by omega)) (by omega)
    have hle : (iMaxDelta - iMinDelta) * (k : Int) ≤ (iMaxDelta - iMinDelta) * iIterations :=
      mul_le_mul_of_nonneg_left (by omega) hD
    have h1 : ((iMaxDelta - iMinDelta) * (k : Int)) / iIterations ≤ iMaxDelta - iMinDelta :=
      Int.ediv_le_of_le_mul hpos hle
    constructor <;> omega

/-- Witness for C22: 50 iterations from 60 down to 10. -/
theorem faultHeight_monotone_bounds_witness :
    faultHeight 50 10 60 0 = 60
      ∧ (∀ k k' : Nat, k ≤ k' → (k' : Int) < 50 →
          faultHeight 50 10 60 k' ≤ faultHeight 50 10 60 k)
      ∧ (∀ k : Nat, (k : Int) < 50 →
          10 ≤ faultHeight 50 10 60 k ∧ faultHeight 50 10 60 k ≤ 60) :=
  faultHeight_monotone_bounds 50 10 60 (by decide) (by decide)

/-! ## The special case of `RegionPercent` -/

/-- C21: for every combination of loaded flags, every tile index `t`, every height `h` and
every region table, the `if / else if` cascade at the top of `RegionPercent` fires
exactly when the priority scan does: `t` is the lowest-indexed loaded tile and `h` is
below its optimal height.  With the regions computed by `GenerateTextureMap`, that tile's
band starts at `lowHeight = 0`, and it is the only loaded tile whose band does. -/
theorem lowestTileSpecialCase_eq_priority_scan (tiles : Nat → CIMAGE)
    (regions r0 : Nat → STRN_TEXTURE_REGIONS) (t h : Nat) :
    lowestTileSpecialCase tiles regions t h = specialCaseReference tiles regions t h
      ∧ (RegionPercent tiles regions t h = 1 ∨ specialCaseReference tiles regions t h = false)
      ∧ (∀ f, firstLoadedTile tiles = some f →
          f < TRN_NUM_TILES ∧ (tiles f).m_bIsLoaded = true
            ∧ (∀ j, j < f → (tiles j).m_bIsLoaded = false)
            ∧ (computeRegions tiles r0 f).m_iLowHeight = 0
            ∧ ∀ j, j < TRN_NUM_TILES → (tiles j).m_bIsLoaded = true →
                (computeRegions tiles r0 j).m_iLowHeight = 0 → j = f) := by
  have hcase : lowestTileSpecialCase tiles regions t h = specialCaseReference tiles regions t h := by
    cases h0 : (tiles 0).m_bIsLoaded <;> cases h1 : (tiles 1).m_bIsLoaded <;>
      cases h2 : (tiles 2).m_bIsLoaded <;> cases h3 : (tiles 3).m_bIsLoaded <;>
      simp [lowestTileSpecialCase, specialCaseReference, firstLoadedTile, range_tiles,
        List.find?, h0, h1, h2, h3, LOWEST_TILE, LOW_TILE, HIGH_TILE, HIGHEST_TILE]
  refine ⟨hcase, ?_, ?_⟩
  · cases hs : specialCaseReference tiles regions t h with
    | false => exact Or.inr rfl
    | true =>
      left
      unfold RegionPercent
      rw [hcase, hs]
      rfl
  · intro f hf
    have hfacts : f < 4 ∧ (tiles f).m_bIsLoaded = true
        ∧ (∀ j, j < f → (tiles j).m_bIsLoaded = false) ∧ tileRank tiles f = 0 := by
      cases h0 : (tiles 0).m_bIsLoaded <;> cases h1 : (tiles 1).m_bIsLoaded <;>
        cases h2 : (tiles 2).m_bIsLoaded <;> cases h3 : (tiles 3).m_bIsLoaded <;>
        simp [firstLoadedTile, range_tiles, List.find?, h0, h1, h2, h3] at hf <;>
        subst hf <;>
        refine ⟨by decide, by assumption, ?_, by simp [tileRank, List.range_succ, h0, h1, h2]⟩ <;>
        intro j hj <;> interval_cases j <;> assumption
    obtain ⟨hf4, hfl, hbelow, hrank⟩ := hfacts
    obtain ⟨e, -, -, -⟩ := computeRegions_eq_bandOf tiles r0 f hf4 hfl
    refine ⟨hf4, hfl, hbelow, ?_, ?_⟩
    · rw [e, hrank]
      simp [bandOf]
    · intro j hj hlj hlow
      have hj4 : j < 4 := hj
      obtain ⟨ej, hk0, hkn, hn⟩ := computeRegions_eq_bandOf tiles r0 j hj4 hlj
      rw [ej] at hlow
      have hjr : tileRank tiles j = 0 := by
        have hw : 0 < Int.tdiv 255 (countTiles tiles) := by
          obtain ⟨-, f2, -⟩ := bandOf_facts _ _ hk0 hkn hn
          obtain ⟨-, s2⟩ := bandOf_symm (countTiles tiles) (tileRank tiles j)
          omega
        simp only [bandOf] at hlow
        rcases mul_eq_zero.mp hlow with h | h
        · exact h
        · omega
      by_contra hne
      rcases Nat.lt_or_gt_of_ne hne with hlt | hgt
      · have := hbelow j hlt
        rw [this] at hlj
        exact absurd hlj (by decide)
      · have := tileRank_lt_of_later tiles f j hgt hj4 hfl hlj
        have hpos : 0 ≤ tileRank tiles f := by omega
        have hmono : tileRank tiles f < tileRank tiles j := by
          clear this
          cases h0 : (tiles 0).m_bIsLoaded <;> cases h1 : (tiles 1).m_bIsLoaded <;>
            cases h2 : (tiles 2).m_bIsLoaded <;> cases h3 : (tiles 3).m_bIsLoaded <;>
            interval_cases j <;> interval_cases f <;>
            simp_all [tileRank, List.range_succ]
        omega

/-- Witness for C21: with only `HIGH_TILE` loaded, the scan stops at slot 2, the cascade
agrees with it, and that slot's computed band starts at 0. -/
theorem lowestTileSpecialCase_eq_priority_scan_witness :
    firstLoadedTile oneTile = some 2
      ∧ lowestTileSpecialCase oneTile (computeRegions oneTile zeroRegions) 2 7
          = specialCaseReference oneTile (computeRegions oneTile zeroRegions) 2 7
      ∧ (computeRegions oneTile zeroRegions 2).m_iLowHeight = 0 :=
  ⟨by decide,
    (lowestTileSpecialCase_eq_priority_scan oneTile (computeRegions oneTile zeroRegions)
      zeroRegions 2 7).1,
    ((lowestTileSpecialCase_eq_priority_scan oneTile (computeRegions oneTile zeroRegions)
      zeroRegions 2 7).2.2 2 (by decide)).2.2.2.1⟩



/-! ## `FilterHeightField` -/

/-- Cell-wise description of one band pass (stride other than 0, at least one sample). -/
theorem FilterHeightBand_cells (buf : FloatBuf) (fpBand iStride : Int) (iCount : Nat)
    (fFilter : ℚ) (hcount : 1 ≤ iCount) (hstride : iStride ≠ 0) :
    FilterHeightBand buf fpBand iStride iCount fFilter fpBand = buf fpBand
      ∧ (∀ i : Nat, i + 1 < iCount →
          FilterHeightBand buf fpBand iStride iCount fFilter
              (fpBand + ((i + 1 : Nat) : Int) * iStride)
            = fFilter * FilterHeightBand buf fpBand iStride iCount fFilter
                (fpBand + (i : Int) * iStride)
              + (1 - fFilter) * buf (fpBand + ((i + 1 : Nat) : Int) * iStride))
      ∧ (∀ k : Int, (∀ i : Nat, i < iCount → k ≠ fpBand + (i : Int) * iStride) →
          FilterHeightBand buf fpBand iStride iCount fFilter k = buf k) := by
  obtain ⟨-, -, hrec, hout⟩ := filterBand_fold_spec buf fpBand iStride fFilter hstride
    (iCount - 1)
  unfold FilterHeightBand
  refine ⟨?_, ?_, ?_⟩
  · apply hout
    intro i h1 h2 hc
    have h3 : (i : Int) * iStride = 0 := by linarith
    rcases mul_eq_zero.mp h3 with h | h
    · omega
    · exact hstride h
  · intro i hi
    have := hrec (i + 1) (by omega) (by omega)
    have e : ((i + 1 : Nat) : Int) - 1 = (i : Int) := by push_cast; ring
    rw [e] at this
    exact this
  · intro k hk
    exact hout k (fun i _ h2 => hk i (by omega))

/-- At strength 1 a band pass copies the first sample to the whole band. -/
theorem FilterHeightBand_one (buf : FloatBuf) (fpBand iStride : Int) (iCount : Nat)
    (hcount : 1 ≤ iCount) (hstride : iStride ≠ 0) :
    ∀ i : Nat, i < iCount →
      FilterHeightBand buf fpBand iStride iCount 1 (fpBand + (i : Int) * iStride)
        = buf fpBand := by
  obtain ⟨h0, hrec, -⟩ := FilterHeightBand_cells buf fpBand iStride iCount 1 hcount hstride
  intro i
  induction i with
  | zero =>
    intro _
    have e : fpBand + ((0 : Nat) : Int) * iStride = fpBand := by simp
    rw [e]
    exact h0
  | succ i ih =>
    intro hi
    rw [hrec i hi, ih (by omega)]
    ring

/-- At a strength in `[0,1]` a band pass keeps the band inside any interval that
contains its samples. -/
theorem FilterHeightBand_bounds (buf : FloatBuf) (fpBand iStride : Int) (iCount : Nat)
    (fFilter lo hi : ℚ) (hcount : 1 ≤ iCount) (hstride : iStride ≠ 0)
    (hf0 : 0 ≤ fFilter) (hf1 : fFilter ≤ 1)
    (hb : ∀ i : Nat, i < iCount →
      lo ≤ buf (fpBand + (i : Int) * iStride) ∧ buf (fpBand + (i : Int) * iStride) ≤ hi) :
    ∀ i : Nat, i < iCount →
      lo ≤ FilterHeightBand buf fpBand iStride iCount fFilter (fpBand + (i : Int) * iStride)
        ∧ FilterHeightBand buf fpBand iStride iCount fFilter (fpBand + (i : Int) * iStride)
          ≤ hi := by
  obtain ⟨h0, hrec, -⟩ := FilterHeightBand_cells buf fpBand iStride iCount fFilter hcount
    hstride
  intro i
  induction i with
  | zero =>
    intro hi0
    have e : fpBand + ((0 : Nat) : Int) * iStride = fpBand := by simp
    have := hb 0 hi0
    rw [e] at this ⊢
    rw [h0]
    exact this
  | succ i ih =>
    intro hi1
    obtain ⟨p1, p2⟩ := ih (by omega)
    obtain ⟨q1, q2⟩ := hb (i + 1) hi1
    rw [hrec i hi1]
    have hg : 0 ≤ 1 - fFilter := by linarith
    constructor
    · have a1 := mul_le_mul_of_nonneg_left p1 hf0
      have a2 := mul_le_mul_of_nonneg_left q1 hg
      linarith
    · have a1 := mul_le_mul_of_nonneg_left p2 hf0
      have a2 := mul_le_mul_of_nonneg_left q2 hg
      linarith

/-- A pass of band filters over bands that lie inside the grid keeps the grid samples in
any interval that contains them and leaves the cells outside the grid unchanged. -/
theorem bandPass_bounds (n : Nat) (base : Nat → Int) (iStride : Int) (iCount : Nat)
    (fFilter lo hi : ℚ) (hcount : 1 ≤ iCount) (hstride : iStride ≠ 0)
    (hf0 : 0 ≤ fFilter) (hf1 : fFilter ≤ 1) (m : Nat)
    (hin : ∀ i k : Nat, i < m → k < iCount →
      0 ≤ base i + (k : Int) * iStride ∧ base i + (k : Int) * iStride < (n : Int))
    (buf : FloatBuf)
    (hb : ∀ idx : Int, 0 ≤ idx → idx < (n : Int) → lo ≤ buf idx ∧ buf idx ≤ hi) :
    (∀ idx : Int, 0 ≤ idx → idx < (n : Int) →
        lo ≤ (List.range m).foldl (fun b (i : Nat) =>
            FilterHeightBand b (base i) iStride iCount fFilter) buf idx
          ∧ (List.range m).foldl (fun b (i : Nat) =>
            FilterHeightBand b (base i) iStride iCount fFilter) buf idx ≤ hi)
      ∧ (∀ idx : Int, ¬ (0 ≤ idx ∧ idx < (n : Int)) →
        (List.range m).foldl (fun b (i : Nat) =>
            FilterHeightBand b (base i) iStride iCount fFilter) buf idx = buf idx) := by
  induction m with
  | zero => exact ⟨fun idx h0 h1 => hb idx h0 h1, fun idx _ => rfl⟩
  | succ m ih =>
    obtain ⟨ih1, ih2⟩ := ih (fun i k hi hk => hin i k (by omega) hk)
    rw [List.range_succ, List.foldl_append]
    simp only [List.foldl_cons, List.foldl_nil]
    generalize (List.range m).foldl (fun b (i : Nat) =>
      FilterHeightBand b (base i) iStride iCount fFilter) buf = cur at ih1 ih2 ⊢
    obtain ⟨-, -, hout⟩ := FilterHeightBand_cells cur (base m) iStride iCount fFilter hcount
      hstride
    have hbnd := FilterHeightBand_bounds cur (base m) iStride iCount fFilter lo hi hcount
      hstride hf0 hf1
      (fun k hk => ih1 _ (hin m k (by omega) hk).1 (hin m k (by omega) hk).2)
    constructor
    · intro idx h0 h1
      by_cases hband : ∃ k : Nat, k < iCount ∧ idx = base m + (k : Int) * iStride
      · obtain ⟨k, hk, rfl⟩ := hband
        exact hbnd k hk
      · rw [hout idx (fun k hk hc => hband ⟨k, hk, hc⟩)]
        exact ih1 idx h0 h1
    · intro idx hidx
      rw [hout idx (fun k hk hc => hidx (by rw [hc]; exact hin m k (by omega) hk))]
      exact ih2 idx hidx

/-- At strength 1 a pass of band filters over pairwise disjoint bands copies the first
sample of every band to the whole band and changes nothing else. -/
theorem bandPass_one (base : Nat → Int) (iStride : Int) (iCount : Nat)
    (hcount : 1 ≤ iCount) (hstride : iStride ≠ 0) (m : Nat)
    (hdisj : ∀ i i' k k' : Nat, i < m → i' < m → k < iCount → k' < iCount →
      base i + (k : Int) * iStride = base i' + (k' : Int) * iStride → i = i')
    (buf : FloatBuf) :
    (∀ i k : Nat, i < m → k < iCount →
        (List.range m).foldl (fun b (i : Nat) =>
            FilterHeightBand b (base i) iStride iCount 1) buf (base i + (k : Int) * iStride)
          = buf (base i))
      ∧ (∀ idx : Int, (∀ i k : Nat, i < m → k < iCount → idx ≠ base i + (k : Int) * iStride) →
        (List.range m).foldl (fun b (i : Nat) =>
            FilterHeightBand b (base i) iStride iCount 1) buf idx = buf idx) := by
  induction m with
  | zero =>
    refine ⟨?_, fun idx _ => rfl⟩
    intro i k hi
    omega
  | succ m ih =>
    obtain ⟨ih1, ih2⟩ := ih (fun i i' k k' hi hi' hk hk' h =>
      hdisj i i' k k' (by omega) (by omega) hk hk' h)
    rw [List.range_succ, List.foldl_append]
    simp only [List.foldl_cons, List.foldl_nil]
    generalize (List.range m).foldl (fun b (i : Nat) =>
      FilterHeightBand b (base i) iStride iCount 1) buf = cur at ih1 ih2 ⊢
    obtain ⟨-, -, hout⟩ := FilterHeightBand_cells cur (base m) iStride iCount 1 hcount hstride
    have hone := FilterHeightBand_one cur (base m) iStride iCount hcount hstride
    have hbase : cur (base m) = buf (base m) := by
      apply ih2
      intro i k hi hk hc
      have e : base m + ((0 : Nat) : Int) * iStride = base i + (k : Int) * iStride := by
        simp only [Nat.cast_zero, zero_mul, add_zero]
        exact hc
      have := hdisj m i 0 k (by omega) (by omega) (by omega) hk e
      omega
    constructor
    · intro i k hi hk
      rcases Nat.lt_or_ge i m with hlt | hge
      · rw [hout _ (fun k' hk' hc => by
          have := hdisj i m k k' (by omega) (by omega) hk hk' hc
          omega)]
        exact ih1 i k hlt hk
      · have him : i = m := by omega
        subst him
        rw [hone k hk, hbase]
    · intro idx hidx
      rw [hout idx (fun k hk hc => hidx m k (by omega) hk hc)]
      exact ih2 idx (fun i k hi hk => hidx i k (by omega) hk)


theorem cell_in_grid (s a b : Int) (ha0 : 0 ≤ a) (ha : a < s) (hb0 : 0 ≤ b) (hb : b < s) :
    0 ≤ s * a + b ∧ s * a + b < s * s := by
  constructor
  · nlinarith
  · nlinarith

theorem cell_decomp_unique (s a a' b b' : Int) (hb0 : 0 ≤ b) (hb : b < s) (hc0 : 0 ≤ b')
    (hc : b' < s) (h : s * a + b = s * a' + b') : a = a' ∧ b = b' := by
  have ha : a = a' := by
    rcases lt_trichotomy a a' with hlt | heq | hgt
    · exfalso
      have : a + 1 ≤ a' := hlt
      nlinarith
    · exact heq
    · exfalso
      have : a' + 1 ≤ a := hgt
      nlinarith
  refine ⟨ha, ?_⟩
  subst ha
  linarith

/-- At strength 1, `FilterHeightField` sets every grid cell `(x, z)` to the original value
of cell `(0,0)` and leaves the cells outside the grid unchanged. -/
theorem FilterHeightField_one_cells (m_iSize : Nat) (buf : FloatBuf) (hsize : 1 ≤ m_iSize) :
    (∀ x z : Nat, x < m_iSize → z < m_iSize →
        FilterHeightField m_iSize buf 1 ((m_iSize : Int) * z + x) = buf 0)
      ∧ (∀ idx : Int, ¬ (0 ≤ idx ∧ idx < (m_iSize : Int) * (m_iSize : Int)) →
        FilterHeightField m_iSize buf 1 idx = buf idx) := by
  have hs1 : (1 : Int) ≠ 0 := by decide
  have hsm1 : (-1 : Int) ≠ 0 := by decide
  have hs : (m_iSize : Int) ≠ 0 := by omega
  have hsn : -(m_iSize : Int) ≠ 0 := by omega
  -- pass 1: rows, left to right
  obtain ⟨p1, o1⟩ := bandPass_one (fun (i : Nat) => (m_iSize : Int) * i) 1 m_iSize hsize hs1
    m_iSize
    (by
      intro i i' k k' _ _ hk hk' h
      have := (cell_decomp_unique (m_iSize : Int) i i' k k' (by omega) (by omega) (by omega)
        (by omega) (by simp only at h; linarith)).1
      omega)
    buf
  -- pass 2: rows, right to left
  obtain ⟨p2, o2⟩ := bandPass_one (fun (i : Nat) => (m_iSize : Int) * i + m_iSize - 1) (-1)
    m_iSize hsize hsm1 m_iSize
    (by
      intro i i' k k' _ _ hk hk' h
      have := (cell_decomp_unique (m_iSize : Int) i i' ((m_iSize : Int) - 1 - k)
        ((m_iSize : Int) - 1 - k') (by omega) (by omega) (by omega) (by omega)
        (by simp only at h; linarith)).1
      omega)
    ((List.range m_iSize).foldl (fun b (i : Nat) =>
      FilterHeightBand b ((m_iSize : Int) * i) 1 m_iSize 1) buf)
  -- pass 3: columns, top to bottom
  obtain ⟨p3, o3⟩ := bandPass_one (fun (i : Nat) => (i : Int)) (m_iSize : Int) m_iSize hsize hs
    m_iSize
    (by
      intro i i' k k' hi hi' _ _ h
      have := (cell_decomp_unique (m_iSize : Int) k k' i i' (by omega) (by omega) (by omega)
        (by omega) (by simp only at h; linarith)).2
      omega)
    ((List.range m_iSize).foldl (fun b (i : Nat) =>
      FilterHeightBand b ((m_iSize : Int) * i + m_iSize - 1) (-1) m_iSize 1)
      ((List.range m_iSize).foldl (fun b (i : Nat) =>
        FilterHeightBand b ((m_iSize : Int) * i) 1 m_iSize 1) buf))
  -- pass 4: columns, bottom to top
  obtain ⟨p4, o4⟩ := bandPass_one
    (fun (i : Nat) => (m_iSize : Int) * ((m_iSize : Int) - 1) + i) (-(m_iSize : Int)) m_iSize
    hsize hsn m_iSize
    (by
      intro i i' k k' hi hi' hk hk' h
      have := (cell_decomp_unique (m_iSize : Int) ((m_iSize : Int) - 1 - k)
        ((m_iSize : Int) - 1 - k') i i' (by omega) (by omega) (by omega) (by omega)
        (by simp only at h; linarith)).2
      omega)
    ((List.range m_iSize).foldl (fun b (i : Nat) => FilterHeightBand b (i : Int) m_iSize
      m_iSize 1)
      ((List.range m_iSize).foldl (fun b (i : Nat) =>
        FilterHeightBand b ((m_iSize : Int) * i + m_iSize - 1) (-1) m_iSize 1)
        ((List.range m_iSize).foldl (fun b (i : Nat) =>
          FilterHeightBand b ((m_iSize : Int) * i) 1 m_iSize 1) buf)))
  -- the value of every grid cell after each pass
  have r1 : ∀ x z : Nat, x < m_iSize → z < m_iSize →
      (List.range m_iSize).foldl (fun b (i : Nat) =>
        FilterHeightBand b ((m_iSize : Int) * i) 1 m_iSize 1) buf ((m_iSize : Int) * z + x)
        = buf ((m_iSize : Int) * z) := by
    intro x z hx hz
    have := p1 z x hz hx
    rw [mul_one] at this
    exact this
  have r2 : ∀ x z : Nat, x < m_iSize → z < m_iSize →
      (List.range m_iSize).foldl (fun b (i : Nat) =>
        FilterHeightBand b ((m_iSize : Int) * i + m_iSize - 1) (-1) m_iSize 1)
        ((List.range m_iSize).foldl (fun b (i : Nat) =>
          FilterHeightBand b ((m_iSize : Int) * i) 1 m_iSize 1) buf) ((m_iSize : Int) * z + x)
        = buf ((m_iSize : Int) * z) := by
    intro x z hx hz
    have := p2 z (m_iSize - 1 - x) hz (by omega)
    have e : (m_iSize : Int) * z + m_iSize - 1 + ((m_iSize - 1 - x : Nat) : Int) * (-1)
        = (m_iSize : Int) * z + x := by omega
    have e2 : (m_iSize : Int) * z + m_iSize - 1
        = (m_iSize : Int) * z + ((m_iSize - 1 : Nat) : Int) := by omega
    rw [e, e2, r1 (m_iSize - 1) z (by omega) hz] at this
    exact this
  have r3 : ∀ x z : Nat, x < m_iSize → z < m_iSize →
      (List.range m_iSize).foldl (fun b (i : Nat) => FilterHeightBand b (i : Int) m_iSize
        m_iSize 1)
        ((List.range m_iSize).foldl (fun b (i : Nat) =>
          FilterHeightBand b ((m_iSize : Int) * i + m_iSize - 1) (-1) m_iSize 1)
          ((List.range m_iSize).foldl (fun b (i : Nat) =>
            FilterHeightBand b ((m_iSize : Int) * i) 1 m_iSize 1) buf))
        ((m_iSize : Int) * z + x) = buf 0 := by
    intro x z hx hz
    have := p3 x z hx hz
    have e : (x : Int) + (z : Int) * (m_iSize : Int) = (m_iSize : Int) * z + x := by ring
    have e2 : (x : Int) = (m_iSize : Int) * ((0 : Nat) : Int) + x := by simp
    rw [e] at this
    rw [this, e2, r2 x 0 hx (by omega)]
    simp
  constructor
  · intro x z hx hz
    have := p4 x (m_iSize - 1 - z) hx (by omega)
    have hz' : ((m_iSize - 1 - z : Nat) : Int) = (m_iSize : Int) - 1 - z := by omega
    have e : (m_iSize : Int) * ((m_iSize : Int) - 1) + x
          + ((m_iSize - 1 - z : Nat) : Int) * (-(m_iSize : Int))
        = (m_iSize : Int) * z + x := by
      rw [hz']; ring
    have e2 : (m_iSize : Int) * ((m_iSize : Int) - 1) + x
        = (m_iSize : Int) * ((m_iSize - 1 : Nat) : Int) + x := by
      have : ((m_iSize - 1 : Nat) : Int) = (m_iSize : Int) - 1 := by omega
      rw [this]
    rw [e, e2, r3 x (m_iSize - 1) hx (by omega)] at this
    unfold FilterHeightField
    exact this
  · intro idx hidx
    have g1 : ∀ a b : Int, 0 ≤ a → a < m_iSize → 0 ≤ b → b < m_iSize →
        idx ≠ (m_iSize : Int) * a + b := by
      intro a b ha0 ha hb0 hb hc
      apply hidx
      rw [hc]
      exact cell_in_grid _ a b ha0 ha hb0 hb
    unfold FilterHeightField
    rw [o4 idx (fun i k hi hk hc => g1 ((m_iSize : Int) - 1 - k) i (by omega) (by omega)
        (by omega) (by omega) (by rw [hc]; ring)),
      o3 idx (fun i k hi hk hc => g1 k i (by omega) (by omega) (by omega) (by omega)
        (by rw [hc]; ring)),
      o2 idx (fun i k hi hk hc => g1 i ((m_iSize : Int) - 1 - k) (by omega) (by omega)
        (by omega) (by omega) (by rw [hc]; ring)),
      o1 idx (fun i k hi hk hc => g1 i k (by omega) (by omega) (by omega) (by omega)
        (by rw [hc]; ring))]


/-- The offsets touched by one band pass are `fpBand + k*iStride` for `k < iCount`. -/
theorem FilterHeightBandAccesses_eq (buf : FloatBuf) (fpBand iStride : Int) (iCount : Nat)
    (fFilter : ℚ) (hstride : iStride ≠ 0) :
    FilterHeightBandAccesses buf fpBand iStride iCount fFilter
      = fpBand :: (List.range (iCount - 1)).map
          (fun (i : Nat) => fpBand + ((i : Int) + 1) * iStride) := by
  unfold FilterHeightBandAccesses
  congr 1
  have key : ∀ m : Nat,
      (List.range m).foldl
        (fun (acc : (FloatBuf × ℚ × Int) × List Int) (i : Nat) =>
          (filterBandStep fpBand iStride fFilter acc.1 i, acc.2 ++ [fpBand + acc.1.2.2]))
        ((buf, buf fpBand, iStride), [])
      = ((List.range m).foldl (filterBandStep fpBand iStride fFilter)
            (buf, buf fpBand, iStride),
          (List.range m).map (fun (i : Nat) => fpBand + ((i : Int) + 1) * iStride)) := by
    intro m
    induction m with
    | zero => rfl
    | succ m ih =>
      rw [List.range_succ, List.foldl_append, List.foldl_append, List.map_append, ih]
      simp only [List.foldl_cons, List.foldl_nil, List.map_cons, List.map_nil]
      rw [(filterBand_fold_spec buf fpBand iStride fFilter hstride m).1]
  rw [key]

theorem FilterHeightBandAccesses_mem (buf : FloatBuf) (fpBand iStride : Int) (iCount : Nat)
    (fFilter : ℚ) (hstride : iStride ≠ 0) (hcount : 1 ≤ iCount) (idx : Int)
    (h : idx ∈ FilterHeightBandAccesses buf fpBand iStride iCount fFilter) :
    ∃ k : Nat, k < iCount ∧ idx = fpBand + (k : Int) * iStride := by
  rw [FilterHeightBandAccesses_eq buf fpBand iStride iCount fFilter hstride] at h
  rcases List.mem_cons.mp h with h0 | h1
  · exact ⟨0, by omega, by rw [h0]; simp⟩
  · obtain ⟨i, hi, rfl⟩ := List.mem_map.mp h1
    exact ⟨i + 1, by have := List.mem_range.mp hi; omega, by push_cast; rfl⟩

theorem bandPassTraced_spec (m iCount : Nat) (fFilter : ℚ) (base : Nat → Int) (iStride : Int)
    (hstride : iStride ≠ 0) (hcount : 1 ≤ iCount) (st : FloatBuf × List Int) :
    (bandPassTraced m iCount fFilter base iStride st).1
        = (List.range m).foldl (fun b (i : Nat) =>
            FilterHeightBand b (base i) iStride iCount fFilter) st.1
      ∧ ∀ idx ∈ (bandPassTraced m iCount fFilter base iStride st).2,
          idx ∈ st.2 ∨ ∃ i k : Nat, i < m ∧ k < iCount ∧ idx = base i + (k : Int) * iStride := by
  unfold bandPassTraced
  induction m with
  | zero => exact ⟨rfl, fun idx h => Or.inl h⟩
  | succ m ih =>
    obtain ⟨ih1, ih2⟩ := ih
    rw [List.range_succ, List.foldl_append, List.foldl_append]
    simp only [List.foldl_cons, List.foldl_nil]
    refine ⟨by rw [ih1], ?_⟩
    intro idx hidx
    rcases List.mem_append.mp hidx with h | h
    · rcases ih2 idx h with h' | ⟨i, k, hi, hk, e⟩
      · exact Or.inl h'
      · exact Or.inr ⟨i, k, by omega, hk, e⟩
    · obtain ⟨k, hk, e⟩ := FilterHeightBandAccesses_mem _ _ _ _ _ hstride hcount idx h
      exact Or.inr ⟨m, k, by omega, hk, e⟩

/-- The traced field filter computes `FilterHeightField` and touches only grid cells. -/
theorem FilterHeightFieldTraced_spec (m_iSize : Nat) (buf : FloatBuf) (fFilter : ℚ)
    (hsize : 1 ≤ m_iSize) :
    (FilterHeightFieldTraced m_iSize buf fFilter).1 = FilterHeightField m_iSize buf fFilter
      ∧ ∀ idx ∈ (FilterHeightFieldTraced m_iSize buf fFilter).2,
          0 ≤ idx ∧ idx < ((m_iSize * m_iSize : Nat) : Int) := by
  have hs1 : (1 : Int) ≠ 0 := by decide
  have hsm1 : (-1 : Int) ≠ 0 := by decide
  have hs : (m_iSize : Int) ≠ 0 := by omega
  have hsn : -(m_iSize : Int) ≠ 0 := by omega
  have hgrid : ∀ a b : Int, 0 ≤ a → a < m_iSize → 0 ≤ b → b < m_iSize →
      0 ≤ (m_iSize : Int) * a + b
        ∧ (m_iSize : Int) * a + b < ((m_iSize * m_iSize : Nat) : Int) := by
    intro a b ha0 ha hb0 hb
    have := cell_in_grid _ a b ha0 ha hb0 hb
    push_cast
    exact this
  unfold FilterHeightFieldTraced FilterHeightField
  obtain ⟨a1, m1⟩ := bandPassTraced_spec m_iSize m_iSize fFilter
    (fun (i : Nat) => (m_iSize : Int) * i) 1 hs1 hsize (buf, [])
  obtain ⟨a2, m2⟩ := bandPassTraced_spec m_iSize m_iSize fFilter
    (fun (i : Nat) => (m_iSize : Int) * i + m_iSize - 1) (-1) hsm1 hsize
    (bandPassTraced m_iSize m_iSize fFilter (fun (i : Nat) => (m_iSize : Int) * i) 1 (buf, []))
  obtain ⟨a3, m3⟩ := bandPassTraced_spec m_iSize m_iSize fFilter
    (fun (i : Nat) => (i : Int)) (m_iSize : Int) hs hsize
    (bandPassTraced m_iSize m_iSize fFilter
      (fun (i : Nat) => (m_iSize : Int) * i + m_iSize - 1) (-1)
      (bandPassTraced m_iSize m_iSize fFilter (fun (i : Nat) => (m_iSize : Int) * i) 1
        (buf, [])))
  obtain ⟨a4, m4⟩ := bandPassTraced_spec m_iSize m_iSize fFilter
    (fun (i : Nat) => (m_iSize : Int) * ((m_iSize : Int) - 1) + i) (-(m_iSize : Int)) hsn hsize
    (bandPassTraced m_iSize m_iSize fFilter (fun (i : Nat) => (i : Int)) (m_iSize : Int)
      (bandPassTraced m_iSize m_iSize fFilter
        (fun (i : Nat) => (m_iSize : Int) * i + m_iSize - 1) (-1)
        (bandPassTraced m_iSize m_iSize fFilter (fun (i : Nat) => (m_iSize : Int) * i) 1
          (buf, []))))
  constructor
  · rw [a4, a3, a2, a1]
  · intro idx hidx
    rcases m4 idx hidx with h | ⟨i, k, hi, hk, e⟩
    · rcases m3 idx h with h | ⟨i, k, hi, hk, e⟩
      · rcases m2 idx h with h | ⟨i, k, hi, hk, e⟩
        · rcases m1 idx h with h | ⟨i, k, hi, hk, e⟩
          · exact absurd h (List.not_mem_nil idx)
          · have := hgrid i k (by omega) (by omega) (by omega) (by omega)
            rw [e]
            simpa using this
        · have := hgrid i ((m_iSize : Int) - 1 - k) (by omega) (by omega) (by omega) (by omega)
          have e' : idx = (m_iSize : Int) * i + ((m_iSize : Int) - 1 - k) := by rw [e]; ring
          rw [e']
          exact this
      · have := hgrid k i (by omega) (by omega) (by omega) (by omega)
        have e' : idx = (m_iSize : Int) * k + i := by rw [e]; ring
        rw [e']
        exact this
    · have := hgrid ((m_iSize : Int) - 1 - k) i (by omega) (by omega) (by omega) (by omega)
      have e' : idx = (m_iSize : Int) * ((m_iSize : Int) - 1 - k) + i := by rw [e]; ring
      rw [e']
      exact this

/-- At a strength in `[0,1]`, `FilterHeightField` keeps every grid cell inside any interval
that contains the grid samples, and leaves the cells outside the grid unchanged. -/
theorem FilterHeightField_bounds (m_iSize : Nat) (buf : FloatBuf) (fFilter lo hi : ℚ)
    (hsize : 1 ≤ m_iSize) (hf0 : 0 ≤ fFilter) (hf1 : fFilter ≤ 1)
    (hb : ∀ idx : Int, 0 ≤ idx → idx < ((m_iSize * m_iSize : Nat) : Int) →
      lo ≤ buf idx ∧ buf idx ≤ hi) :
    (∀ idx : Int, 0 ≤ idx → idx < ((m_iSize * m_iSize : Nat) : Int) →
        lo ≤ FilterHeightField m_iSize buf fFilter idx
          ∧ FilterHeightField m_iSize buf fFilter idx ≤ hi)
      ∧ (∀ idx : Int, ¬ (0 ≤ idx ∧ idx < ((m_iSize * m_iSize : Nat) : Int)) →
        FilterHeightField m_iSize buf fFilter idx = buf idx) := by
  have hs1 : (1 : Int) ≠ 0 := by decide
  have hsm1 : (-1 : Int) ≠ 0 := by decide
  have hs : (m_iSize : Int) ≠ 0 := by omega
  have hsn : -(m_iSize : Int) ≠ 0 := by omega
  have hgrid : ∀ a b : Int, 0 ≤ a → a < m_iSize → 0 ≤ b → b < m_iSize →
      0 ≤ (m_iSize : Int) * a + b
        ∧ (m_iSize : Int) * a + b < ((m_iSize * m_iSize : Nat) : Int) := by
    intro a b ha0 ha hb0 hb
    have := cell_in_grid _ a b ha0 ha hb0 hb
    push_cast
    exact this
  obtain ⟨p1, o1⟩ := bandPass_bounds (m_iSize * m_iSize) (fun (i : Nat) => (m_iSize : Int) * i)
    1 m_iSize fFilter lo hi hsize hs1 hf0 hf1 m_iSize
    (by
      intro i k hi hk
      have := hgrid i k (by omega) (by omega) (by omega) (by omega)
      simpa using this)
    buf hb
  obtain ⟨p2, o2⟩ := bandPass_bounds (m_iSize * m_iSize)
    (fun (i : Nat) => (m_iSize : Int) * i + m_iSize - 1) (-1) m_iSize fFilter lo hi hsize hsm1
    hf0 hf1 m_iSize
    (by
      intro i k hi hk
      have := hgrid i ((m_iSize : Int) - 1 - k) (by omega) (by omega) (by omega) (by omega)
      have e : (m_iSize : Int) * i + m_iSize - 1 + (k : Int) * (-1)
          = (m_iSize : Int) * i + ((m_iSize : Int) - 1 - k) := by ring
      simp only [e]
      exact this)
    _ p1
  obtain ⟨p3, o3⟩ := bandPass_bounds (m_iSize * m_iSize) (fun (i : Nat) => (i : Int))
    (m_iSize : Int) m_iSize fFilter lo hi hsize hs hf0 hf1 m_iSize
    (by
      intro i k hi hk
      have := hgrid k i (by omega) (by omega) (by omega) (by omega)
      have e : (i : Int) + (k : Int) * (m_iSize : Int) = (m_iSize : Int) * k + i := by ring
      simp only [e]
      exact this)
    _ p2
  obtain ⟨p4, o4⟩ := bandPass_bounds (m_iSize * m_iSize)
    (fun (i : Nat) => (m_iSize : Int) * ((m_iSize : Int) - 1) + i) (-(m_iSize : Int)) m_iSize
    fFilter lo hi hsize hsn hf0 hf1 m_iSize
    (by
      intro i k hi hk
      have := hgrid ((m_iSize : Int) - 1 - k) i (by omega) (by omega) (by omega) (by omega)
      have e : (m_iSize : Int) * ((m_iSize : Int) - 1) + i + (k : Int) * (-(m_iSize : Int))
          = (m_iSize : Int) * ((m_iSize : Int) - 1 - k) + i := by ring
      simp only [e]
      exact this)
    _ p3
  constructor
  · intro idx h0 h1
    unfold FilterHeightField
    exact p4 idx h0 h1
  · intro idx hidx
    unfold FilterHeightField
    rw [o4 idx hidx, o3 idx hidx, o2 idx hidx, o1 idx hidx]

/-- C23: for every grid of size at least 1, `FilterHeightField` at strength 1 sets every
cell of the grid to the original value of cell (0,0) (cells addressed by offset and by
coordinates), because a band pass at strength 1 copies the first sample of the band to
the whole band; cells outside the grid keep their value. -/
theorem FilterHeightField_strength_one_collapses (m_iSize : Nat) (buf : FloatBuf)
    (hsize : 1 ≤ m_iSize) :
    (∀ i : Nat, i < m_iSize * m_iSize → FilterHeightField m_iSize buf 1 (i : Int) = buf 0)
      ∧ (∀ x z : Nat, x < m_iSize → z < m_iSize →
          FilterHeightField m_iSize buf 1 ((m_iSize : Int) * z + x) = buf 0)
      ∧ (∀ (b : FloatBuf) (fpBand iStride : Int), iStride ≠ 0 → ∀ k : Nat, k < m_iSize →
          FilterHeightBand b fpBand iStride m_iSize 1 (fpBand + (k : Int) * iStride)
            = b fpBand)
      ∧ (∀ idx : Int, ¬ (0 ≤ idx ∧ idx < (m_iSize : Int) * (m_iSize : Int)) →
          FilterHeightField m_iSize buf 1 idx = buf idx) := by
  obtain ⟨hcells, hout⟩ := FilterHeightField_one_cells m_iSize buf hsize
  refine ⟨?_, hcells, ?_, hout⟩
  · intro i hi
    have hpos : 0 < m_iSize := hsize
    have hx : i % m_iSize < m_iSize := Nat.mod_lt _ hpos
    have hz : i / m_iSize < m_iSize := Nat.div_lt_of_lt_mul hi
    have e : (i : Int) = (m_iSize : Int) * ((i / m_iSize : Nat) : Int)
        + ((i % m_iSize : Nat) : Int) := by
      have := Nat.div_add_mod i m_iSize
      exact_mod_cast this.symm
    rw [e]
    exact hcells _ _ hx hz
  · intro b fpBand iStride hstride k hk
    exact FilterHeightBand_one b fpBand iStride m_iSize hsize hstride k hk

/-- Witness for C23: the 2x2 ramp collapses to its first sample. -/
theorem FilterHeightField_strength_one_collapses_witness :
    (1 ≤ 2)
      ∧ (∀ i : Nat, i < 2 * 2 → FilterHeightField 2 rampBuf 1 (i : Int) = rampBuf 0)
      ∧ (∀ x z : Nat, x < 2 → z < 2 →
          FilterHeightField 2 rampBuf 1 (((2 : Nat) : Int) * z + x) = rampBuf 0)
      ∧ (∀ (b : FloatBuf) (fpBand iStride : Int), iStride ≠ 0 → ∀ k : Nat, k < 2 →
          FilterHeightBand b fpBand iStride 2 1 (fpBand + (k : Int) * iStride) = b fpBand)
      ∧ (∀ idx : Int, ¬ (0 ≤ idx ∧ idx < ((2 : Nat) : Int) * ((2 : Nat) : Int)) →
          FilterHeightField 2 rampBuf 1 idx = rampBuf idx) :=
  ⟨by decide, FilterHeightField_strength_one_collapses 2 rampBuf (by decide)⟩

/-- C24: for every grid of size at least 1 and every strength in `[0,1]` (exact
arithmetic), `FilterHeightField` touches only offsets in `[0, size*size)`, every cell of
its result lies between the minimum and the maximum of the input grid, cells outside the
grid are not written, and a buffer that is constant on the grid is left unchanged. -/
theorem FilterHeightField_in_bounds_and_range (m_iSize : Nat) (buf : FloatBuf)
    (fFilter mn mx : ℚ) (hsize : 1 ≤ m_iSize) (hf0 : 0 ≤ fFilter) (hf1 : fFilter ≤ 1)
    (hmn : IsLeast (samples (m_iSize * m_iSize) buf) mn)
    (hmx : IsGreatest (samples (m_iSize * m_iSize) buf) mx) :
    (FilterHeightFieldTraced m_iSize buf fFilter).1 = FilterHeightField m_iSize buf fFilter
      ∧ (∀ idx ∈ (FilterHeightFieldTraced m_iSize buf fFilter).2,
          0 ≤ idx ∧ idx < ((m_iSize * m_iSize : Nat) : Int))
      ∧ (∀ i : Nat, i < m_iSize * m_iSize →
          mn ≤ FilterHeightField m_iSize buf fFilter (i : Int)
            ∧ FilterHeightField m_iSize buf fFilter (i : Int) ≤ mx)
      ∧ (∀ idx : Int, ¬ (0 ≤ idx ∧ idx < ((m_iSize * m_iSize : Nat) : Int)) →
          FilterHeightField m_iSize buf fFilter idx = buf idx)
      ∧ ((∀ i : Nat, i < m_iSize * m_iSize → buf (i : Int) = buf 0) →
          FilterHeightField m_iSize buf fFilter = buf) := by
  obtain ⟨ht1, ht2⟩ := FilterHeightFieldTraced_spec m_iSize buf fFilter hsize
  have hnat : ∀ idx : Int, 0 ≤ idx → idx < ((m_iSize * m_iSize : Nat) : Int) →
      ∃ i : Nat, i < m_iSize * m_iSize ∧ (i : Int) = idx := by
    intro idx h0 h1
    refine ⟨idx.toNat, ?_, ?_⟩
    · omega
    · omega
  have hb : ∀ idx : Int, 0 ≤ idx → idx < ((m_iSize * m_iSize : Nat) : Int) →
      mn ≤ buf idx ∧ buf idx ≤ mx := by
    intro idx h0 h1
    obtain ⟨i, hi, rfl⟩ := hnat idx h0 h1
    exact ⟨hmn.2 ⟨i, hi, rfl⟩, hmx.2 ⟨i, hi, rfl⟩⟩
  obtain ⟨hin, hout⟩ := FilterHeightField_bounds m_iSize buf fFilter mn mx hsize hf0 hf1 hb
  refine ⟨ht1, ht2, ?_, hout, ?_⟩
  · intro i hi
    exact hin (i : Int) (by omega) (by exact_mod_cast hi)
  · intro hconst
    have hc : ∀ idx : Int, 0 ≤ idx → idx < ((m_iSize * m_iSize : Nat) : Int) →
        buf 0 ≤ buf idx ∧ buf idx ≤ buf 0 := by
      intro idx h0 h1
      obtain ⟨i, hi, rfl⟩ := hnat idx h0 h1
      rw [hconst i hi]
      exact ⟨le_refl _, le_refl _⟩
    obtain ⟨hin', hout'⟩ := FilterHeightField_bounds m_iSize buf fFilter (buf 0) (buf 0) hsize
      hf0 hf1 hc
    funext idx
    by_cases hidx : 0 ≤ idx ∧ idx < ((m_iSize * m_iSize : Nat) : Int)
    · have h1 := hin' idx hidx.1 hidx.2
      have h2 := hc idx hidx.1 hidx.2
      exact le_antisymm (le_trans h1.2 h2.1) (le_trans h2.2 h1.1)
    · exact hout' idx hidx

/-- Witness for C24: the 2x2 ramp at strength 1/2, whose samples range over 0 .. 3, and a
constant buffer at the same strength. -/
theorem FilterHeightField_in_bounds_and_range_witness :
    (∀ idx ∈ (FilterHeightFieldTraced 2 rampBuf (1 / 2)).2,
        0 ≤ idx ∧ idx < ((2 * 2 : Nat) : Int))
      ∧ (∀ i : Nat, i < 2 * 2 →
          0 ≤ FilterHeightField 2 rampBuf (1 / 2) (i : Int)
            ∧ FilterHeightField 2 rampBuf (1 / 2) (i : Int) ≤ 3)
      ∧ FilterHeightField 2 flatBuf (1 / 2) = flatBuf :=
  have h := FilterHeightField_in_bounds_and_range 2 rampBuf (1 / 2) 0 3 (by decide)
    (by norm_num) (by norm_num)
    ⟨⟨0, by decide, by simp [rampBuf]⟩, by
      rintro v ⟨i, hi, rfl⟩
      simp [rampBuf]⟩
    ⟨⟨3, by decide, by simp [rampBuf]⟩, by
      rintro v ⟨i, hi, rfl⟩
      have : i ≤ 3 := by omega
      simp only [rampBuf]
      exact_mod_cast this⟩
  have hflat := FilterHeightField_in_bounds_and_range 2 flatBuf (1 / 2) 5 5 (by decide)
    (by norm_num) (by norm_num)
    ⟨⟨0, by decide, rfl⟩, by
      rintro v ⟨i, hi, rfl⟩
      exact le_refl _⟩
    ⟨⟨0, by decide, rfl⟩, by
      rintro v ⟨i, hi, rfl⟩
      exact le_refl _⟩
  ⟨h.2.1, h.2.2.1, hflat.2.2.2.2 (fun _ _ => rfl)⟩

end Terrain
